import Mathlib

/-!
Verification of the `restpf` repository's natural-language specification
against its source code.

The development shallowly embeds the relevant Python source:

* `src/restpf/utils/helper_functions.py` — the dependency scheduler
  `parallel_groups_of_callbacks`, the keyword-argument filter
  `_extract_kwargs_subset` and `async_call`;
* `src/restpf/pipeline/protocol.py` — callback selection
  (`ContextRule._select_callbacks`, `ContextRule.select_callbacks`),
  result merging (`_merge_output_of_callbacks`) and the pipeline
  orchestration (`PipelineBase`).

Callbacks are Python function objects; identity is by reference, so the
embedding represents a callback as a natural number.  Python `dict`s and
`set`s are represented as association lists / duplicate-free lists;
`dict` preserves insertion order, and the embedding's `set` operations
use insertion order as the (unspecified) Python set iteration order.
Python exceptions are modelled with `Except String`; unbounded recursion
and `while` loops are modelled with explicit fuel, where running out of
fuel is the distinguished outcome `"OUT OF FUEL"` (in Python, the
corresponding situation is nontermination or a stack overflow); the
top-level wrappers supply fuel that provably suffices on the executions
the theorems are about.
-/

namespace Restpf

/-! ## Scheduler embedding: `parallel_groups_of_callbacks`

Source: `src/restpf/utils/helper_functions.py`, lines 121-253, together
with the constants `CallbackRegistrarOptions` (option keys `before_all`,
`after_all`, `run_after`) and `TopologySearchColor` (WHITE/GRAY/BLACK)
from `restpf/utils/constants.py`.
-/

/-- Topology search colors, from `restpf.utils.constants.TopologySearchColor`. -/
inductive Color where
  | white
  | gray
  | black
deriving DecidableEq, Repr

/-- Value of the `run_after` registrar option: in Python it is `None`,
a single function, or an iterable of functions. -/
inductive RunAfterDecl where
  | nodecl
  | single (parent : Nat)
  | many (parents : List Nat)
deriving DecidableEq, Repr

/-- Python truthiness of the `run_after` option value: `None` and an
empty iterable are falsy, a function and a non-empty iterable truthy. -/
def RunAfterDecl.truthy : RunAfterDecl → Bool
  | .nodecl => false
  | .single _ => true
  | .many cs => !cs.isEmpty

/-- Restricted registrar options of one callback (`options.get(...)` on
the three `CallbackRegistrarOptions` keys; a missing key yields the
falsy `None`, modelled by the defaults). -/
structure CbOptions where
  before_all : Bool := false
  after_all : Bool := false
  run_after : RunAfterDecl := .nodecl
deriving DecidableEq, Repr

/-- Parents named by the `run_after` declaration, as a list. -/
def CbOptions.declParents (o : CbOptions) : List Nat :=
  match o.run_after with
  | .nodecl => []
  | .single p => [p]
  | .many cs => cs

/-- Lookup in a `defaultdict(set)` modelled as an association list whose
values are duplicate-free lists; a missing key reads as the empty set. -/
def aget (m : List (Nat × List Nat)) (k : Nat) : List Nat :=
  match m with
  | [] => []
  | (k2, v) :: rest => if k2 = k then v else aget rest k

/-- Write-through update of an association list (append when absent). -/
def aset (m : List (Nat × List Nat)) (k : Nat) (v : List Nat) : List (Nat × List Nat) :=
  match m with
  | [] => [(k, v)]
  | (k2, v2) :: rest => if k2 = k then (k2, v) :: rest else (k2, v2) :: aset rest k v

/-- Insertion into a Python set modelled as append-if-absent. -/
def sinsert (l : List Nat) (x : Nat) : List Nat :=
  if x ∈ l then l else l ++ [x]

/-- Model of `m[k].add(x)` on a `defaultdict(set)`. -/
def aadd (m : List (Nat × List Nat)) (k x : Nat) : List (Nat × List Nat) :=
  aset m k (sinsert (aget m k) x)

/-- Model of `m[k] |= set(xs)` on a `defaultdict(set)`. -/
def aunion (m : List (Nat × List Nat)) (k : Nat) (xs : List Nat) : List (Nat × List Nat) :=
  aset m k (xs.foldl sinsert (aget m k))

/-- Lookup in the `searched` color dict; `none` models a `KeyError`. -/
def cget (m : List (Nat × Color)) (k : Nat) : Option Color :=
  match m with
  | [] => none
  | (k2, v) :: rest => if k2 = k then some v else cget rest k

/-- Color assignment `searched[k] = c` (append when the key is new). -/
def cset (m : List (Nat × Color)) (k : Nat) (c : Color) : List (Nat × Color) :=
  match m with
  | [] => [(k, c)]
  | (k2, v2) :: rest => if k2 = k then (k2, c) :: rest else (k2, v2) :: cset rest k c

/-- State built by the single input pass of `parallel_groups_of_callbacks`
(lines 122-185): `root`/`last` designees, the `children`/`parents`
adjacency dicts, the `searched` color dict and the `search_starts` list. -/
structure SchedState where
  root : Option Nat := none
  last : Option Nat := none
  children : List (Nat × List Nat) := []
  parents : List (Nat × List Nat) := []
  searched : List (Nat × Color) := []
  search_starts : List Nat := []
deriving Repr

/-- One iteration of the `for callback, options in ...` pass
(helper_functions.py lines 132-185), with its conflict checks.  The
`if before_all` re-check inside the `after_all` branch of the source is
unreachable (that branch is only entered with `before_all` falsy) and is
therefore not represented. -/
def phase1Step (st : SchedState) (entry : Nat × CbOptions) : Except String SchedState :=
  let callback := entry.1
  let options := entry.2
  if options.before_all then
    if options.after_all || options.run_after.truthy then
      .error "Conflict on before_all."
    else
      match st.root with
      | none =>
        .ok { st with root := some callback,
                      searched := cset st.searched callback .white }
      | some _ => .error "Already set before_all."
  else if options.after_all then
    match st.last with
    | none => .ok { st with last := some callback }
    | some _ => .error "Already set after_all."
  else
    match options.run_after with
    | .single parent =>
      .ok { st with
            children := aadd st.children parent callback,
            parents := aadd st.parents callback parent,
            searched := cset st.searched callback .white }
    | .many cs =>
      let ps := cs.foldl sinsert (aget st.parents callback)
      .ok { st with
            parents := aset st.parents callback ps,
            children := ps.foldl (fun m p => aadd m p callback) st.children,
            searched := cset st.searched callback .white }
    | .nodecl =>
      .ok { st with
            search_starts := st.search_starts ++ [callback],
            searched := cset st.searched callback .white }

/-- The full single input pass. -/
def phase1 (input : List (Nat × CbOptions)) : Except String SchedState :=
  input.foldlM phase1Step {}

/-- The `if root:` binding step (lines 187-194): every search start
becomes a child of the root, and the root becomes the sole start. -/
def rootBind (st : SchedState) : SchedState :=
  match st.root with
  | none => st
  | some r =>
    { st with
      children := st.search_starts.foldl (fun m child => aadd m r child) st.children,
      parents := st.search_starts.foldl (fun m child => aadd m child r) st.parents,
      search_starts := [r] }

/-- State of the depth-first search `DFS` (lines 196-209): the shared
`searched` color dict and the per-start finish-appended `group` list. -/
structure DfsSt where
  searched : List (Nat × Color)
  order : List Nat
deriving Repr

/-- The recursive `DFS` of lines 196-209.  A gray node aborts with the
circular-dependency error; a black node returns; a white node is colored
gray, its children are searched, and it is appended to the group in
finish order and colored black.  The fuel only bounds recursion depth:
each recursive call passes `fuel` unchanged to every child. -/
def dfsVisit (children : List (Nat × List Nat)) : Nat → DfsSt → Nat → Except String DfsSt
  | 0, _, _ => .error "OUT OF FUEL"
  | fuel + 1, st, callback =>
    match cget st.searched callback with
    | none => .error "KeyError"
    | some .gray => .error "Detect circle."
    | some .black => .ok st
    | some .white =>
      match (aget children callback).foldlM
          (fun s x => dfsVisit children fuel s x)
          { st with searched := cset st.searched callback .gray } with
      | .error e => .error e
      | .ok st2 =>
        .ok { searched := cset st2.searched callback .black,
              order := st2.order ++ [callback] }

/-- The `for start_callback in search_starts` loop (lines 211-220):
each start contributes `deque(reversed(group))` when its group is
non-empty; the color dict is shared across starts. -/
def runDfs (children : List (Nat × List Nat)) (fuel : Nat) :
    List (Nat × Color) → List Nat → Except String (List (Nat × Color) × List (List Nat))
  | searched, [] => .ok (searched, [])
  | searched, start :: rest =>
    match dfsVisit children fuel { searched := searched, order := [] } start with
    | .error e => .error e
    | .ok st =>
      match runDfs children fuel st.searched rest with
      | .error e => .error e
      | .ok (searchedF, deques) =>
        .ok (searchedF, (if st.order.isEmpty then [] else [st.order.reverse]) ++ deques)

/-- The readiness test of lines 231-235: a callback is ready unless some
parent reads BLACK in `searched`; a parent absent from `searched` is a
`KeyError`. -/
def readyCheck (parents : List (Nat × List Nat)) (searched : List (Nat × Color))
    (callback : Nat) : Except String Bool :=
  go (aget parents callback)
where
  go : List Nat → Except String Bool
    | [] => .ok true
    | p :: rest =>
      match cget searched p with
      | none => .error "KeyError"
      | some .black => .ok false
      | some _ => go rest

/-- The inner `while group:` of lines 228-241: pop ready callbacks from
the front of one deque until the front is not ready. -/
def popReady (parents : List (Nat × List Nat)) (searched : List (Nat × Color)) :
    List Nat → Except String (List Nat × List Nat)
  | [] => .ok ([], [])
  | callback :: rest =>
    match readyCheck parents searched callback with
    | .error e => .error e
    | .ok false => .ok ([], callback :: rest)
    | .ok true =>
      match popReady parents searched rest with
      | .error e => .error e
      | .ok (popped, remaining) => .ok (callback :: popped, remaining)

/-- One pass of the `for group in groups:` loop (lines 227-241), over
all deques with the colors frozen at the pass start.  Returns the
collected `parallel_group` and the surviving deque contents. -/
def passOnce (parents : List (Nat × List Nat)) (searched : List (Nat × Color)) :
    List (List Nat) → Except String (List Nat × List (List Nat))
  | [] => .ok ([], [])
  | d :: ds =>
    match popReady parents searched d with
    | .error e => .error e
    | .ok (popped, remaining) =>
      match passOnce parents searched ds with
      | .error e => .error e
      | .ok (grp, ds2) => .ok (popped ++ grp, remaining :: ds2)

/-- Completion marking of lines 243-245: each member of the emitted
parallel group is recolored WHITE. -/
def markCompleted (searched : List (Nat × Color)) (grp : List Nat) : List (Nat × Color) :=
  grp.foldl (fun s c => cset s c .white) searched

/-- The outer `while groups:` loop of lines 222-248, with fuel; the
source loops forever when a pass pops nothing, which the model reports
as fuel exhaustion. -/
def groupLoop (parents : List (Nat × List Nat)) :
    Nat → List (Nat × Color) → List (List Nat) → List (List Nat) →
    Except String (List (List Nat))
  | 0, _, _, _ => .error "OUT OF FUEL"
  | _ + 1, _, [], acc => .ok acc
  | fuel + 1, searched, d :: ds, acc =>
    match passOnce parents searched (d :: ds) with
    | .error e => .error e
    | .ok (grp, ds2) =>
      groupLoop parents fuel (markCompleted searched grp)
        (ds2.filter (fun g => !g.isEmpty)) (acc ++ [grp])

/-- The scheduler `parallel_groups_of_callbacks` of
`src/restpf/utils/helper_functions.py` lines 121-253.  The DFS fuel
`searched.length + 1` bounds the recursion depth (only white nodes are
entered, each entry turning one white node gray), and the loop fuel
bounds the pass count by the total number of scheduled callbacks. -/
def parallel_groups_of_callbacks (input : List (Nat × CbOptions)) :
    Except String (List (List Nat)) :=
  match phase1 input with
  | .error e => .error e
  | .ok st0 =>
    let st := rootBind st0
    match runDfs st.children (st.searched.length + 1) st.searched st.search_starts with
    | .error e => .error e
    | .ok (searched1, deques) =>
      match groupLoop st.parents ((deques.map List.length).sum + 1) searched1 deques [] with
      | .error e => .error e
      | .ok groups =>
        .ok (groups ++ (match st.last with | some l => [[l]] | none => []))

/-! ## Python values

Callback results and merged outputs are arbitrary Python values; the
embedding covers the shapes the merge code distinguishes: `None`,
booleans, integers, strings and (insertion-ordered) dicts. -/

/-- A Python value, as handled by `_merge_output_of_callbacks`. -/
inductive PyVal where
  | none
  | pyBool (b : Bool)
  | int (n : Int)
  | str (s : String)
  | dict (entries : List (String × PyVal))

/-- Python truthiness: `None`, `False`, `0`, `""` and `{}` are falsy. -/
def PyVal.truthy : PyVal → Bool
  | .none => false
  | .pyBool b => b
  | .int n => n != 0
  | .str s => !s.isEmpty
  | .dict es => !es.isEmpty

/-- Model of `d.get(k)` on a Python dict: `None` when the key is absent. -/
def dget (m : List (String × PyVal)) (k : String) : PyVal :=
  match m with
  | [] => .none
  | (k2, v) :: rest => if k2 = k then v else dget rest k

/-- Model of `d[k] = v` on a Python dict: update in place, else append. -/
def dset (m : List (String × PyVal)) (k : String) (v : PyVal) : List (String × PyVal) :=
  match m with
  | [] => [(k, v)]
  | (k2, v2) :: rest => if k2 = k then (k2, v) :: rest else (k2, v2) :: dset rest k v

/-! ## Tree-state merging

`_merge_output_of_callbacks` lives in `src/restpf/pipeline/protocol.py`
(lines 219-241); the `TreeState` scratch structure it consumes is
imported from `restpf.utils.helper_classes`, which is not part of the
provided sources. -/

/-- Modelled from the spec: `TreeState` (`restpf.utils.helper_classes`,
not among the provided sources) is "a mutable tree keyed by path ...;
each node holds an optional scalar/collection value and named children;
'touch' on a path creates intermediate nodes on demand".  A node's
`value` is `Option PyVal` so that the root's `root_gap` accessor can
report whether a value was stored on the root path; a child node's
`value` read by the merge helper collapses an unset value to Python's
`None`.  A node object is falsy exactly when it has no children. -/
inductive TreeState where
  | mk (value : Option PyVal) (children : List (String × TreeState))

/-- Value stored at a tree-state node. -/
def TreeState.value : TreeState → Option PyVal
  | .mk v _ => v

/-- Named children of a tree-state node. -/
def TreeState.children : TreeState → List (String × TreeState)
  | .mk _ cs => cs

/-- Child lookup among a node's named children. -/
def tsGetChild (cs : List (String × TreeState)) (n : String) : Option TreeState :=
  match cs with
  | [] => Option.none
  | (n2, t) :: rest => if n2 = n then some t else tsGetChild rest n

/-- Child replacement (append when the name is new). -/
def tsSetChild (cs : List (String × TreeState)) (n : String) (t : TreeState) :
    List (String × TreeState) :=
  match cs with
  | [] => [(n, t)]
  | (n2, t2) :: rest => if n2 = n then (n2, t) :: rest else (n2, t2) :: tsSetChild rest n t

/-- Modelled from the spec: `tree_state.touch(path).value = ret`
(protocol.py line 341) — touching a path creates intermediate empty
nodes on demand and stores the callback's raw result at the final
node. -/
def TreeState.touchSet : TreeState → List String → PyVal → TreeState
  | .mk _ cs, [], r => .mk (some r) cs
  | .mk v cs, name :: rest, r =>
    .mk v (tsSetChild cs name
      (((tsGetChild cs name).getD (.mk Option.none [])).touchSet rest r))

/-- The tree-state built by the `for path, ret in zip(paths, rets)` loop
of protocol.py lines 339-342, starting from `TreeState()`. -/
def buildTreeState (pairs : List (List String × PyVal)) : TreeState :=
  pairs.foldl (fun t pr => t.touchSet pr.1 pr.2) (.mk Option.none [])

/-- Number of nodes of a tree-state; used to provision recursion fuel
for the merge helper. -/
def TreeState.size : TreeState → Nat
  | .mk _ cs => 1 + sizeList cs
where
  sizeList : List (String × TreeState) → Nat
    | [] => 0
    | (_, t) :: rest => t.size + sizeList rest

/-- The recursive `helper` of `_merge_output_of_callbacks` (protocol.py
lines 221-235).  `ts` is the children mapping of the current node (the
`tree_state` argument, falsy exactly when empty); a leaf returns
`child_value if child_value else ret`; an inner node takes `ret` (or
`child_value` when `ret` is falsy), resets it to `{}` unless it is a
dict, and fills one entry per child in declaration order.  The fuel
only bounds the recursion depth; the wrapper supplies enough for the
whole tree. -/
def mergeHelper : Nat → PyVal → PyVal → List (String × TreeState) → PyVal
  | 0, _, _, _ => .none
  | fuel + 1, ret, child_value, ts =>
    match ts with
    | [] => if child_value.truthy then child_value else ret
    | _ :: _ =>
      let r1 := if ret.truthy then ret else child_value
      let base := match r1 with
        | .dict es => es
        | _ => []
      .dict (ts.foldl
        (fun m nc =>
          dset m nc.1 (mergeHelper fuel (dget m nc.1) (nc.2.value.getD .none) nc.2.children))
        base)

/-- The function `_merge_output_of_callbacks` (protocol.py lines
219-241): the root value, when stored (`root_gap`), seeds the
accumulator, else `{}`; then the helper reconstructs the tree. -/
def _merge_output_of_callbacks (t : TreeState) : PyVal :=
  let ret := match t.value with
    | some v => v
    | Option.none => .dict []
  mergeHelper (t.size + 1) ret .none t.children

/-! ## Callback selection

`ContextRule._select_callbacks` and `ContextRule.select_callbacks`,
protocol.py lines 107-163. -/

/-- A schema node: `bh_path` and `bh_named_children` are the attributes
the selection walk reads (declared in `restpf.resource.attributes`,
outside the provided sources, and used here as plain data). -/
inductive Attr where
  | mk (bh_path : List String) (bh_named_children : List (String × Attr))

/-- Path of a schema node. -/
def Attr.bh_path : Attr → List String
  | .mk p _ => p

/-- Named children of a schema node. -/
def Attr.bh_named_children : Attr → List (String × Attr)
  | .mk _ cs => cs

/-- A per-request state-tree node; its named fields mirror the schema
node's children, each holding the child state or `None` for absent
data.  A state object itself is truthy; absence is `Option.none`. -/
inductive StateNode where
  | mk (fields : List (String × Option StateNode))

/-- Model of `getattr(state, name)` on a state node whose attributes
mirror the schema children. -/
def sgetattr (s : StateNode) (name : String) : Option StateNode :=
  match s with
  | .mk fields => go fields
where
  go : List (String × Option StateNode) → Option StateNode
    | [] => Option.none
    | (n2, v) :: rest => if n2 = name then v else go rest

/-- Number of nodes of a schema tree; used to provision breadth-first
traversal fuel. -/
def Attr.count : Attr → Nat
  | .mk _ cs => 1 + countList cs
where
  countList : List (String × Attr) → Nat
    | [] => 0
    | (_, a) :: rest => a.count + countList rest

/-- A selected (callback, schema-node, state) triple; the registrar
options returned by the query are discarded by the selection loop
(protocol.py line 117-121). -/
abbrev Triple := Nat × Attr × Option StateNode

/-- The `while queue:` breadth-first loop of `_select_callbacks`
(protocol.py lines 115-129): pop a (node, state) pair, include the
triple when a callback is registered and `state or root_state is None`
holds, and enqueue every named child with its child state (`None` when
the popped state is absent).  Fuel only guards the recursion; the
wrapper supplies enough for the whole tree. -/
def selectLoop (query : List String → Option (Nat × CbOptions)) (root_state : Option StateNode) :
    Nat → List (Attr × Option StateNode) → List Triple → List Triple
  | _, [], acc => acc
  | 0, _ :: _, acc => acc
  | fuel + 1, (attr, state) :: queue, acc =>
    let acc2 := match query attr.bh_path with
      | some cbOpts =>
        if state.isSome || root_state.isNone then acc ++ [(cbOpts.1, attr, state)] else acc
      | Option.none => acc
    let enqueued := attr.bh_named_children.map (fun nc =>
      (nc.2, match state with
             | some s => sgetattr s nc.1
             | Option.none => Option.none))
    selectLoop query root_state fuel (queue ++ enqueued) acc2

/-- The method `ContextRule._select_callbacks` (protocol.py lines
107-130). -/
def _select_callbacks (query : List String → Option (Nat × CbOptions))
    (root_attr : Attr) (root_state : Option StateNode) : List Triple :=
  selectLoop query root_state (root_attr.count + 1) [(root_attr, root_state)] []

/-- One schema collection of a resource: the callback registry query
(`get_registered_callback_and_options`) and the schema root
(`attr_obj`).  The value is `Option.none` exactly when the raw
collection attribute on the resource is `None`. -/
structure AttrCollection where
  query : List String → Option (Nat × CbOptions)
  attr_obj : Attr

/-- The parts of a resource object that the pipeline reads.  Resource
objects also carry a resource-identifier collection; `select_callbacks`
never reads it, and it appears here so that claims about it can be
stated. -/
structure Resource where
  attributes : Option AttrCollection
  relationships : Option AttrCollection
  resource_id_obj : Option AttrCollection

/-- The `_COLLECTION_NAMES` constant of protocol.py line 21. -/
def COLLECTION_NAMES : List String := ["attributes", "relationships", "resource_id"]

/-- A `ResourceState` namedtuple (protocol.py lines 23-26). -/
structure ResourceState where
  attributes : Option StateNode
  relationships : Option StateNode
  resource_id : Option StateNode

/-- The method `ContextRule.select_callbacks` (protocol.py lines
133-163): run the per-collection selection for `attributes` and
`relationships` when the resource declares them, then give every
remaining collection name — always including `resource_id` — the empty
list.  The returned association list models the insertion-ordered
Python dict. -/
def select_callbacks (resource : Resource) (state : ResourceState) :
    List (String × List Triple) :=
  let ret : List (String × List Triple) := []
  let ret := match resource.attributes with
    | some col => ret ++ [("attributes", _select_callbacks col.query col.attr_obj state.attributes)]
    | Option.none => ret
  let ret := match resource.relationships with
    | some col => ret ++ [("relationships", _select_callbacks col.query col.attr_obj state.relationships)]
    | Option.none => ret
  COLLECTION_NAMES.foldl
    (fun r name => if (r.lookup name).isSome then r else r ++ [(name, [])]) ret

/-! ## The invoke phase and the pipeline

`PipelineBase` of protocol.py lines 244-372.  Awaiting a coroutine is
pure in the embedding; a callback's behaviour is a function from its
node and state to its returned value.  `asyncio.gather(*coros)` starts
all its argument coroutines together, so the concurrency structure of
`_invoke_callbacks` (lines 294-346) is: one batch per collection
containing every selected callback of that collection, all batches
awaited together by the outer gather. -/

/-- The `for callback, attr, state in callback_and_options` loop of
protocol.py lines 310-320: build the `async_gathers` and `async_paths`
lists for one collection. -/
def invokeGathersForCollection (triples : List Triple) : List Nat × List (List String) :=
  triples.foldl (fun acc t => (acc.1 ++ [t.1], acc.2 ++ [t.2.1.bh_path])) ([], [])

/-- The concurrent-batch structure in which `_invoke_callbacks` runs one
collection's callbacks: `asyncio.gather(*callbacks)` (lines 325-330) is
a single batch containing them all. -/
def invokeExecutionGroups (triples : List Triple) : List (List Nat) :=
  [(invokeGathersForCollection triples).1]

/-- The result-collection and merge loop of protocol.py lines 332-343
for one collection: zip the paths with the gathered results, touch each
path into a fresh tree-state, and merge. -/
def invokeMergeCollection (cbBeh : Nat → Attr → Option StateNode → PyVal)
    (triples : List Triple) : PyVal :=
  let paths := (invokeGathersForCollection triples).2
  let rets := triples.map (fun t => cbBeh t.1 t.2.1 t.2.2)
  _merge_output_of_callbacks (buildTreeState (paths.zip rets))

/-- The method `PipelineBase._invoke_callbacks` (protocol.py lines
294-346): select, invoke every selected callback (the returned trace
lists them in gather order), and merge per collection. -/
def invokeCallbacks (cbBeh : Nat → Attr → Option StateNode → PyVal)
    (resource : Resource) (input_state : ResourceState) :
    List (String × PyVal) × List Nat :=
  let name2selected := select_callbacks resource input_state
  (name2selected.map (fun p => (p.1, invokeMergeCollection cbBeh p.2)),
   (name2selected.map (fun p => (invokeGathersForCollection p.2).1)).flatten)

/-- The external collaborators of a pipeline (state builder, validation
rules, optional representation generator), abstracted over as the
source classes delegate to them. -/
structure Collaborators where
  build_input_state : Resource → ResourceState
  validate_input_state : ResourceState → Bool
  build_output_state : Resource → List (String × PyVal) → ResourceState
  validate_output_state : ResourceState → Bool
  rep_generator : Option (Resource → ResourceState → PyVal)

/-- The method `PipelineBase.run` (protocol.py lines 368-372) and the
phase methods it awaits in order: build+validate the input state (lines
281-292), invoke callbacks, build+validate the output state (lines
348-358), generate the representation (lines 360-366).  The second
component is the trace of invoked callbacks; a validation failure
raises before later phases run. -/
def pipelineRun (collab : Collaborators) (cbBeh : Nat → Attr → Option StateNode → PyVal)
    (resource : Resource) :
    Except String (ResourceState × Option PyVal) × List Nat :=
  let input_state := collab.build_input_state resource
  if !collab.validate_input_state input_state then
    (.error "TODO: input state not valid", [])
  else
    let invoked := invokeCallbacks cbBeh resource input_state
    let output_state := collab.build_output_state resource invoked.1
    if !collab.validate_output_state output_state then
      (.error "TODO: output state not valid", invoked.2)
    else
      match collab.rep_generator with
      | some g => (.ok (output_state, some (g resource output_state)), invoked.2)
      | Option.none => (.ok (output_state, Option.none), invoked.2)

/-! ## Keyword-argument filtering

`_extract_kwargs_subset` and `async_call`,
`src/restpf/utils/helper_functions.py` lines 32-72.  The signature data
`inspect.signature` provides is modelled as the parameter-name list and
the sublist of parameters without a default.  The memoising cache of
lines 32-51 stores exactly the value recomputation would produce, so it
is not represented. -/

/-- Signature data of a Python function as read by
`_extract_kwargs_subset`. -/
structure PyFuncSig where
  params_all : List String
  params_without_default : List String

/-- The function `_extract_kwargs_subset` (lines 35-61): raise
`RuntimeError('Missing keys')` unless every defaultless parameter is
among the keyword keys, then keep exactly the keywords named by some
parameter.  Python builds the subset by iterating the set
`params_all & kwargs_keys` in unspecified order; the model keeps the
original keyword order, which carries the same key-value mapping. -/
def _extract_kwargs_subset (sig : PyFuncSig) (kwargs : List (String × PyVal)) :
    Except String (List (String × PyVal)) :=
  let kwargs_keys := kwargs.map Prod.fst
  if sig.params_without_default.all (fun p => p ∈ kwargs_keys) then
    .ok (kwargs.filter (fun kv => sig.params_all.contains kv.1))
  else
    .error "Missing keys"

/-- The function `async_call` (lines 64-72) invoked with no positional
arguments: filter the keywords, then call the target with the filtered
subset.  The returned value is the keyword dict the target receives;
when filtering raises, the target is never called. -/
def async_call_no_positional (sig : PyFuncSig) (kwargs : List (String × PyVal)) :
    Except String (List (String × PyVal)) :=
  match _extract_kwargs_subset sig kwargs with
  | .error e => .error e
  | .ok subset => .ok subset

/-! ## Reference definitions and concrete instances used by the claims -/

/-- Breadth-first visit order of the schema/state walk, following the
spec's words for the Schema Tree Selector ("walks it breadth-first",
enqueuing every named child together with its corresponding child state,
or absent state if the parent state is absent).  Reference enumeration
against which the selection filter is characterised. -/
def bfsNodes : Nat → List (Attr × Option StateNode) → List (Attr × Option StateNode) →
    List (Attr × Option StateNode)
  | _, [], acc => acc
  | 0, _ :: _, acc => acc
  | fuel + 1, (attr, state) :: queue, acc =>
    bfsNodes fuel
      (queue ++ attr.bh_named_children.map (fun nc =>
        (nc.2, match state with
               | some s => sgetattr s nc.1
               | Option.none => Option.none)))
      (acc ++ [(attr, state)])

/-- The filter the selection loop applies to each visited (node, state)
pair: keep it when a callback is registered at the node's path and
`state or root_state is None` holds. -/
def selFilter (query : List String → Option (Nat × CbOptions)) (root_state : Option StateNode)
    (as : Attr × Option StateNode) : Option Triple :=
  match query as.1.bh_path with
  | some cbOpts => if as.2.isSome || root_state.isNone then some (cbOpts.1, as.1, as.2) else Option.none
  | Option.none => Option.none

/-- Error messages of the scheduler's configuration-conflict checks. -/
def conflictMessages : List String :=
  ["Conflict on before_all.", "Already set before_all.", "Already set after_all."]

/-- A scheduler outcome that is a configuration-conflict failure. -/
def isConflictResult (r : Except String (List (List Nat))) : Prop :=
  ∃ msg, r = .error msg ∧ msg ∈ conflictMessages

/-- A one-pass outcome that is a configuration-conflict failure. -/
def isConflictState (r : Except String SchedState) : Prop :=
  ∃ msg, r = .error msg ∧ msg ∈ conflictMessages

/-- Schema with a root and one child `x`, used by concrete runs. -/
def exSchemaRootX : Attr := .mk [] [("x", .mk ["x"] [])]

/-- Registry with a single callback `7` registered at path `x`. -/
def exQueryC5 : List String → Option (Nat × CbOptions) :=
  fun p => if p = ["x"] then some (7, {}) else Option.none

/-- Registry registering callback `0` at the root and callback `1`,
declared `run_after` callback `0`, at path `x`. -/
def exQueryC1 : List String → Option (Nat × CbOptions) :=
  fun p =>
    if p = ([] : List String) then some (0, {})
    else if p = ["x"] then some (1, { run_after := .single 0 })
    else Option.none

/-- A state tree with present data for the child `x`. -/
def exStateNodeC1 : StateNode := .mk [("x", some (.mk []))]

/-- A resource declaring only the attributes collection, carrying
`exQueryC1` over `exSchemaRootX`. -/
def exResourceC1 : Resource :=
  { attributes := some { query := exQueryC1, attr_obj := exSchemaRootX },
    relationships := Option.none,
    resource_id_obj := Option.none }

/-- Input state for `exResourceC1` with attribute data present. -/
def exStateC1 : ResourceState :=
  { attributes := some exStateNodeC1,
    relationships := Option.none,
    resource_id := Option.none }

/-- A resource-identifier collection with callback `9` registered on its
root path. -/
def exIdColC6 : AttrCollection :=
  { query := fun p => if p = ([] : List String) then some (9, {}) else Option.none,
    attr_obj := .mk [] [] }

/-- A resource whose only populated collection is the
resource-identifier one. -/
def exResourceC6 : Resource :=
  { attributes := Option.none,
    relationships := Option.none,
    resource_id_obj := some exIdColC6 }

/-- An input state with every collection state absent. -/
def exStateC6 : ResourceState :=
  { attributes := Option.none, relationships := Option.none, resource_id := Option.none }

/-- Collaborators whose input validation rule rejects every state. -/
def exCollabC9 : Collaborators :=
  { build_input_state := fun _ => exStateC6,
    validate_input_state := fun _ => false,
    build_output_state := fun _ _ => exStateC6,
    validate_output_state := fun _ => true,
    rep_generator := Option.none }

/-! ## Scheduler verification: predicates on inputs and states -/

/-- Keys of the `searched` color dict. -/
def ckeys (m : List (Nat × Color)) : List Nat := m.map Prod.fst

/-- Number of WHITE entries of the `searched` color dict. -/
def whiteCount (m : List (Nat × Color)) : Nat :=
  m.countP (fun p => p.2 == Color.white)

/-- The child edge relation of the built dependency graph: `y` is
recorded as a child of `x` (`y` must run after `x`). -/
def chEdge (children : List (Nat × List Nat)) (x y : Nat) : Prop :=
  y ∈ aget children x

/-- All recorded children name callbacks present in the color dict, so
the search never raises a `KeyError`. -/
def KeysClosed (children : List (Nat × List Nat)) (s : List (Nat × Color)) : Prop :=
  ∀ p y, y ∈ aget children p → y ∈ ckeys s

/-- Invariant tying a color dict to the finish-ordered list `done` of
completed callbacks: `done` has no duplicates, the BLACK entries are
exactly its members, and every recorded child of a member occurs
strictly earlier in `done` than the member. -/
def DfsGood (children : List (Nat × List Nat)) (s : List (Nat × Color)) (done : List Nat) : Prop :=
  done.Nodup ∧ (∀ k, cget s k = some Color.black ↔ k ∈ done) ∧
    (∀ x ∈ done, ∀ y, y ∈ aget children x → [y, x].Sublist done)

/-- An input entry that is neither `RunFirst` nor `RunLast`. -/
def ordEntry (e : Nat × CbOptions) : Bool := !e.2.before_all && !e.2.after_all

/-- Callbacks of the ordinary (graph-node) entries, in input order. -/
def ordCallbacks (L : List (Nat × CbOptions)) : List Nat :=
  (L.filter ordEntry).map Prod.fst

/-- Callbacks of the ordinary entries with no `run_after` declaration,
in input order — the zero-parent start points. -/
def zeroParentCallbacks (L : List (Nat × CbOptions)) : List Nat :=
  (L.filter (fun e => ordEntry e && decide (e.2.run_after = RunAfterDecl.nodecl))).map Prod.fst

/-- The declared `RunFirst` callback, if any. -/
def rootOf (L : List (Nat × CbOptions)) : Option Nat :=
  (L.find? (fun e => e.2.before_all)).map Prod.fst

/-- The declared `RunLast` callback, if any. -/
def lastOf (L : List (Nat × CbOptions)) : Option Nat :=
  (L.find? (fun e => e.2.after_all)).map Prod.fst

/-- The declared `RunAfter` edge relation of an input: `a` is declared
to run after `b`. -/
def declEdge (L : List (Nat × CbOptions)) (a b : Nat) : Prop :=
  ∃ e ∈ L, e.1 = a ∧ b ∈ e.2.declParents

/-- Well-formed constraint set: callbacks are pairwise distinct, at most
one `RunFirst` and one `RunLast` are declared and neither mixes with
other constraints, every declared parent is an ordinary callback of the
set, and `RunAfter` declarations name at least one parent. -/
structure WfInput (L : List (Nat × CbOptions)) : Prop where
  nodup : (L.map Prod.fst).Nodup
  one_root : L.countP (fun e => e.2.before_all) ≤ 1
  one_last : L.countP (fun e => e.2.after_all) ≤ 1
  root_pure : ∀ e ∈ L, e.2.before_all = true →
    e.2.after_all = false ∧ e.2.run_after = RunAfterDecl.nodecl
  last_pure : ∀ e ∈ L, e.2.after_all = true → e.2.run_after = RunAfterDecl.nodecl
  parents_ord : ∀ e ∈ L, ordEntry e = true → ∀ p ∈ e.2.declParents, p ∈ ordCallbacks L
  ra_nonempty : ∀ e ∈ L, ∀ cs, e.2.run_after = RunAfterDecl.many cs → cs ≠ []

/-- Facts relating the color dict and order list before and after one
successful search step: keys are preserved, the WHITE count does not
grow, BLACK and GRAY entries persist, no new GRAY entries appear, and
the order list only grows at its end. -/
structure DfsStep (st st2 : DfsSt) : Prop where
  keys : ckeys st2.searched = ckeys st.searched
  white_le : whiteCount st2.searched ≤ whiteCount st.searched
  black_mono : ∀ k, cget st.searched k = some Color.black → cget st2.searched k = some Color.black
  gray_mono : ∀ k, cget st.searched k = some Color.gray → cget st2.searched k = some Color.gray
  gray_back : ∀ k, cget st2.searched k = some Color.gray → cget st.searched k = some Color.gray
  order_ext : ∃ d, st2.order = st.order ++ d

/-- Acyclicity of the built child-edge graph. -/
def Acyclic (children : List (Nat × List Nat)) : Prop :=
  ∀ x, ¬ Relation.TransGen (chEdge children) x x

/-- A color dict with no GRAY entry. -/
def GrayFree (s : List (Nat × Color)) : Prop :=
  ∀ g, cget s g ≠ some Color.gray

/-- Characterization of the one-pass state after processing a prefix of
the input: designees, start points and keys follow the prefix, all
colors are WHITE, the parent sets are the declared parents of the
prefix's ordinary entries, and children/parents are converse. -/
def Phase1Inv (P : List (Nat × CbOptions)) (st : SchedState) : Prop :=
  st.root = rootOf P ∧
  st.last = lastOf P ∧
  st.search_starts = zeroParentCallbacks P ∧
  ckeys st.searched = (P.filter (fun e => !e.2.after_all)).map Prod.fst ∧
  (∀ k c, cget st.searched k = some c → c = Color.white) ∧
  (∀ c p, p ∈ aget st.parents c ↔
    ∃ e ∈ P, e.1 = c ∧ ordEntry e = true ∧ p ∈ e.2.declParents) ∧
  (∀ p c, c ∈ aget st.children p ↔ p ∈ aget st.parents c)

/-- Facts about the scheduler state handed to the traversal: the state
reached after the one-pass phase and the root binding on a duplicate-free
input. -/
structure SetupFacts (L : List (Nat × CbOptions)) (st : SchedState) : Prop where
  keys : ckeys st.searched = (L.filter (fun e => !e.2.after_all)).map Prod.fst
  white : ∀ k c, cget st.searched k = some c → c = Color.white
  lastc : st.last = lastOf L
  par : ∀ c p, p ∈ aget st.parents c ↔
    ((∃ e ∈ L, e.1 = c ∧ ordEntry e = true ∧ p ∈ e.2.declParents) ∨
      (rootOf L = some p ∧ c ∈ zeroParentCallbacks L))
  conv : ∀ p c, c ∈ aget st.children p ↔ p ∈ aget st.parents c
  starts_none : rootOf L = none → st.search_starts = zeroParentCallbacks L
  starts_some : ∀ r, rootOf L = some r → st.search_starts = [r]

/-- Every parent read by the grouping loop is itself scheduled and
finishes strictly later in the recorded finish order `G`. -/
def ParentsLater (P : List (Nat × List Nat)) (G : List Nat) : Prop :=
  ∀ k ∈ G, ∀ p ∈ aget P k, p ∈ G ∧ [k, p].Sublist G

/-- Invariant of the grouping loop, relative to the parent map `P` and
the traversal finish order `G`: the pending deques are nonempty,
duplicate-free, position-descending slices of `G`, the BLACK entries are
exactly the pending callbacks, and every other recorded callback has
been recolored WHITE. -/
structure GroupInv (G : List Nat) (s : List (Nat × Color))
    (ds : List (List Nat)) : Prop where
  ne : ∀ d ∈ ds, d ≠ []
  mem_G : ∀ k ∈ ds.flatten, k ∈ G
  nodup : ds.flatten.Nodup
  desc : ∀ d ∈ ds, d.Pairwise (fun a b => G.indexOf b < G.indexOf a)
  black_iff : ∀ k, cget s k = some Color.black ↔ k ∈ ds.flatten
  white_done : ∀ k ∈ G, k ∉ ds.flatten → cget s k = some Color.white
  bw : ∀ k ∈ G, cget s k = some Color.black ∨ cget s k = some Color.white

/-! ## Supporting lemmas -/

/-- Lookup after an assignment to the same key. -/
theorem cget_cset_self (m : List (Nat × Color)) (k : Nat) (c : Color) :
    cget (cset m k c) k = some c := by
  induction m with
  | nil => simp [cset, cget]
  | cons e rest ih =>
    by_cases hk : e.1 = k
    · simp [cset, cget, hk]
    · simp [cset, cget, hk, ih]

/-- Lookup after an assignment to a different key. -/
theorem cget_cset_ne (m : List (Nat × Color)) (k k2 : Nat) (c : Color) (h : k2 ≠ k) :
    cget (cset m k c) k2 = cget m k2 := by
  induction m with
  | nil => simp [cset, cget, Ne.symm h]
  | cons e rest ih =>
    by_cases hk : e.1 = k
    · subst hk
      simp [cset, cget, Ne.symm h]
    · simp only [cset, if_neg hk]
      by_cases hk2 : e.1 = k2
      · simp [cget, hk2]
      · simp [cget, hk2, ih]

/-- A successful lookup witnesses key membership. -/
theorem mem_ckeys_of_cget {m : List (Nat × Color)} {k : Nat} {c : Color}
    (h : cget m k = some c) : k ∈ ckeys m := by
  unfold ckeys
  induction m with
  | nil => simp [cget] at h
  | cons e rest ih =>
    by_cases hk : e.1 = k
    · simp [hk]
    · simp only [cget, if_neg hk] at h
      simp only [List.map_cons, List.mem_cons]
      exact Or.inr (ih h)

/-- A present key has some color. -/
theorem cget_isSome_of_mem_ckeys {m : List (Nat × Color)} {k : Nat}
    (h : k ∈ ckeys m) : ∃ c, cget m k = some c := by
  unfold ckeys at h
  induction m with
  | nil => simp at h
  | cons e rest ih =>
    by_cases hk : e.1 = k
    · exact ⟨e.2, by simp [cget, hk]⟩
    · simp only [List.map_cons, List.mem_cons] at h
      rcases h with h1 | h2
      · exact absurd h1.symm hk
      · rcases ih h2 with ⟨c, hc⟩
        exact ⟨c, by simp [cget, hk, hc]⟩

/-- Assigning an already-present key preserves the key list. -/
theorem ckeys_cset_of_mem {m : List (Nat × Color)} {k : Nat} (c : Color)
    (h : k ∈ ckeys m) : ckeys (cset m k c) = ckeys m := by
  unfold ckeys at *
  induction m with
  | nil => simp at h
  | cons e rest ih =>
    by_cases hk : e.1 = k
    · simp [cset, hk]
    · simp only [List.map_cons, List.mem_cons] at h
      rcases h with h1 | h2
      · exact absurd h1.symm hk
      · simp [cset, hk, ih h2]

/-- Recoloring a WHITE key away from WHITE removes exactly one WHITE
entry. -/
theorem whiteCount_cset_of_white {m : List (Nat × Color)} {k : Nat} {c : Color}
    (h : cget m k = some Color.white) (hc : c ≠ Color.white) :
    whiteCount (cset m k c) + 1 = whiteCount m := by
  induction m with
  | nil => simp [cget] at h
  | cons e rest ih =>
    by_cases hk : e.1 = k
    · simp only [cget, if_pos hk] at h
      obtain ⟨k1, c1⟩ := e
      injection h with h2
      subst h2
      simp only at hk
      subst hk
      simp [cset, whiteCount, List.countP_cons, hc]
    · simp only [cget, if_neg hk] at h
      obtain ⟨k1, c1⟩ := e
      simp only [cset, whiteCount, List.countP_cons, if_neg hk]
      have := ih h
      simp only [whiteCount] at this
      omega

/-- Recoloring a non-WHITE key to a non-WHITE color preserves the WHITE
count. -/
theorem whiteCount_cset_of_not_white {m : List (Nat × Color)} {k : Nat} {c0 c : Color}
    (h : cget m k = some c0) (h0 : c0 ≠ Color.white) (hc : c ≠ Color.white) :
    whiteCount (cset m k c) = whiteCount m := by
  induction m with
  | nil => simp [cget] at h
  | cons e rest ih =>
    by_cases hk : e.1 = k
    · simp only [cget, if_pos hk] at h
      obtain ⟨k1, c1⟩ := e
      injection h with h2
      subst h2
      simp only at hk
      subst hk
      simp [cset, whiteCount, List.countP_cons, hc, h0]
    · simp only [cget, if_neg hk] at h
      obtain ⟨k1, c1⟩ := e
      simp only [cset, whiteCount, List.countP_cons, if_neg hk]
      have := ih h
      simp only [whiteCount] at this
      omega

/-- A WHITE entry makes the WHITE count positive. -/
theorem whiteCount_pos_of_white {m : List (Nat × Color)} {k : Nat}
    (h : cget m k = some Color.white) : 1 ≤ whiteCount m := by
  induction m with
  | nil => simp [cget] at h
  | cons e rest ih =>
    by_cases hk : e.1 = k
    · simp only [cget, if_pos hk] at h
      obtain ⟨k1, c1⟩ := e
      injection h with h2
      subst h2
      simp [whiteCount, List.countP_cons]
    · simp only [cget, if_neg hk] at h
      have := ih h
      simp only [whiteCount, List.countP_cons] at *
      omega

/-- Membership in a set-insertion. -/
theorem mem_sinsert {l : List Nat} {x y : Nat} :
    y ∈ sinsert l x ↔ y ∈ l ∨ y = x := by
  by_cases h : x ∈ l
  · simp only [sinsert, if_pos h]
    constructor
    · exact Or.inl
    · rintro (hy | rfl)
      · exact hy
      · exact h
  · simp [sinsert, if_neg h]

/-- Membership after folding set-insertions. -/
theorem mem_foldl_sinsert {xs l : List Nat} {y : Nat} :
    y ∈ xs.foldl sinsert l ↔ y ∈ l ∨ y ∈ xs := by
  induction xs generalizing l with
  | nil => simp
  | cons x rest ih =>
    simp only [List.foldl_cons, ih, mem_sinsert]
    constructor
    · rintro ((hy | rfl) | hy)
      · exact Or.inl hy
      · exact Or.inr (by simp)
      · exact Or.inr (by simp [hy])
    · rintro (hy | hy)
      · exact Or.inl (Or.inl hy)
      · rcases List.mem_cons.mp hy with rfl | hy
        · exact Or.inl (Or.inr rfl)
        · exact Or.inr hy

/-- Lookup in a `defaultdict(set)` after an assignment. -/
theorem aget_aset (m : List (Nat × List Nat)) (k k2 : Nat) (v : List Nat) :
    aget (aset m k v) k2 = if k2 = k then v else aget m k2 := by
  induction m with
  | nil =>
    simp only [aset, aget]
    by_cases h : k = k2
    · subst h
      simp
    · rw [if_neg h, if_neg (Ne.symm h)]
  | cons e rest ih =>
    obtain ⟨ek, ev⟩ := e
    by_cases hek : ek = k
    · subst hek
      simp only [aset, if_pos rfl, aget]
      by_cases h2 : ek = k2
      · subst h2
        simp
      · rw [if_neg h2, if_neg (Ne.symm h2), if_neg h2]
    · simp only [aset, if_neg hek, aget]
      by_cases h2 : ek = k2
      · subst h2
        rw [if_pos rfl, if_neg hek, if_pos rfl]
      · rw [if_neg h2, if_neg h2, ih]

/-- Membership in a `defaultdict(set)` after `m[k].add(x)`. -/
theorem mem_aget_aadd (m : List (Nat × List Nat)) (k x k2 y : Nat) :
    y ∈ aget (aadd m k x) k2 ↔ (y ∈ aget m k2 ∨ (k2 = k ∧ y = x)) := by
  unfold aadd
  rw [aget_aset]
  by_cases h : k2 = k
  · subst h
    simp [mem_sinsert]
  · simp [h]

/-- Bind reduction on `Except` for an `ok` scrutinee. -/
theorem except_bind_ok {α β : Type} (a : α) (f : α → Except String β) :
    (Except.ok a >>= f) = f a := rfl

/-- Bind reduction on `Except` for an `error` scrutinee. -/
theorem except_bind_error {α β : Type} (msg : String) (f : α → Except String β) :
    ((Except.error msg : Except String α) >>= f) = .error msg := rfl

/-- The step facts hold reflexively. -/
theorem DfsStep.refl (st : DfsSt) : DfsStep st st :=
  ⟨rfl, le_refl _, fun _ h => h, fun _ h => h, fun _ h => h, ⟨[], by simp⟩⟩

/-- The step facts compose. -/
theorem DfsStep.trans {a b c : DfsSt} (h1 : DfsStep a b) (h2 : DfsStep b c) : DfsStep a c := by
  refine ⟨h2.keys.trans h1.keys, le_trans h2.white_le h1.white_le,
    fun k hk => h2.black_mono k (h1.black_mono k hk),
    fun k hk => h2.gray_mono k (h1.gray_mono k hk),
    fun k hk => h1.gray_back k (h2.gray_back k hk), ?_⟩
  rcases h1.order_ext with ⟨d1, hd1⟩
  rcases h2.order_ext with ⟨d2, hd2⟩
  exact ⟨d1 ++ d2, by rw [hd2, hd1, List.append_assoc]⟩

/-- Folding successful search steps over a list yields the composed
step facts, and every listed callback ends BLACK. -/
theorem foldlM_dfs_step (children : List (Nat × List Nat)) (fuel : Nat)
    (hstep : ∀ s x s2, dfsVisit children fuel s x = .ok s2 →
      DfsStep s s2 ∧ cget s2.searched x = some Color.black) :
    ∀ (l : List Nat) (s s2 : DfsSt),
      l.foldlM (fun s x => dfsVisit children fuel s x) s = .ok s2 →
      DfsStep s s2 ∧ ∀ y ∈ l, cget s2.searched y = some Color.black := by
  intro l
  induction l with
  | nil =>
    intro s s2 h
    simp only [List.foldlM_nil] at h
    injection h with h2
    subst h2
    exact ⟨DfsStep.refl s, by simp⟩
  | cons x xs ih =>
    intro s s2 h
    rw [List.foldlM_cons] at h
    cases hx : dfsVisit children fuel s x with
    | error e =>
      rw [hx, except_bind_error] at h
      exact absurd h (by simp)
    | ok smid =>
      rw [hx, except_bind_ok] at h
      rcases hstep s x smid hx with ⟨step1, hblack1⟩
      rcases ih smid s2 h with ⟨step2, hblack2⟩
      refine ⟨step1.trans step2, ?_⟩
      intro y hy
      rcases List.mem_cons.mp hy with rfl | hy2
      · exact step2.black_mono y hblack1
      · exact hblack2 y hy2

/-- A successful search call satisfies the step facts and leaves the
visited callback BLACK. -/
theorem dfsVisit_step (children : List (Nat × List Nat)) :
    ∀ (fuel : Nat) (st : DfsSt) (c : Nat) (st2 : DfsSt),
      dfsVisit children fuel st c = .ok st2 →
      DfsStep st st2 ∧ cget st2.searched c = some Color.black := by
  intro fuel
  induction fuel with
  | zero =>
    intro st c st2 h
    exact absurd h (by simp [dfsVisit])
  | succ fuel ih =>
    intro st c st2 h
    cases hcol : cget st.searched c with
    | none =>
      rw [dfsVisit, hcol] at h
      exact absurd h (by simp)
    | some col =>
      cases col with
      | gray =>
        rw [dfsVisit, hcol] at h
        exact absurd h (by simp)
      | black =>
        rw [dfsVisit, hcol] at h
        injection h with h2
        subst h2
        exact ⟨DfsStep.refl st, hcol⟩
      | white =>
        rw [dfsVisit, hcol] at h
        cases hfold : (aget children c).foldlM (fun s x => dfsVisit children fuel s x)
            { st with searched := cset st.searched c Color.gray } with
        | error e =>
          rw [hfold] at h
          exact absurd h (by simp)
        | ok stmid =>
          rw [hfold] at h
          injection h with h2
          subst h2
          have hkeysc : c ∈ ckeys st.searched := mem_ckeys_of_cget hcol
          rcases foldlM_dfs_step children fuel ih _ _ _ hfold with ⟨F, _⟩
          have hgraysmid : cget stmid.searched c = some Color.gray :=
            F.gray_mono c (by simpa using cget_cset_self st.searched c Color.gray)
          have hkeys1 : ckeys (cset st.searched c Color.gray) = ckeys st.searched :=
            ckeys_cset_of_mem _ hkeysc
          have hkeysmid : ckeys stmid.searched = ckeys st.searched := by
            have := F.keys
            simp only at this
            rw [this, hkeys1]
          have hcmemmid : c ∈ ckeys stmid.searched := by rw [hkeysmid]; exact hkeysc
          constructor
          constructor
          · simp only
            rw [ckeys_cset_of_mem _ hcmemmid, hkeysmid]
          · simp only
            rw [whiteCount_cset_of_not_white hgraysmid (by simp) (by simp)]
            have h1 : whiteCount (cset st.searched c Color.gray) + 1 = whiteCount st.searched :=
              whiteCount_cset_of_white hcol (by simp)
            have h2 := F.white_le
            simp only at h2
            omega
          · intro k hk
            have hkc : k ≠ c := by
              intro heq
              rw [heq, hcol] at hk
              exact absurd hk (by simp)
            simp only
            rw [cget_cset_ne _ _ _ _ hkc]
            exact F.black_mono k (by rw [cget_cset_ne _ _ _ _ hkc]; exact hk)
          · intro k hk
            have hkc : k ≠ c := by
              intro heq
              rw [heq, hcol] at hk
              exact absurd hk (by simp)
            simp only
            rw [cget_cset_ne _ _ _ _ hkc]
            exact F.gray_mono k (by rw [cget_cset_ne _ _ _ _ hkc]; exact hk)
          · intro k hk
            simp only at hk
            have hkc : k ≠ c := by
              intro heq
              rw [heq, cget_cset_self] at hk
              exact absurd hk (by simp)
            rw [cget_cset_ne _ _ _ _ hkc] at hk
            have := F.gray_back k hk
            rw [cget_cset_ne _ _ _ _ hkc] at this
            exact this
          · rcases F.order_ext with ⟨d, hd⟩
            simp only at hd ⊢
            exact ⟨d ++ [c], by rw [hd]; simp⟩
          · simp only
            exact cget_cset_self _ _ _


/-- Folding successful search steps preserves the finish-order
invariant. -/
theorem foldlM_dfs_good (children : List (Nat × List Nat)) (fuel : Nat)
    (hgood : ∀ (st : DfsSt) (c : Nat) (st2 : DfsSt) (pre : List Nat),
      dfsVisit children fuel st c = .ok st2 →
      DfsGood children st.searched (pre ++ st.order) →
      DfsGood children st2.searched (pre ++ st2.order)) :
    ∀ (l : List Nat) (s s2 : DfsSt) (pre : List Nat),
      l.foldlM (fun s x => dfsVisit children fuel s x) s = .ok s2 →
      DfsGood children s.searched (pre ++ s.order) →
      DfsGood children s2.searched (pre ++ s2.order) := by
  intro l
  induction l with
  | nil =>
    intro s s2 pre h hG
    simp only [List.foldlM_nil] at h
    injection h with h2
    subst h2
    exact hG
  | cons x xs ih =>
    intro s s2 pre h hG
    rw [List.foldlM_cons] at h
    cases hx : dfsVisit children fuel s x with
    | error e =>
      rw [hx, except_bind_error] at h
      exact absurd h (by simp)
    | ok smid =>
      rw [hx, except_bind_ok] at h
      exact ih smid s2 pre h (hgood s x smid pre hx hG)

/-- A successful search call preserves the finish-order invariant: the
completed part of the traversal stays duplicate-free, BLACK entries are
exactly the finished callbacks, and children always finish before their
parents. -/
theorem dfsVisit_good (children : List (Nat × List Nat)) :
    ∀ (fuel : Nat) (st : DfsSt) (c : Nat) (st2 : DfsSt) (pre : List Nat),
      dfsVisit children fuel st c = .ok st2 →
      DfsGood children st.searched (pre ++ st.order) →
      DfsGood children st2.searched (pre ++ st2.order) := by
  intro fuel
  induction fuel with
  | zero =>
    intro st c st2 pre h
    exact absurd h (by simp [dfsVisit])
  | succ fuel ih =>
    intro st c st2 pre h hG
    cases hcol : cget st.searched c with
    | none =>
      rw [dfsVisit, hcol] at h
      exact absurd h (by simp)
    | some col =>
      cases col with
      | gray =>
        rw [dfsVisit, hcol] at h
        exact absurd h (by simp)
      | black =>
        rw [dfsVisit, hcol] at h
        injection h with h2
        subst h2
        exact hG
      | white =>
        rw [dfsVisit, hcol] at h
        cases hfold : (aget children c).foldlM (fun s x => dfsVisit children fuel s x)
            { st with searched := cset st.searched c Color.gray } with
        | error e =>
          rw [hfold] at h
          exact absurd h (by simp)
        | ok stmid =>
          rw [hfold] at h
          injection h with h2
          subst h2
          obtain ⟨hnd, hbiff, hedge⟩ := hG
          -- the gray recoloring does not disturb the invariant
          have hGgray : DfsGood children (cset st.searched c Color.gray) (pre ++ st.order) := by
            refine ⟨hnd, ?_, hedge⟩
            intro k
            by_cases hkc : k = c
            · subst hkc
              rw [cget_cset_self]
              have hnot : k ∉ pre ++ st.order := by
                intro hmem
                have := (hbiff k).mpr hmem
                rw [hcol] at this
                exact absurd this (by simp)
              simp [hnot]
            · rw [cget_cset_ne _ _ _ _ hkc]
              exact hbiff k
          have hGmid : DfsGood children stmid.searched (pre ++ stmid.order) :=
            foldlM_dfs_good children fuel ih _ _ _ pre hfold hGgray
          obtain ⟨hndmid, hbiffmid, hedgemid⟩ := hGmid
          rcases foldlM_dfs_step children fuel (dfsVisit_step children fuel) _ _ _ hfold with
            ⟨F, hallblack⟩
          have hgraymid : cget stmid.searched c = some Color.gray :=
            F.gray_mono c (by simpa using cget_cset_self st.searched c Color.gray)
          have hcnotmid : c ∉ pre ++ stmid.order := by
            intro hmem
            have := (hbiffmid c).mpr hmem
            rw [hgraymid] at this
            exact absurd this (by simp)
          have hassoc : pre ++ (stmid.order ++ [c]) = (pre ++ stmid.order) ++ [c] := by
            rw [List.append_assoc]
          refine ⟨?_, ?_, ?_⟩
          · simp only
            rw [hassoc]
            rw [List.nodup_append]
            refine ⟨hndmid, by simp, ?_⟩
            intro a hmem hmemc
            simp only [List.mem_singleton] at hmemc
            exact hcnotmid (hmemc ▸ hmem)
          · intro k
            simp only
            rw [hassoc]
            by_cases hkc : k = c
            · subst hkc
              rw [cget_cset_self]
              simp
            · rw [cget_cset_ne _ _ _ _ hkc]
              rw [List.mem_append]
              constructor
              · intro hb
                exact Or.inl ((hbiffmid k).mp hb)
              · rintro (hmem | hmem)
                · exact (hbiffmid k).mpr hmem
                · simp at hmem
                  exact absurd hmem hkc
          · intro x hx y hy
            simp only at hx ⊢
            rw [hassoc] at hx ⊢
            rcases List.mem_append.mp hx with hx1 | hx2
            · exact (hedgemid x hx1 y hy).trans (List.sublist_append_left _ _)
            · simp only [List.mem_singleton] at hx2
              subst hx2
              have hyblack : cget stmid.searched y = some Color.black := hallblack y hy
              have hymem : y ∈ pre ++ stmid.order := (hbiffmid y).mp hyblack
              have h1 : List.Sublist [y] (pre ++ stmid.order) := List.singleton_sublist.mpr hymem
              have h2 : List.Sublist [x] [x] := List.Sublist.refl _
              exact h1.append h2

/-- With fuel exceeding the WHITE count and a key-closed graph, a
search call either reports the circular-dependency error or succeeds —
it can neither exhaust its fuel nor raise a `KeyError`. -/
theorem dfsVisit_tri (children : List (Nat × List Nat)) :
    ∀ (fuel : Nat) (st : DfsSt) (c : Nat),
      whiteCount st.searched < fuel →
      c ∈ ckeys st.searched →
      KeysClosed children st.searched →
      dfsVisit children fuel st c = .error "Detect circle." ∨
        ∃ st2, dfsVisit children fuel st c = .ok st2 := by
  intro fuel
  induction fuel with
  | zero =>
    intro st c hw
    omega
  | succ fuel ih =>
    intro st c hw hc hcl
    have hfold : ∀ (l : List Nat) (s : DfsSt),
        whiteCount s.searched < fuel →
        (∀ y ∈ l, y ∈ ckeys s.searched) →
        KeysClosed children s.searched →
        l.foldlM (fun s x => dfsVisit children fuel s x) s = .error "Detect circle." ∨
          ∃ s2, l.foldlM (fun s x => dfsVisit children fuel s x) s = .ok s2 := by
      intro l
      induction l with
      | nil =>
        intro s _ _ _
        exact Or.inr ⟨s, rfl⟩
      | cons x xs ihl =>
        intro s hws hmem hcls
        rcases ih s x hws (hmem x (by simp)) hcls with hcirc | ⟨smid, hok⟩
        · left
          rw [List.foldlM_cons, hcirc, except_bind_error]
        · rcases dfsVisit_step children fuel s x smid hok with ⟨F, _⟩
          have hws2 : whiteCount smid.searched < fuel := lt_of_le_of_lt F.white_le hws
          have hmem2 : ∀ y ∈ xs, y ∈ ckeys smid.searched := by
            intro y hy
            rw [F.keys]
            exact hmem y (by simp [hy])
          have hcls2 : KeysClosed children smid.searched := by
            intro p y hy
            rw [F.keys]
            exact hcls p y hy
          rcases ihl smid hws2 hmem2 hcls2 with hcirc | ⟨s2, hok2⟩
          · left
            rw [List.foldlM_cons, hok, except_bind_ok, hcirc]
          · right
            exact ⟨s2, by rw [List.foldlM_cons, hok, except_bind_ok, hok2]⟩
    cases hcol : cget st.searched c with
    | none =>
      rcases cget_isSome_of_mem_ckeys hc with ⟨cc, hcc⟩
      rw [hcol] at hcc
      exact absurd hcc (by simp)
    | some col =>
      cases col with
      | gray =>
        left
        rw [dfsVisit, hcol]
      | black =>
        right
        exact ⟨st, by rw [dfsVisit, hcol]⟩
      | white =>
        have h1 : whiteCount (cset st.searched c Color.gray) + 1 = whiteCount st.searched :=
          whiteCount_cset_of_white hcol (by simp)
        have hkeys1 : ckeys (cset st.searched c Color.gray) = ckeys st.searched :=
          ckeys_cset_of_mem _ hc
        have hws : whiteCount (cset st.searched c Color.gray) < fuel := by omega
        have hmem : ∀ y ∈ aget children c, y ∈ ckeys (cset st.searched c Color.gray) := by
          intro y hy
          rw [hkeys1]
          exact hcl c y hy
        have hcls : KeysClosed children (cset st.searched c Color.gray) := by
          intro p y hy
          rw [hkeys1]
          exact hcl p y hy
        rcases hfold (aget children c) { st with searched := cset st.searched c Color.gray }
            hws hmem hcls with hcirc | ⟨smid, hok⟩
        · left
          rw [dfsVisit, hcol, hcirc]
        · right
          exact ⟨_, by rw [dfsVisit, hcol, hok]⟩

/-- On an acyclic graph, with fuel exceeding the WHITE count, a
key-closed search whose GRAY entries all reach the visited callback
succeeds. -/
theorem dfsVisit_ok_of_acyclic (children : List (Nat × List Nat))
    (hacyc : Acyclic children) :
    ∀ (fuel : Nat) (st : DfsSt) (c : Nat),
      whiteCount st.searched < fuel →
      c ∈ ckeys st.searched →
      KeysClosed children st.searched →
      (∀ g, cget st.searched g = some Color.gray → Relation.TransGen (chEdge children) g c) →
      ∃ st2, dfsVisit children fuel st c = .ok st2 := by
  intro fuel
  induction fuel with
  | zero =>
    intro st c hw
    omega
  | succ fuel ih =>
    intro st c hw hc hcl hanc
    have hfold : ∀ (l : List Nat) (s : DfsSt),
        whiteCount s.searched < fuel →
        (∀ y ∈ l, y ∈ ckeys s.searched) →
        KeysClosed children s.searched →
        (∀ y ∈ l, ∀ g, cget s.searched g = some Color.gray →
          Relation.TransGen (chEdge children) g y) →
        ∃ s2, l.foldlM (fun s x => dfsVisit children fuel s x) s = .ok s2 := by
      intro l
      induction l with
      | nil =>
        intro s _ _ _ _
        exact ⟨s, rfl⟩
      | cons x xs ihl =>
        intro s hws hmem hcls hancs
        rcases ih s x hws (hmem x (by simp)) hcls (hancs x (by simp)) with ⟨smid, hok⟩
        rcases dfsVisit_step children fuel s x smid hok with ⟨F, _⟩
        have hws2 : whiteCount smid.searched < fuel := lt_of_le_of_lt F.white_le hws
        have hmem2 : ∀ y ∈ xs, y ∈ ckeys smid.searched := by
          intro y hy
          rw [F.keys]
          exact hmem y (by simp [hy])
        have hcls2 : KeysClosed children smid.searched := by
          intro p y hy
          rw [F.keys]
          exact hcls p y hy
        have hancs2 : ∀ y ∈ xs, ∀ g, cget smid.searched g = some Color.gray →
            Relation.TransGen (chEdge children) g y := by
          intro y hy g hg
          exact hancs y (by simp [hy]) g (F.gray_back g hg)
        rcases ihl smid hws2 hmem2 hcls2 hancs2 with ⟨s2, hok2⟩
        exact ⟨s2, by rw [List.foldlM_cons, hok, except_bind_ok, hok2]⟩
    cases hcol : cget st.searched c with
    | none =>
      rcases cget_isSome_of_mem_ckeys hc with ⟨cc, hcc⟩
      rw [hcol] at hcc
      exact absurd hcc (by simp)
    | some col =>
      cases col with
      | gray => exact absurd (hanc c hcol) (hacyc c)
      | black => exact ⟨st, by rw [dfsVisit, hcol]⟩
      | white =>
        have h1 : whiteCount (cset st.searched c Color.gray) + 1 = whiteCount st.searched :=
          whiteCount_cset_of_white hcol (by simp)
        have hkeys1 : ckeys (cset st.searched c Color.gray) = ckeys st.searched :=
          ckeys_cset_of_mem _ hc
        have hws : whiteCount (cset st.searched c Color.gray) < fuel := by omega
        have hmem : ∀ y ∈ aget children c, y ∈ ckeys (cset st.searched c Color.gray) := by
          intro y hy
          rw [hkeys1]
          exact hcl c y hy
        have hcls : KeysClosed children (cset st.searched c Color.gray) := by
          intro p y hy
          rw [hkeys1]
          exact hcl p y hy
        have hancs : ∀ y ∈ aget children c, ∀ g,
            cget (cset st.searched c Color.gray) g = some Color.gray →
            Relation.TransGen (chEdge children) g y := by
          intro y hy g hg
          by_cases hgc : g = c
          · subst hgc
            exact Relation.TransGen.single hy
          · rw [cget_cset_ne _ _ _ _ hgc] at hg
            exact Relation.TransGen.tail (hanc g hg) hy
        rcases hfold (aget children c) { st with searched := cset st.searched c Color.gray }
            hws hmem hcls hancs with ⟨smid, hok⟩
        exact ⟨_, by rw [dfsVisit, hcol, hok]⟩

/-- Assigning a fresh key appends it to the key list. -/
theorem ckeys_cset_of_not_mem {m : List (Nat × Color)} {k : Nat} (c : Color)
    (h : k ∉ ckeys m) : ckeys (cset m k c) = ckeys m ++ [k] := by
  unfold ckeys at *
  induction m with
  | nil => simp [cset]
  | cons e rest ih =>
    simp only [List.map_cons, List.mem_cons] at h
    push_neg at h
    simp [cset, Ne.symm h.1, ih h.2]

/-- Membership after folding `m[q].add(x)` over varying keys `q` with a
fixed added element. -/
theorem mem_aget_foldl_aadd_keys (qs : List Nat) (x : Nat) :
    ∀ (m : List (Nat × List Nat)) (k y : Nat),
      y ∈ aget (qs.foldl (fun m q => aadd m q x) m) k ↔
        y ∈ aget m k ∨ (k ∈ qs ∧ y = x) := by
  induction qs with
  | nil => simp
  | cons q rest ih =>
    intro m k y
    simp only [List.foldl_cons, ih, mem_aget_aadd]
    constructor
    · rintro ((hy | ⟨rfl, rfl⟩) | ⟨hk, rfl⟩)
      · exact Or.inl hy
      · exact Or.inr ⟨by simp, rfl⟩
      · exact Or.inr ⟨by simp [hk], rfl⟩
    · rintro (hy | ⟨hk, rfl⟩)
      · exact Or.inl (Or.inl hy)
      · rcases List.mem_cons.mp hk with rfl | hk2
        · exact Or.inl (Or.inr ⟨rfl, rfl⟩)
        · exact Or.inr ⟨hk2, rfl⟩

/-- Membership after folding `m[k].add(q)` over varying added elements
with a fixed key. -/
theorem mem_aget_foldl_aadd_vals (qs : List Nat) (k0 : Nat) :
    ∀ (m : List (Nat × List Nat)) (k y : Nat),
      y ∈ aget (qs.foldl (fun m q => aadd m k0 q) m) k ↔
        y ∈ aget m k ∨ (k = k0 ∧ y ∈ qs) := by
  induction qs with
  | nil => simp
  | cons q rest ih =>
    intro m k y
    simp only [List.foldl_cons, ih, mem_aget_aadd]
    constructor
    · rintro ((hy | ⟨rfl, rfl⟩) | ⟨rfl, hy⟩)
      · exact Or.inl hy
      · exact Or.inr ⟨rfl, by simp⟩
      · exact Or.inr ⟨rfl, by simp [hy]⟩
    · rintro (hy | ⟨rfl, hy⟩)
      · exact Or.inl (Or.inl hy)
      · rcases List.mem_cons.mp hy with rfl | hy2
        · exact Or.inl (Or.inr ⟨rfl, rfl⟩)
        · exact Or.inr ⟨rfl, hy2⟩

/-- Splitting `find?` over an append. -/
theorem find?_append_eq {α : Type} (l1 l2 : List α) (p : α → Bool) :
    (l1 ++ l2).find? p =
      match l1.find? p with
      | some x => some x
      | none => l2.find? p := by
  induction l1 with
  | nil => simp
  | cons a l ih =>
    cases hpa : p a <;> simp [List.find?_cons, hpa, ih]

/-- The first `RunFirst` designee is unchanged by appending an entry
that is not `RunFirst`. -/
theorem rootOf_append_not_before {P : List (Nat × CbOptions)} {e : Nat × CbOptions}
    (h : e.2.before_all = false) : rootOf (P ++ [e]) = rootOf P := by
  unfold rootOf
  rw [find?_append_eq]
  cases hf : P.find? (fun x => x.2.before_all) <;> simp [List.find?_cons, h]

/-- Appending a `RunFirst` entry to a prefix with none sets the
designee. -/
theorem rootOf_append_before {P : List (Nat × CbOptions)} {e : Nat × CbOptions}
    (hb : e.2.before_all = true) (h : rootOf P = none) : rootOf (P ++ [e]) = some e.1 := by
  unfold rootOf at *
  rw [find?_append_eq]
  cases hf : P.find? (fun x => x.2.before_all) with
  | none => simp [List.find?_cons, hb]
  | some x => rw [hf] at h; simp at h

/-- The first `RunLast` designee is unchanged by appending an entry
that is not `RunLast`. -/
theorem lastOf_append_not_after {P : List (Nat × CbOptions)} {e : Nat × CbOptions}
    (h : e.2.after_all = false) : lastOf (P ++ [e]) = lastOf P := by
  unfold lastOf
  rw [find?_append_eq]
  cases hf : P.find? (fun x => x.2.after_all) <;> simp [List.find?_cons, h]

/-- Appending a `RunLast` entry to a prefix with none sets the
designee. -/
theorem lastOf_append_after {P : List (Nat × CbOptions)} {e : Nat × CbOptions}
    (ha : e.2.after_all = true) (h : lastOf P = none) : lastOf (P ++ [e]) = some e.1 := by
  unfold lastOf at *
  rw [find?_append_eq]
  cases hf : P.find? (fun x => x.2.after_all) with
  | none => simp [List.find?_cons, ha]
  | some x => rw [hf] at h; simp at h

/-- Splitting the zero-parent start list over an appended entry. -/
theorem zeroParent_append {P : List (Nat × CbOptions)} {e : Nat × CbOptions} :
    zeroParentCallbacks (P ++ [e]) =
      zeroParentCallbacks P ++
        (if ordEntry e && decide (e.2.run_after = RunAfterDecl.nodecl) then [e.1] else []) := by
  unfold zeroParentCallbacks
  rw [List.filter_append, List.map_append]
  cases hc : (ordEntry e && decide (e.2.run_after = RunAfterDecl.nodecl)) <;>
    simp [List.filter_cons, hc]

/-- Splitting the key source list over an appended entry. -/
theorem keysrc_append {P : List (Nat × CbOptions)} {e : Nat × CbOptions} :
    ((P ++ [e]).filter (fun x => !x.2.after_all)).map Prod.fst =
      (P.filter (fun x => !x.2.after_all)).map Prod.fst ++
        (if e.2.after_all then [] else [e.1]) := by
  rw [List.filter_append, List.map_append]
  cases ha : e.2.after_all <;> simp [List.filter_cons, ha]

/-- A key of the searched dict names an input callback. -/
theorem mem_map_fst_of_mem_filter_map {P : List (Nat × CbOptions)} {f : Nat × CbOptions → Bool}
    {x : Nat} (h : x ∈ (P.filter f).map Prod.fst) : x ∈ P.map Prod.fst := by
  rcases List.mem_map.mp h with ⟨e, he, rfl⟩
  exact List.mem_map.mpr ⟨e, List.mem_of_mem_filter he, rfl⟩

/-- Splitting the declared-parent witness over an appended entry. -/
theorem exists_decl_append {P : List (Nat × CbOptions)} {e : Nat × CbOptions} {c p : Nat} :
    (∃ x ∈ P ++ [e], x.1 = c ∧ ordEntry x = true ∧ p ∈ x.2.declParents) ↔
      ((∃ x ∈ P, x.1 = c ∧ ordEntry x = true ∧ p ∈ x.2.declParents) ∨
        (e.1 = c ∧ ordEntry e = true ∧ p ∈ e.2.declParents)) := by
  constructor
  · rintro ⟨x, hx, hprop⟩
    rcases List.mem_append.mp hx with hx1 | hx2
    · exact Or.inl ⟨x, hx1, hprop⟩
    · simp only [List.mem_singleton] at hx2
      subst hx2
      exact Or.inr hprop
  · rintro (⟨x, hx, hprop⟩ | hprop)
    · exact ⟨x, List.mem_append.mpr (Or.inl hx), hprop⟩
    · exact ⟨e, List.mem_append.mpr (Or.inr (by simp)), hprop⟩

/-- One successful step of the one-pass phase extends the prefix
characterization by the processed entry. -/
theorem phase1Inv_step {P : List (Nat × CbOptions)} {st : SchedState}
    {e : Nat × CbOptions} (hfresh : e.1 ∉ P.map Prod.fst) {st2 : SchedState}
    (hstep : phase1Step st e = .ok st2) (hinv : Phase1Inv P st) :
    Phase1Inv (P ++ [e]) st2 := by
  obtain ⟨hroot, hlast, hstarts, hkeys, hwhite, hpar, hconv⟩ := hinv
  have hfreshkeys : e.1 ∉ ckeys st.searched := by
    rw [hkeys]
    intro hmem
    exact hfresh (mem_map_fst_of_mem_filter_map hmem)
  have hparfresh : ∀ p, p ∉ aget st.parents e.1 := by
    intro p hp
    rcases (hpar e.1 p).mp hp with ⟨x, hx, hx1, _⟩
    exact hfresh (List.mem_map.mpr ⟨x, hx, hx1⟩)
  have hwhite2 : ∀ k c, cget (cset st.searched e.1 Color.white) k = some c →
      c = Color.white := by
    intro k c hk
    by_cases hke : k = e.1
    · subst hke
      rw [cget_cset_self] at hk
      injection hk with h2
      exact h2.symm
    · rw [cget_cset_ne _ _ _ _ hke] at hk
      exact hwhite k c hk
  have hkeys2 : ckeys (cset st.searched e.1 Color.white) =
      ckeys st.searched ++ [e.1] := ckeys_cset_of_not_mem _ hfreshkeys
  by_cases hb : e.2.before_all = true
  · cases hcond : (e.2.after_all || e.2.run_after.truthy) with
    | true => simp [phase1Step, hb, hcond] at hstep
    | false =>
      cases hr : st.root with
      | some r => simp [phase1Step, hb, hcond, hr] at hstep
      | none =>
        simp only [phase1Step, hb, if_true, hcond, hr, Bool.false_eq_true, if_false] at hstep
        injection hstep with h2
        subst h2
        have hba : e.2.after_all = false := by
          rcases Bool.or_eq_false_iff.mp hcond with ⟨h1, _⟩
          exact h1
        have hord : ordEntry e = false := by simp [ordEntry, hb]
        refine ⟨?_, ?_, ?_, ?_, hwhite2, ?_, hconv⟩
        · simp only
          rw [rootOf_append_before hb (hroot.symm.trans hr)]
        · simp only
          rw [lastOf_append_not_after hba]
          exact hlast
        · simp only
          rw [zeroParent_append]
          simp [hord, hstarts]
        · simp only
          rw [hkeys2, keysrc_append, hkeys, hba]
          simp
        · intro c p
          simp only
          rw [exists_decl_append]
          rw [hpar c p]
          simp [hord]
  · have hb' : e.2.before_all = false := by
      cases hbe : e.2.before_all
      · rfl
      · exact absurd hbe hb
    by_cases ha : e.2.after_all = true
    · cases hl : st.last with
      | some x => simp [phase1Step, hb', ha, hl] at hstep
      | none =>
        simp only [phase1Step, hb', Bool.false_eq_true, if_false, ha, if_true, hl] at hstep
        injection hstep with h2
        subst h2
        have hord : ordEntry e = false := by simp [ordEntry, ha]
        refine ⟨?_, ?_, ?_, ?_, hwhite, ?_, hconv⟩
        · simp only
          rw [rootOf_append_not_before hb']
          exact hroot
        · simp only
          rw [lastOf_append_after ha (hlast.symm.trans hl)]
        · simp only
          rw [zeroParent_append]
          simp [hord, hstarts]
        · simp only
          rw [keysrc_append, hkeys, ha]
          simp
        · intro c p
          simp only
          rw [exists_decl_append, hpar c p]
          simp [hord]
    · have ha' : e.2.after_all = false := by
        cases hae : e.2.after_all
        · rfl
        · exact absurd hae ha
      have hord : ordEntry e = true := by simp [ordEntry, hb', ha']
      cases hra : e.2.run_after with
      | nodecl =>
        simp only [phase1Step, hb', Bool.false_eq_true, if_false, ha', hra] at hstep
        injection hstep with h2
        subst h2
        refine ⟨?_, ?_, ?_, ?_, hwhite2, ?_, hconv⟩
        · simp only
          rw [rootOf_append_not_before hb']
          exact hroot
        · simp only
          rw [lastOf_append_not_after ha']
          exact hlast
        · simp only
          rw [zeroParent_append]
          simp [hord, hra, hstarts]
        · simp only
          rw [hkeys2, keysrc_append, hkeys, ha']
          simp
        · intro c p
          simp only
          rw [exists_decl_append, hpar c p]
          simp [CbOptions.declParents, hra]
      | single parent =>
        simp only [phase1Step, hb', Bool.false_eq_true, if_false, ha', hra] at hstep
        injection hstep with h2
        subst h2
        refine ⟨?_, ?_, ?_, ?_, hwhite2, ?_, ?_⟩
        · simp only
          rw [rootOf_append_not_before hb']
          exact hroot
        · simp only
          rw [lastOf_append_not_after ha']
          exact hlast
        · simp only
          rw [zeroParent_append]
          simp [hord, hra, hstarts]
        · simp only
          rw [hkeys2, keysrc_append, hkeys, ha']
          simp
        · intro c p
          simp only
          rw [exists_decl_append, mem_aget_aadd, hpar c p]
          simp only [CbOptions.declParents, hra, hord, List.mem_singleton, true_and]
          constructor
          · rintro (hold | ⟨rfl, rfl⟩)
            · exact Or.inl hold
            · exact Or.inr ⟨rfl, rfl⟩
          · rintro (hold | ⟨rfl, rfl⟩)
            · exact Or.inl hold
            · exact Or.inr ⟨rfl, rfl⟩
        · intro q c
          simp only
          rw [mem_aget_aadd, mem_aget_aadd, hconv q c]
          constructor
          · rintro (hold | ⟨rfl, rfl⟩)
            · exact Or.inl hold
            · exact Or.inr ⟨rfl, rfl⟩
          · rintro (hold | ⟨rfl, rfl⟩)
            · exact Or.inl hold
            · exact Or.inr ⟨rfl, rfl⟩
      | many cs =>
        simp only [phase1Step, hb', Bool.false_eq_true, if_false, ha', hra] at hstep
        injection hstep with h2
        subst h2
        have hps : ∀ p, p ∈ cs.foldl sinsert (aget st.parents e.1) ↔ p ∈ cs := by
          intro p
          rw [mem_foldl_sinsert]
          constructor
          · rintro (hp | hp)
            · exact absurd hp (hparfresh p)
            · exact hp
          · exact Or.inr
        refine ⟨?_, ?_, ?_, ?_, hwhite2, ?_, ?_⟩
        · simp only
          rw [rootOf_append_not_before hb']
          exact hroot
        · simp only
          rw [lastOf_append_not_after ha']
          exact hlast
        · simp only
          rw [zeroParent_append]
          simp [hord, hra, hstarts]
        · simp only
          rw [hkeys2, keysrc_append, hkeys, ha']
          simp
        · intro c p
          simp only
          rw [exists_decl_append, aget_aset]
          simp only [CbOptions.declParents, hra, hord, true_and]
          by_cases hce : c = e.1
          · subst hce
            rw [if_pos rfl, hps p]
            constructor
            · intro hp
              exact Or.inr ⟨rfl, hp⟩
            · rintro (⟨x, hx, hx1, _⟩ | ⟨_, hp⟩)
              · exact absurd (List.mem_map.mpr ⟨x, hx, hx1⟩) hfresh
              · exact hp
          · rw [if_neg hce, hpar c p]
            constructor
            · exact Or.inl
            · rintro (hold | ⟨heq, _⟩)
              · exact hold
              · exact absurd heq.symm hce
        · intro q c
          simp only
          rw [mem_aget_foldl_aadd_keys, aget_aset]
          by_cases hce : c = e.1
          · subst hce
            rw [if_pos rfl]
            constructor
            · rintro (hold | ⟨hq, _⟩)
              · exact absurd ((hconv q e.1).mp hold) (hparfresh q)
              · exact hq
            · intro hq
              exact Or.inr ⟨hq, rfl⟩
          · rw [if_neg hce, hconv q c]
            constructor
            · rintro (hold | ⟨_, heq⟩)
              · exact hold
              · exact absurd heq hce
            · exact Or.inl

/-- The empty prefix is characterized by the initial state. -/
theorem phase1Inv_nil : Phase1Inv [] {} := by
  refine ⟨rfl, rfl, rfl, rfl, ?_, ?_, ?_⟩
  · intro k c h
    simp [cget] at h
  · intro c p
    simp [aget]
  · intro p c
    simp [aget]

/-- Freshness of the head entry extracted from the no-duplicate
hypothesis over the whole input. -/
theorem head_fresh {P : List (Nat × CbOptions)} {e : Nat × CbOptions}
    {rest : List (Nat × CbOptions)}
    (hnd : ((P ++ e :: rest).map Prod.fst).Nodup) : e.1 ∉ P.map Prod.fst := by
  rw [List.map_append, List.nodup_append] at hnd
  intro hmem
  exact hnd.2.2 hmem (by simp)

/-- Folding the one-pass step over the remaining entries preserves the
prefix characterization. -/
theorem phase1_fold_inv : ∀ (rest P : List (Nat × CbOptions)) (st st2 : SchedState),
    ((P ++ rest).map Prod.fst).Nodup →
    Phase1Inv P st →
    rest.foldlM phase1Step st = .ok st2 →
    Phase1Inv (P ++ rest) st2 := by
  intro rest
  induction rest with
  | nil =>
    intro P st st2 _ hinv h
    simp only [List.foldlM_nil] at h
    injection h with h2
    subst h2
    simpa using hinv
  | cons e rest2 ih =>
    intro P st st2 hnd hinv h
    rw [List.foldlM_cons] at h
    cases hs : phase1Step st e with
    | error m =>
      rw [hs, except_bind_error] at h
      exact absurd h (by simp)
    | ok stm =>
      rw [hs, except_bind_ok] at h
      have hfresh : e.1 ∉ P.map Prod.fst := head_fresh hnd
      have hinv2 := phase1Inv_step hfresh hs hinv
      have hnd2 : (((P ++ [e]) ++ rest2).map Prod.fst).Nodup := by
        rw [List.append_assoc]
        simpa using hnd
      have := ih (P ++ [e]) stm st2 hnd2 hinv2 h
      rw [List.append_assoc] at this
      simpa using this

/-- The full one-pass characterization for a duplicate-free input. -/
theorem phase1_char {L : List (Nat × CbOptions)} (hnd : (L.map Prod.fst).Nodup)
    {st0 : SchedState} (h : phase1 L = .ok st0) : Phase1Inv L st0 := by
  have := phase1_fold_inv L [] {} st0 (by simpa using hnd) phase1Inv_nil h
  simpa using this

/-- The one-pass phase succeeds on a well-formed input. -/
theorem phase1_fold_ok : ∀ (rest P : List (Nat × CbOptions)) (st : SchedState),
    Phase1Inv P st →
    ((P ++ rest).map Prod.fst).Nodup →
    (P ++ rest).countP (fun e => e.2.before_all) ≤ 1 →
    (P ++ rest).countP (fun e => e.2.after_all) ≤ 1 →
    (∀ e ∈ rest, e.2.before_all = true →
      e.2.after_all = false ∧ e.2.run_after = RunAfterDecl.nodecl) →
    ∃ st2, rest.foldlM phase1Step st = .ok st2 := by
  intro rest
  induction rest with
  | nil =>
    intro P st _ _ _ _ _
    exact ⟨st, rfl⟩
  | cons e rest2 ih =>
    intro P st hinv hnd hcb hca hpure
    have hroot := hinv.1
    have hlast := hinv.2.1
    have hfresh : e.1 ∉ P.map Prod.fst := head_fresh hnd
    have hstep : ∃ stm, phase1Step st e = .ok stm := by
      by_cases hb : e.2.before_all = true
      · rcases hpure e (by simp) hb with ⟨hba, hra⟩
        have htr : e.2.run_after.truthy = false := by rw [hra]; rfl
        have hr : st.root = none := by
          rw [hroot]
          unfold rootOf
          cases hf : List.find? (fun x => x.2.before_all) P with
          | none => rfl
          | some x =>
            exfalso
            have hxmem := List.mem_of_find?_eq_some hf
            have hxp := List.find?_some hf
            have h1 : 1 ≤ P.countP (fun e => e.2.before_all) := by
              rw [Nat.one_le_iff_ne_zero]
              intro hzero
              rw [List.countP_eq_zero] at hzero
              exact hzero x hxmem hxp
            have h2 : 1 ≤ (e :: rest2).countP (fun e => e.2.before_all) := by
              rw [Nat.one_le_iff_ne_zero]
              intro hzero
              rw [List.countP_eq_zero] at hzero
              exact hzero e (by simp) hb
            rw [List.countP_append] at hcb
            omega
        exact Exists.intro
          { st with
            root := some e.1,
            searched := cset st.searched e.1 Color.white }
          (by simp [phase1Step, hb, hba, htr, hr])
      · have hb' : e.2.before_all = false := by
          cases hbe : e.2.before_all
          · rfl
          · exact absurd hbe hb
        by_cases ha : e.2.after_all = true
        · have hl : st.last = none := by
            rw [hlast]
            unfold lastOf
            cases hf : List.find? (fun x => x.2.after_all) P with
            | none => rfl
            | some x =>
              exfalso
              have hxmem := List.mem_of_find?_eq_some hf
              have hxp := List.find?_some hf
              have h1 : 1 ≤ P.countP (fun e => e.2.after_all) := by
                rw [Nat.one_le_iff_ne_zero]
                intro hzero
                rw [List.countP_eq_zero] at hzero
                exact hzero x hxmem hxp
              have h2 : 1 ≤ (e :: rest2).countP (fun e => e.2.after_all) := by
                rw [Nat.one_le_iff_ne_zero]
                intro hzero
                rw [List.countP_eq_zero] at hzero
                exact hzero e (by simp) ha
              rw [List.countP_append] at hca
              omega
          exact Exists.intro { st with last := some e.1 }
            (by simp [phase1Step, hb', ha, hl])
        · have ha' : e.2.after_all = false := by
            cases hae : e.2.after_all
            · rfl
            · exact absurd hae ha
          cases hra : e.2.run_after with
          | nodecl =>
            exact Exists.intro
              { st with
                search_starts := st.search_starts ++ [e.1],
                searched := cset st.searched e.1 Color.white }
              (by simp [phase1Step, hb', ha', hra])
          | single parent =>
            exact Exists.intro
              { st with
                children := aadd st.children parent e.1,
                parents := aadd st.parents e.1 parent,
                searched := cset st.searched e.1 Color.white }
              (by simp [phase1Step, hb', ha', hra])
          | many cs =>
            exact Exists.intro
              { st with
                parents := aset st.parents e.1
                  (cs.foldl sinsert (aget st.parents e.1)),
                children := (cs.foldl sinsert (aget st.parents e.1)).foldl
                  (fun m p => aadd m p e.1) st.children,
                searched := cset st.searched e.1 Color.white }
              (by simp [phase1Step, hb', ha', hra])
    rcases hstep with ⟨stm, hs⟩
    have hinv2 := phase1Inv_step hfresh hs hinv
    have hnd2 : (((P ++ [e]) ++ rest2).map Prod.fst).Nodup := by
      rw [List.append_assoc]
      simpa using hnd
    have hcb2 : ((P ++ [e]) ++ rest2).countP (fun e => e.2.before_all) ≤ 1 := by
      rw [List.append_assoc]
      simpa using hcb
    have hca2 : ((P ++ [e]) ++ rest2).countP (fun e => e.2.after_all) ≤ 1 := by
      rw [List.append_assoc]
      simpa using hca
    rcases ih (P ++ [e]) stm hinv2 hnd2 hcb2 hca2
        (fun x hx hbx => hpure x (by simp [hx]) hbx) with ⟨st2, h2⟩
    exact ⟨st2, by rw [List.foldlM_cons, hs, except_bind_ok, h2]⟩

/-- The one-pass phase succeeds on well-formed input. -/
theorem phase1_ok_of_wf {L : List (Nat × CbOptions)} (hwf : WfInput L) :
    ∃ st0, phase1 L = .ok st0 := by
  have := phase1_fold_ok L [] {} phase1Inv_nil (by simpa using hwf.nodup)
    (by simpa using hwf.one_root) (by simpa using hwf.one_last)
    (fun e he hb => hwf.root_pure e he hb)
  exact this

/-- Characterization of the root-binding step. -/
theorem rootBind_facts (st : SchedState) :
    (rootBind st).searched = st.searched ∧
    (rootBind st).last = st.last ∧
    (rootBind st).root = st.root ∧
    (st.root = none → rootBind st = st) ∧
    (∀ r, st.root = some r →
      (rootBind st).search_starts = [r] ∧
      (∀ c p, p ∈ aget (rootBind st).parents c ↔
        p ∈ aget st.parents c ∨ (c ∈ st.search_starts ∧ p = r)) ∧
      (∀ q c, c ∈ aget (rootBind st).children q ↔
        c ∈ aget st.children q ∨ (q = r ∧ c ∈ st.search_starts))) := by
  cases hr : st.root with
  | none =>
    refine ⟨by simp [rootBind, hr], by simp [rootBind, hr], by simp [rootBind, hr],
      fun _ => by simp [rootBind, hr], ?_⟩
    intro r hsome
    exact absurd hsome (by simp)
  | some r0 =>
    refine ⟨by simp [rootBind, hr], by simp [rootBind, hr], by simp [rootBind, hr],
      fun hnone => absurd hnone (by simp), ?_⟩
    intro r hsome
    injection hsome with h2
    subst h2
    refine ⟨by simp [rootBind, hr], ?_, ?_⟩
    · intro c p
      simp only [rootBind, hr]
      rw [mem_aget_foldl_aadd_keys]
    · intro q c
      simp only [rootBind, hr]
      rw [mem_aget_foldl_aadd_vals]

/-- Reduction of the traversal loop on a failing first start. -/
theorem runDfs_cons_err {children : List (Nat × List Nat)} {fuel : Nat}
    {searched : List (Nat × Color)} {s : Nat} {rest : List Nat} {e : String}
    (h : dfsVisit children fuel { searched := searched, order := [] } s = .error e) :
    runDfs children fuel searched (s :: rest) = .error e := by
  rw [runDfs, h]

/-- Reduction of the traversal loop on a successful first start whose
remaining traversal fails. -/
theorem runDfs_cons_ok_err {children : List (Nat × List Nat)} {fuel : Nat}
    {searched : List (Nat × Color)} {s : Nat} {rest : List Nat} {st : DfsSt} {e : String}
    (h1 : dfsVisit children fuel { searched := searched, order := [] } s = .ok st)
    (h2 : runDfs children fuel st.searched rest = .error e) :
    runDfs children fuel searched (s :: rest) = .error e := by
  rw [runDfs, h1]
  simp only [h2]

/-- Reduction of the traversal loop on a successful first start and a
successful remaining traversal. -/
theorem runDfs_cons_ok_ok {children : List (Nat × List Nat)} {fuel : Nat}
    {searched : List (Nat × Color)} {s : Nat} {rest : List Nat} {st : DfsSt}
    {sF : List (Nat × Color)} {ds : List (List Nat)}
    (h1 : dfsVisit children fuel { searched := searched, order := [] } s = .ok st)
    (h2 : runDfs children fuel st.searched rest = .ok (sF, ds)) :
    runDfs children fuel searched (s :: rest) =
      .ok (sF, (if st.order.isEmpty then [] else [st.order.reverse]) ++ ds) := by
  rw [runDfs, h1]
  simp only [h2]

/-- The per-start deque contributed by one search run flattens back to
that run's finish order. -/
theorem flatten_startDeque (l : List Nat) :
    ((if l.isEmpty then ([] : List (List Nat)) else [l.reverse]).map List.reverse).flatten = l := by
  cases l <;> simp

/-- Facts about a successful full traversal from all start points: the
finish-order invariant extends by the flattened (un-reversed) deques,
keys are preserved, BLACK entries persist, no GRAY entry appears, every
start ends BLACK, and every emitted deque is non-empty. -/
theorem runDfs_facts (children : List (Nat × List Nat)) (fuel : Nat) :
    ∀ (starts : List Nat) (searched searchedF : List (Nat × Color)) (deques : List (List Nat))
      (done0 : List Nat),
      runDfs children fuel searched starts = .ok (searchedF, deques) →
      DfsGood children searched done0 →
      DfsGood children searchedF (done0 ++ (deques.map List.reverse).flatten) ∧
      ckeys searchedF = ckeys searched ∧
      (∀ k, cget searched k = some Color.black → cget searchedF k = some Color.black) ∧
      (∀ k, cget searchedF k = some Color.gray → cget searched k = some Color.gray) ∧
      (∀ s ∈ starts, cget searchedF s = some Color.black) ∧
      (∀ d ∈ deques, d ≠ []) := by
  intro starts
  induction starts with
  | nil =>
    intro searched searchedF deques done0 h hG
    rw [runDfs] at h
    injection h with h2
    injection h2 with h3 h4
    subst h3
    subst h4
    refine ⟨by simpa using hG, rfl, fun k hk => hk, fun k hk => hk, by simp, by simp⟩
  | cons s rest ih =>
    intro searched searchedF deques done0 h hG
    cases hdfs : dfsVisit children fuel { searched := searched, order := [] } s with
    | error e =>
      rw [runDfs_cons_err hdfs] at h
      exact absurd h (by simp)
    | ok st =>
      cases hrun : runDfs children fuel st.searched rest with
      | error e =>
        rw [runDfs_cons_ok_err hdfs hrun] at h
        exact absurd h (by simp)
      | ok out =>
        obtain ⟨sF, ds⟩ := out
        rw [runDfs_cons_ok_ok hdfs hrun] at h
        injection h with h2
        injection h2 with h3 h4
        subst h3
        subst h4
        rcases dfsVisit_step children fuel _ s st hdfs with ⟨F, hselfblack⟩
        have hGst : DfsGood children st.searched (done0 ++ st.order) :=
          dfsVisit_good children fuel _ s st done0 hdfs (by simpa using hG)
        rcases ih st.searched sF ds (done0 ++ st.order) hrun hGst with
          ⟨ihG, ihkeys, ihblack, ihgray, ihstarts, ihne⟩
        have hflat : (((if st.order.isEmpty then ([] : List (List Nat)) else [st.order.reverse]) ++
            ds).map List.reverse).flatten = st.order ++ (ds.map List.reverse).flatten := by
          rw [List.map_append, List.flatten_append, flatten_startDeque]
        refine ⟨?_, ?_, ?_, ?_, ?_, ?_⟩
        · rw [hflat, ← List.append_assoc]
          exact ihG
        · rw [ihkeys]
          have := F.keys
          simpa using this
        · intro k hk
          exact ihblack k (F.black_mono k (by simpa using hk))
        · intro k hk
          have := F.gray_back k
          simp only at this
          exact this (ihgray k hk)
        · intro x hx
          rcases List.mem_cons.mp hx with rfl | hx2
          · exact ihblack x hselfblack
          · exact ihstarts x hx2
        · intro d hd
          rcases List.mem_append.mp hd with hd1 | hd2
          · by_cases he : st.order.isEmpty
            · rw [if_pos he] at hd1
              simp at hd1
            · rw [if_neg he] at hd1
              simp only [List.mem_singleton] at hd1
              subst hd1
              simp only [ne_eq, List.reverse_eq_nil_iff]
              intro hnil
              rw [hnil] at he
              exact he rfl
          · exact ihne d hd2

/-- The full traversal either reports the circular-dependency error or
succeeds, provided the fuel exceeds the WHITE count, the starts are
present keys and the graph is key-closed. -/
theorem runDfs_tri (children : List (Nat × List Nat)) (fuel : Nat) :
    ∀ (starts : List Nat) (searched : List (Nat × Color)),
      whiteCount searched < fuel →
      (∀ s ∈ starts, s ∈ ckeys searched) →
      KeysClosed children searched →
      runDfs children fuel searched starts = .error "Detect circle." ∨
        ∃ out, runDfs children fuel searched starts = .ok out := by
  intro starts
  induction starts with
  | nil =>
    intro searched _ _ _
    exact Or.inr ⟨(searched, []), by rw [runDfs]⟩
  | cons s rest ih =>
    intro searched hw hmem hcl
    rcases dfsVisit_tri children fuel { searched := searched, order := [] } s
        (by simpa using hw) (hmem s (by simp)) hcl with hcirc | ⟨st, hok⟩
    · left
      exact runDfs_cons_err hcirc
    · rcases dfsVisit_step children fuel _ s st hok with ⟨F, _⟩
      have hw2 : whiteCount st.searched < fuel := lt_of_le_of_lt F.white_le (by simpa using hw)
      have hmem2 : ∀ x ∈ rest, x ∈ ckeys st.searched := by
        intro x hx
        rw [F.keys]
        exact hmem x (by simp [hx])
      have hcl2 : KeysClosed children st.searched := by
        intro p y hy
        rw [F.keys]
        exact hcl p y hy
      rcases ih st.searched hw2 hmem2 hcl2 with hcirc | ⟨out, hok2⟩
      · left
        exact runDfs_cons_ok_err hok hcirc
      · right
        obtain ⟨sF, ds⟩ := out
        exact ⟨_, runDfs_cons_ok_ok hok hok2⟩

/-- On an acyclic graph the full traversal succeeds. -/
theorem runDfs_ok_of_acyclic (children : List (Nat × List Nat)) (hacyc : Acyclic children)
    (fuel : Nat) :
    ∀ (starts : List Nat) (searched : List (Nat × Color)),
      whiteCount searched < fuel →
      (∀ s ∈ starts, s ∈ ckeys searched) →
      KeysClosed children searched →
      GrayFree searched →
      ∃ out, runDfs children fuel searched starts = .ok out := by
  intro starts
  induction starts with
  | nil =>
    intro searched _ _ _ _
    exact ⟨(searched, []), by rw [runDfs]⟩
  | cons s rest ih =>
    intro searched hw hmem hcl hgf
    rcases dfsVisit_ok_of_acyclic children hacyc fuel { searched := searched, order := [] } s
        (by simpa using hw) (hmem s (by simp)) hcl
        (fun g hg => absurd hg (hgf g)) with ⟨st, hok⟩
    rcases dfsVisit_step children fuel _ s st hok with ⟨F, _⟩
    have hw2 : whiteCount st.searched < fuel := lt_of_le_of_lt F.white_le (by simpa using hw)
    have hmem2 : ∀ x ∈ rest, x ∈ ckeys st.searched := by
      intro x hx
      rw [F.keys]
      exact hmem x (by simp [hx])
    have hcl2 : KeysClosed children st.searched := by
      intro p y hy
      rw [F.keys]
      exact hcl p y hy
    have hgf2 : GrayFree st.searched := by
      intro g hg
      have := F.gray_back g
      simp only at this
      exact hgf g (this hg)
    rcases ih st.searched hw2 hmem2 hcl2 hgf2 with ⟨out, hok2⟩
    obtain ⟨sF, ds⟩ := out
    exact ⟨_, runDfs_cons_ok_ok hok hok2⟩

/-- Unfolding of the per-collection gather-building fold of
`_invoke_callbacks`: it appends each triple's callback and path. -/
theorem invokeGathers_spec (triples : List Triple) (a : List Nat) (b : List (List String)) :
    triples.foldl (fun acc t => (acc.1 ++ [t.1], acc.2 ++ [t.2.1.bh_path])) (a, b) =
      (a ++ triples.map (fun t => t.1), b ++ triples.map (fun t => t.2.1.bh_path)) := by
  induction triples generalizing a b with
  | nil => simp
  | cons t rest ih => simp [List.foldl_cons, ih]

/-- Accumulator extraction for the breadth-first enumeration. -/
theorem bfsNodes_acc (fuel : Nat) (queue : List (Attr × Option StateNode))
    (a : List (Attr × Option StateNode)) :
    bfsNodes fuel queue a = a ++ bfsNodes fuel queue [] := by
  induction fuel generalizing queue a with
  | zero => cases queue <;> simp [bfsNodes]
  | succ n ih =>
    cases queue with
    | nil => simp [bfsNodes]
    | cons q rest =>
      obtain ⟨attr, state⟩ := q
      rw [bfsNodes, bfsNodes, ih _ (a ++ [(attr, state)]), ih _ ([] ++ [(attr, state)])]
      simp

/-- One step of the selection loop: the popped node contributes its
filtered triple to the accumulator and enqueues its children. -/
theorem selectLoop_cons (query : List String → Option (Nat × CbOptions))
    (root_state : Option StateNode) (n : Nat) (attr : Attr) (state : Option StateNode)
    (rest : List (Attr × Option StateNode)) (acc : List Triple) :
    selectLoop query root_state (n + 1) ((attr, state) :: rest) acc =
      selectLoop query root_state n
        (rest ++ attr.bh_named_children.map (fun nc =>
          (nc.2, match state with
                 | some s => sgetattr s nc.1
                 | Option.none => Option.none)))
        (acc ++ (selFilter query root_state (attr, state)).toList) := by
  rw [selectLoop]
  cases hq : query attr.bh_path with
  | none => simp [selFilter, hq]
  | some cbOpts =>
    cases hc : (state.isSome || root_state.isNone) <;> simp [selFilter, hq, hc]

/-- Accumulator extraction for the selection loop. -/
theorem selectLoop_acc (query : List String → Option (Nat × CbOptions))
    (root_state : Option StateNode) (fuel : Nat) (queue : List (Attr × Option StateNode))
    (a : List Triple) :
    selectLoop query root_state fuel queue a = a ++ selectLoop query root_state fuel queue [] := by
  induction fuel generalizing queue a with
  | zero => cases queue <;> simp [selectLoop]
  | succ n ih =>
    cases queue with
    | nil => simp [selectLoop]
    | cons q rest =>
      obtain ⟨attr, state⟩ := q
      rw [selectLoop_cons, selectLoop_cons]
      rw [ih, ih _ ([] ++ (selFilter query root_state (attr, state)).toList)]
      simp

/-- The selection loop is the breadth-first enumeration filtered by the
inclusion condition. -/
theorem selectLoop_filter (query : List String → Option (Nat × CbOptions))
    (root_state : Option StateNode) (fuel : Nat) (queue : List (Attr × Option StateNode)) :
    selectLoop query root_state fuel queue [] =
      (bfsNodes fuel queue []).filterMap (selFilter query root_state) := by
  induction fuel generalizing queue with
  | zero => cases queue <;> simp [selectLoop, bfsNodes]
  | succ n ih =>
    cases queue with
    | nil => simp [selectLoop, bfsNodes]
    | cons q rest =>
      obtain ⟨attr, state⟩ := q
      rw [selectLoop_cons, bfsNodes, selectLoop_acc, ih,
          bfsNodes_acc n _ ([] ++ [(attr, state)]), List.filterMap_append]
      cases hfx : selFilter query root_state (attr, state) <;> simp [hfx]

/-- Every error the one-pass phase can raise is a configuration-conflict
message. -/
theorem phase1Step_error_mem {st : SchedState} {e : Nat × CbOptions} {msg : String}
    (h : phase1Step st e = .error msg) : msg ∈ conflictMessages := by
  simp only [phase1Step] at h
  repeat' split at h
  all_goals first
    | exact Except.noConfusion h
    | (injection h with h2
       subst h2
       decide)

/-- The one-pass step leaves `root` unchanged except for a successful
`before_all` entry, which requires `root` to be unset and sets it. -/
theorem phase1Step_ok_root {st : SchedState} {e : Nat × CbOptions} {st2 : SchedState}
    (h : phase1Step st e = .ok st2) :
    (e.2.before_all = false → st2.root = st.root) ∧
      (e.2.before_all = true → st.root = Option.none ∧ st2.root = some e.1) := by
  simp only [phase1Step] at h
  repeat' split at h
  all_goals first
    | exact Except.noConfusion h
    | (injection h with h2
       subst h2
       simp_all)

/-- The one-pass step leaves `last` unchanged except for a successful
`after_all` entry, which requires `last` to be unset and sets it. -/
theorem phase1Step_ok_last {st : SchedState} {e : Nat × CbOptions} {st2 : SchedState}
    (h : phase1Step st e = .ok st2) :
    (e.2.after_all = false → st2.last = st.last) ∧
      (e.2.after_all = true →
        e.2.before_all = false ∧ st.last = Option.none ∧ st2.last = some e.1) := by
  simp only [phase1Step] at h
  repeat' split at h
  all_goals first
    | exact Except.noConfusion h
    | (injection h with h2
       subst h2
       simp_all)

/-- A callback that combines `before_all` with `after_all` or a truthy
`run_after` makes the one-pass phase fail with a conflict error. -/
theorem fold_conflict_mixed {input : List (Nat × CbOptions)} (st : SchedState)
    (h : ∃ e ∈ input, e.2.before_all = true ∧
      (e.2.after_all = true ∨ e.2.run_after.truthy = true)) :
    isConflictState (input.foldlM phase1Step st) := by
  induction input generalizing st with
  | nil => simp at h
  | cons e rest ih =>
    cases hs : phase1Step st e with
    | error m =>
      refine ⟨m, ?_, phase1Step_error_mem hs⟩
      rw [List.foldlM_cons, hs, except_bind_error]
    | ok st2 =>
      rcases h with ⟨e', he', hb, hcond⟩
      rw [List.foldlM_cons, hs, except_bind_ok]
      rcases List.mem_cons.mp he' with rfl | hmem
      · exfalso
        unfold phase1Step at hs
        rcases hcond with ha | ht
        · simp [hb, ha] at hs
        · simp [hb, ht] at hs
      · exact ih st2 ⟨e', hmem, hb, hcond⟩

/-- Two `before_all` declarations (or one arriving with the root already
set) make the one-pass phase fail with a conflict error. -/
theorem fold_conflict_two_before {input : List (Nat × CbOptions)} (st : SchedState)
    (h : 2 ≤ input.countP (fun e => e.2.before_all) ∨
      (st.root.isSome = true ∧ 1 ≤ input.countP (fun e => e.2.before_all))) :
    isConflictState (input.foldlM phase1Step st) := by
  induction input generalizing st with
  | nil => simp at h
  | cons e rest ih =>
    cases hs : phase1Step st e with
    | error m =>
      refine ⟨m, ?_, phase1Step_error_mem hs⟩
      rw [List.foldlM_cons, hs, except_bind_error]
    | ok st2 =>
      rw [List.foldlM_cons, hs, except_bind_ok]
      apply ih st2
      by_cases hb : e.2.before_all = true
      · have hroot := (phase1Step_ok_root hs).2 hb
        rcases h with h2 | ⟨hsome, _⟩
        · right
          constructor
          · rw [hroot.2]; rfl
          · have hone : (e :: rest).countP (fun x => x.2.before_all) =
                rest.countP (fun x => x.2.before_all) + 1 := by
              simp [List.countP_cons, hb]
            rw [hone] at h2
            omega
        · rw [hroot.1] at hsome
          simp at hsome
      · have hb' : e.2.before_all = false := by
          cases hbe : e.2.before_all
          · rfl
          · exact absurd hbe hb
        have hroot := (phase1Step_ok_root hs).1 hb'
        have hzero : (e :: rest).countP (fun x => x.2.before_all) =
            rest.countP (fun x => x.2.before_all) := by
          simp [List.countP_cons, hb']
        rw [hzero] at h
        rw [hroot]
        exact h

/-- Two `after_all` declarations (or one arriving with `last` already
set) make the one-pass phase fail with a conflict error. -/
theorem fold_conflict_two_after {input : List (Nat × CbOptions)} (st : SchedState)
    (h : 2 ≤ input.countP (fun e => e.2.after_all) ∨
      (st.last.isSome = true ∧ 1 ≤ input.countP (fun e => e.2.after_all))) :
    isConflictState (input.foldlM phase1Step st) := by
  induction input generalizing st with
  | nil => simp at h
  | cons e rest ih =>
    cases hs : phase1Step st e with
    | error m =>
      refine ⟨m, ?_, phase1Step_error_mem hs⟩
      rw [List.foldlM_cons, hs, except_bind_error]
    | ok st2 =>
      rw [List.foldlM_cons, hs, except_bind_ok]
      apply ih st2
      by_cases ha : e.2.after_all = true
      · have hlast := (phase1Step_ok_last hs).2 ha
        rcases h with h2 | ⟨hsome, _⟩
        · right
          constructor
          · rw [hlast.2.2]; rfl
          · have hone : (e :: rest).countP (fun x => x.2.after_all) =
                rest.countP (fun x => x.2.after_all) + 1 := by
              simp [List.countP_cons, ha]
            rw [hone] at h2
            omega
        · rw [hlast.2.1] at hsome
          simp at hsome
      · have ha' : e.2.after_all = false := by
          cases hae : e.2.after_all
          · rfl
          · exact absurd hae ha
        have hlast := (phase1Step_ok_last hs).1 ha'
        have hzero : (e :: rest).countP (fun x => x.2.after_all) =
            rest.countP (fun x => x.2.after_all) := by
          simp [List.countP_cons, ha']
        rw [hzero] at h
        rw [hlast]
        exact h

/-- A conflict in the one-pass phase is reported unchanged by the
scheduler, before any group is computed. -/
theorem conflictState_to_result {input : List (Nat × CbOptions)}
    (h : isConflictState (phase1 input)) :
    isConflictResult (parallel_groups_of_callbacks input) := by
  rcases h with ⟨msg, heq, hmem⟩
  refine ⟨msg, ?_, hmem⟩
  unfold parallel_groups_of_callbacks phase1 at *
  rw [heq]

/-- Reduction of `async_call` with no positional arguments to the
keyword filter it applies. -/
theorem async_call_eq (sig : PyFuncSig) (kwargs : List (String × PyVal)) :
    async_call_no_positional sig kwargs = _extract_kwargs_subset sig kwargs := by
  unfold async_call_no_positional
  cases h : _extract_kwargs_subset sig kwargs <;> rfl

/-- Membership in the flatten of reversed blocks. -/
theorem flatten_map_reverse_perm (l : List (List Nat)) :
    ((l.map List.reverse).flatten).Perm l.flatten := by
  induction l with
  | nil => simp
  | cons d rest ih =>
    simp only [List.map_cons, List.flatten_cons]
    exact (d.reverse_perm.append ih)

/-- Two elements listed by a pair sublist of a duplicate-free list have
strictly increasing positions. -/
theorem idx_lt_of_pair_sublist : ∀ {l : List Nat}, l.Nodup → ∀ {a b : Nat},
    [a, b].Sublist l → l.indexOf a < l.indexOf b := by
  intro l
  induction l with
  | nil =>
    intro _ a b h
    exact absurd (List.Sublist.length_le h) (by simp)
  | cons c rest ih =>
    intro hnd a b h
    have hcrest : c ∉ rest := (List.nodup_cons.mp hnd).1
    cases h with
    | cons₂ _ h2 =>
      have hb : b ∈ rest := List.Sublist.mem (by simp) h2
      have hba : b ≠ c := fun he => hcrest (he ▸ hb)
      rw [List.indexOf_cons_self]
      rw [List.indexOf_cons_ne _ (Ne.symm hba)]
      exact Nat.succ_pos _
    | cons _ h2 =>
      have ha : a ∈ rest := List.Sublist.mem (by simp) h2
      have hb : b ∈ rest := List.Sublist.mem (by simp) h2
      have hac : a ≠ c := fun he => hcrest (he ▸ ha)
      have hbc : b ≠ c := fun he => hcrest (he ▸ hb)
      rw [List.indexOf_cons_ne _ (Ne.symm hac), List.indexOf_cons_ne _ (Ne.symm hbc)]
      exact Nat.succ_lt_succ (ih (List.nodup_cons.mp hnd).2 h2)

/-- A sublist of a duplicate-free list is ordered by position in it. -/
theorem pairwise_idx_of_sublist {G u : List Nat} (hnd : G.Nodup)
    (h : u.Sublist G) : u.Pairwise (fun a b => G.indexOf a < G.indexOf b) := by
  rw [List.pairwise_iff_forall_sublist]
  intro a b hab
  exact idx_lt_of_pair_sublist hnd (hab.trans h)

/-- Dropping empty deques does not change the flattened contents. -/
theorem flatten_filter_nonempty (l : List (List Nat)) :
    (l.filter (fun g => !g.isEmpty)).flatten = l.flatten := by
  induction l with
  | nil => rfl
  | cons d rest ih =>
    cases d with
    | nil => simpa using ih
    | cons x xs => simpa using ih

/-- Completion marking recolors exactly the popped group WHITE. -/
theorem markCompleted_cget (grp : List Nat) : ∀ (s : List (Nat × Color)) (k : Nat),
    cget (markCompleted s grp) k =
      if k ∈ grp then some Color.white else cget s k := by
  induction grp with
  | nil => intro s k; simp [markCompleted]
  | cons g rest ih =>
    intro s k
    have : markCompleted s (g :: rest) = markCompleted (cset s g Color.white) rest := rfl
    rw [this, ih]
    by_cases hk : k ∈ rest
    · rw [if_pos hk, if_pos (by simp [hk])]
    · rw [if_neg hk]
      by_cases hg : k = g
      · subst hg
        rw [cget_cset_self, if_pos (by simp)]
      · rw [cget_cset_ne s g k Color.white hg, if_neg (by simp [hg, hk])]

/-- A nonempty list has an element of maximal image. -/
theorem exists_max_image (f : Nat → Nat) : ∀ (l : List Nat), l ≠ [] →
    ∃ m ∈ l, ∀ x ∈ l, f x ≤ f m := by
  intro l
  induction l with
  | nil => intro h; exact absurd rfl h
  | cons a rest ih =>
    intro _
    by_cases hrest : rest = []
    · subst hrest
      refine ⟨a, by simp, ?_⟩
      intro x hx
      simp only [List.mem_singleton] at hx
      subst hx
      exact le_refl _
    · rcases ih hrest with ⟨m, hm, hmax⟩
      by_cases hle : f a ≤ f m
      · refine ⟨m, by simp [hm], ?_⟩
        intro x hx
        rcases List.mem_cons.mp hx with rfl | hx2
        · exact hle
        · exact hmax x hx2
      · refine ⟨a, by simp, ?_⟩
        intro x hx
        rcases List.mem_cons.mp hx with rfl | hx2
        · exact le_refl _
        · exact le_trans (hmax x hx2) (Nat.le_of_not_le hle)

/-- The scheduler state handed to the traversal, characterized from the
input: colors, last designee, parent/children maps and start points. -/
theorem sched_setup {L : List (Nat × CbOptions)} (hwf : WfInput L)
    {st0 : SchedState} (hph : phase1 L = .ok st0) :
    SetupFacts L (rootBind st0) := by
  have hinv := phase1_char hwf.nodup hph
  obtain ⟨hroot, hlast, hstarts, hkeys, hwhite, hpar, hconv⟩ := hinv
  obtain ⟨hsea, hla, hro, hnone, hsome⟩ := rootBind_facts st0
  cases hr : rootOf L with
  | none =>
    have hid : rootBind st0 = st0 := hnone (hroot.trans hr)
    rw [hid]
    refine ⟨hkeys, hwhite, hlast, ?_, hconv, fun _ => hstarts, ?_⟩
    · intro c p
      rw [hpar c p]
      constructor
      · exact fun h => Or.inl h
      · rintro (h | ⟨hcon, _⟩)
        · exact h
        · rw [hr] at hcon
          exact absurd hcon (by simp)
    · intro r hcon
      rw [hr] at hcon
      exact absurd hcon (by simp)
  | some r =>
    rcases hsome r (hroot.trans hr) with ⟨hst, hpar2, hch2⟩
    refine ⟨by rw [hsea]; exact hkeys, ?_, by rw [hla]; exact hlast, ?_, ?_, ?_, ?_⟩
    · intro k c h
      rw [hsea] at h
      exact hwhite k c h
    · intro c p
      rw [hpar2 c p, hpar c p, hstarts]
      constructor
      · rintro (h | ⟨hc, rfl⟩)
        · exact Or.inl h
        · exact Or.inr ⟨hr, hc⟩
      · rintro (h | ⟨hrp, hc⟩)
        · exact Or.inl h
        · rw [hr] at hrp
          injection hrp with h2
          exact Or.inr ⟨hc, h2.symm⟩
    · intro p c
      rw [hch2 p c, hpar2 c p]
      constructor
      · rintro (h | ⟨rfl, hc⟩)
        · exact Or.inl ((hconv p c).mp h)
        · exact Or.inr ⟨hc, rfl⟩
      · rintro (h | ⟨hc, rfl⟩)
        · exact Or.inl ((hconv p c).mpr h)
        · exact Or.inr ⟨rfl, hc⟩
    · intro hcon
      rw [hr] at hcon
      exact absurd hcon (by simp)
    · intro r2 hr2
      rw [hr] at hr2
      injection hr2 with h2
      subst h2
      exact hst

/-- Ordinary callbacks are scheduled keys. -/
theorem mem_keys_of_ord {L : List (Nat × CbOptions)} {c : Nat}
    (h : c ∈ ordCallbacks L) : c ∈ (L.filter (fun e => !e.2.after_all)).map Prod.fst := by
  rcases List.mem_map.mp h with ⟨e, he, rfl⟩
  have hmem := List.mem_of_mem_filter he
  have hord := List.of_mem_filter he
  refine List.mem_map.mpr ⟨e, List.mem_filter.mpr ⟨hmem, ?_⟩, rfl⟩
  simp only [ordEntry, Bool.and_eq_true] at hord
  simpa using hord.2

/-- Zero-parent callbacks are ordinary callbacks. -/
theorem zeroParent_sub_ord {L : List (Nat × CbOptions)} {c : Nat}
    (h : c ∈ zeroParentCallbacks L) : c ∈ ordCallbacks L := by
  rcases List.mem_map.mp h with ⟨e, he, rfl⟩
  have hmem := List.mem_of_mem_filter he
  have hp := List.of_mem_filter he
  simp only [Bool.and_eq_true] at hp
  exact List.mem_map.mpr ⟨e, List.mem_filter.mpr ⟨hmem, hp.1⟩, rfl⟩

/-- The `RunFirst` designee names an input entry. -/
theorem rootOf_entry {L : List (Nat × CbOptions)} {r : Nat} (hr : rootOf L = some r) :
    ∃ e ∈ L, e.1 = r ∧ e.2.before_all = true := by
  unfold rootOf at hr
  cases hf : L.find? (fun e => e.2.before_all) with
  | none => rw [hf] at hr; exact absurd hr (by simp)
  | some e =>
    rw [hf] at hr
    injection hr with h2
    refine ⟨e, List.mem_of_find?_eq_some hf, h2, ?_⟩
    have := List.find?_some hf
    simpa using this

/-- The `RunLast` designee names an input entry. -/
theorem lastOf_entry {L : List (Nat × CbOptions)} {l : Nat} (hl : lastOf L = some l) :
    ∃ e ∈ L, e.1 = l ∧ e.2.after_all = true := by
  unfold lastOf at hl
  cases hf : L.find? (fun e => e.2.after_all) with
  | none => rw [hf] at hl; exact absurd hl (by simp)
  | some e =>
    rw [hf] at hl
    injection hl with h2
    refine ⟨e, List.mem_of_find?_eq_some hf, h2, ?_⟩
    have := List.find?_some hf
    simpa using this

/-- The `RunFirst` designee is not an ordinary callback of a
duplicate-free input. -/
theorem root_not_ord {L : List (Nat × CbOptions)} (hnd : (L.map Prod.fst).Nodup)
    {r : Nat} (hr : rootOf L = some r) : r ∉ ordCallbacks L := by
  rcases rootOf_entry hr with ⟨e0, he0, hfst0, hb0⟩
  intro hor
  rcases List.mem_map.mp hor with ⟨e, he', hfst⟩
  have he := List.mem_of_mem_filter he'
  have hord := List.of_mem_filter he'
  have : e = e0 := List.inj_on_of_nodup_map hnd he he0 (hfst.trans hfst0.symm)
  subst this
  simp [ordEntry, hb0] at hord

/-- The `RunFirst` designee is a scheduled key. -/
theorem root_mem_keys {L : List (Nat × CbOptions)} (hwf : WfInput L)
    {r : Nat} (hr : rootOf L = some r) :
    r ∈ (L.filter (fun e => !e.2.after_all)).map Prod.fst := by
  rcases rootOf_entry hr with ⟨e0, he0, hfst0, hb0⟩
  have hpure := (hwf.root_pure e0 he0 hb0).1
  exact List.mem_map.mpr ⟨e0, List.mem_filter.mpr ⟨he0, by simp [hpure]⟩, hfst0⟩

/-- The `RunFirst` designee has no recorded parent. -/
theorem root_no_parents {L : List (Nat × CbOptions)} {st : SchedState}
    (S : SetupFacts L st) (hnd : (L.map Prod.fst).Nodup)
    {r : Nat} (hr : rootOf L = some r) : aget st.parents r = [] := by
  rw [List.eq_nil_iff_forall_not_mem]
  intro p hp
  rcases (S.par r p).mp hp with ⟨e, he, hfst, hord, _⟩ | ⟨_, hz⟩
  · exact root_not_ord hnd hr (List.mem_map.mpr ⟨e, List.mem_filter.mpr ⟨he, hord⟩, hfst⟩)
  · exact root_not_ord hnd hr (zeroParent_sub_ord hz)

/-- The recorded graph only names scheduled keys. -/
theorem setup_keysClosed {L : List (Nat × CbOptions)} {st : SchedState}
    (S : SetupFacts L st) (hwf : WfInput L) :
    KeysClosed st.children st.searched := by
  intro p y hy
  rw [S.keys]
  rcases (S.par y p).mp ((S.conv p y).mp hy) with ⟨e, he, hfst, hord, _⟩ | ⟨_, hz⟩
  · exact mem_keys_of_ord (List.mem_map.mpr ⟨e, List.mem_filter.mpr ⟨he, hord⟩, hfst⟩)
  · exact mem_keys_of_ord (zeroParent_sub_ord hz)

/-- The start points are scheduled keys. -/
theorem setup_starts_sub {L : List (Nat × CbOptions)} {st : SchedState}
    (S : SetupFacts L st) (hwf : WfInput L) :
    ∀ s ∈ st.search_starts, s ∈ ckeys st.searched := by
  intro s hs
  rw [S.keys]
  cases hr : rootOf L with
  | none =>
    rw [S.starts_none hr] at hs
    exact mem_keys_of_ord (zeroParent_sub_ord hs)
  | some r =>
    rw [S.starts_some r hr] at hs
    simp only [List.mem_singleton] at hs
    subst hs
    exact root_mem_keys hwf hr

/-- An all-white color dict with duplicate-free keys is counted by its
length. -/
theorem whiteCount_eq_length : ∀ (s : List (Nat × Color)),
    (ckeys s).Nodup → (∀ k c, cget s k = some c → c = Color.white) →
    whiteCount s = s.length := by
  intro s
  induction s with
  | nil => intro _ _; rfl
  | cons e rest ih =>
    intro hnd hw
    obtain ⟨k, c⟩ := e
    have hself : cget ((k, c) :: rest) k = some c := by simp [cget]
    have hc := hw k c hself
    subst hc
    have hnd2 : (ckeys rest).Nodup := (List.nodup_cons.mp hnd).2
    have hknot : k ∉ ckeys rest := (List.nodup_cons.mp hnd).1
    have hw2 : ∀ k2 c2, cget rest k2 = some c2 → c2 = Color.white := by
      intro k2 c2 h2
      have hk2 : k2 ∈ ckeys rest := mem_ckeys_of_cget h2
      have hne : k ≠ k2 := fun he => hknot (he ▸ hk2)
      apply hw k2 c2
      simpa [cget, hne] using h2
    have := ih hnd2 hw2
    have hstep : whiteCount ((k, Color.white) :: rest) = whiteCount rest + 1 := by
      simp [whiteCount, List.countP_cons]
    rw [hstep, this, List.length_cons]

/-- Keys of the searched dict are duplicate-free. -/
theorem setup_keys_nodup {L : List (Nat × CbOptions)} {st : SchedState}
    (S : SetupFacts L st) (hwf : WfInput L) : (ckeys st.searched).Nodup := by
  rw [S.keys]
  have : ((L.filter (fun e => !e.2.after_all)).map Prod.fst).Sublist (L.map Prod.fst) :=
    (List.filter_sublist L).map Prod.fst
  exact List.Nodup.sublist this hwf.nodup

/-- No recorded edge enters the `RunFirst` designee. -/
theorem setup_no_edge_into_root {L : List (Nat × CbOptions)} {st : SchedState}
    (S : SetupFacts L st) (hnd : (L.map Prod.fst).Nodup)
    {r : Nat} (hr : rootOf L = some r) : ∀ q, ¬ chEdge st.children q r := by
  intro q hq
  have : q ∈ aget st.parents r := (S.conv q r).mp hq
  rw [root_no_parents S hnd hr] at this
  exact absurd this (by simp)

/-- A recorded edge is a declared ordering or the root binding. -/
theorem setup_edge_cases {L : List (Nat × CbOptions)} {st : SchedState}
    (S : SetupFacts L st) {a b : Nat} (h : chEdge st.children a b) :
    declEdge L b a ∨ (rootOf L = some a ∧ b ∈ zeroParentCallbacks L) := by
  rcases (S.par b a).mp ((S.conv a b).mp h) with ⟨e, he, hfst, _, hp⟩ | ⟨hra, hz⟩
  · exact Or.inl ⟨e, he, hfst, hp⟩
  · exact Or.inr ⟨hra, hz⟩

/-- No declared ordering runs the `RunFirst` designee after anything. -/
theorem no_declEdge_from_root {L : List (Nat × CbOptions)} (hwf : WfInput L)
    {r : Nat} (hr : rootOf L = some r) : ∀ c, ¬ declEdge L r c := by
  intro c hd
  rcases hd with ⟨e, he, hfst, hp⟩
  rcases rootOf_entry hr with ⟨e0, he0, hfst0, hb0⟩
  have : e = e0 := List.inj_on_of_nodup_map hwf.nodup he he0 (hfst.trans hfst0.symm)
  subst this
  have := (hwf.root_pure e he hb0).2
  simp [CbOptions.declParents, this] at hp

/-- Acyclic declared orderings build an acyclic graph. -/
theorem setup_acyclic {L : List (Nat × CbOptions)} {st : SchedState}
    (S : SetupFacts L st) (hwf : WfInput L)
    (hacyc : ∀ x, ¬ Relation.TransGen (declEdge L) x x) : Acyclic st.children := by
  have hnd := hwf.nodup
  cases hr : rootOf L with
  | none =>
    intro x hx
    have hmono : ∀ a b, chEdge st.children a b → declEdge L b a := by
      intro a b h
      rcases setup_edge_cases S h with h1 | ⟨hra, _⟩
      · exact h1
      · rw [hr] at hra; exact absurd hra (by simp)
    have := Relation.TransGen.mono hmono hx
    exact hacyc x (Relation.TransGen.swap this)
  | some r =>
    have hkey : ∀ x y, Relation.TransGen (chEdge st.children) x y →
        Relation.TransGen (fun a b => declEdge L b a) x y ∨ x = r := by
      intro x y h
      induction h with
      | single e =>
        rcases setup_edge_cases S e with h1 | ⟨hra, _⟩
        · exact Or.inl (Relation.TransGen.single h1)
        · rw [hr] at hra
          injection hra with h2
          exact Or.inr h2.symm
      | tail hstep e ih =>
        rcases ih with hdf | rfl
        · rcases setup_edge_cases S e with h1 | ⟨hra, _⟩
          · exact Or.inl (Relation.TransGen.tail hdf h1)
          · rw [hr] at hra
            injection hra with h2
            subst h2
            rcases Relation.TransGen.tail'_iff.mp hdf with ⟨c, _, hcr⟩
            exact absurd hcr (no_declEdge_from_root hwf hr c)
        · exact Or.inr rfl
    intro x hx
    rcases hkey x x hx with hdf | rfl
    · exact hacyc x (Relation.TransGen.swap hdf)
    · rcases Relation.TransGen.tail'_iff.mp hx with ⟨c, _, hcr⟩
      exact setup_no_edge_into_root S hnd hr c hcr

/-- An ordinary callback that is not a start point has a recorded
parent. -/
theorem setup_parents_nonempty {L : List (Nat × CbOptions)} {st : SchedState}
    (S : SetupFacts L st) (hwf : WfInput L) :
    ∀ c ∈ ordCallbacks L, c ∉ zeroParentCallbacks L → ∃ p, p ∈ aget st.parents c := by
  intro c hc hnz
  rcases List.mem_map.mp hc with ⟨e, he', rfl⟩
  have he := List.mem_of_mem_filter he'
  have hord := List.of_mem_filter he'
  cases hra : e.2.run_after with
  | nodecl =>
    exact absurd (List.mem_map.mpr ⟨e, List.mem_filter.mpr ⟨he, by simp [hord, hra]⟩, rfl⟩) hnz
  | single p =>
    refine ⟨p, (S.par e.1 p).mpr (Or.inl ⟨e, he, rfl, hord, ?_⟩)⟩
    simp [CbOptions.declParents, hra]
  | many cs =>
    have hne := hwf.ra_nonempty e he cs hra
    cases hcs : cs with
    | nil => exact absurd hcs hne
    | cons p cs2 =>
      refine ⟨p, (S.par e.1 p).mpr (Or.inl ⟨e, he, rfl, hord, ?_⟩)⟩
      simp [CbOptions.declParents, hra, hcs]

/-- Every ordinary callback is reachable from a zero-parent start
point along recorded edges. -/
theorem setup_reach {L : List (Nat × CbOptions)} {st : SchedState}
    (S : SetupFacts L st) (hwf : WfInput L)
    (hacyc : ∀ x, ¬ Relation.TransGen (declEdge L) x x) :
    ∀ c ∈ ordCallbacks L, ∃ s ∈ zeroParentCallbacks L,
      Relation.ReflTransGen (chEdge st.children) s c := by
  have hA : Acyclic st.children := setup_acyclic S hwf hacyc
  have hfin : Finite {x : Nat // x ∈ ordCallbacks L} :=
    Set.Finite.to_subtype (ordCallbacks L).finite_toSet
  let r : {x : Nat // x ∈ ordCallbacks L} → {x : Nat // x ∈ ordCallbacks L} → Prop :=
    fun a b => Relation.TransGen (chEdge st.children) a.val b.val
  have htrans : IsTrans _ r := ⟨fun a b c hab hbc => hab.trans hbc⟩
  have hirr : IsIrrefl _ r := ⟨fun a ha => hA a.val ha⟩
  have hwfd : WellFounded r := @Finite.wellFounded_of_trans_of_irrefl _ hfin r htrans hirr
  intro c hc
  have main : ∀ x : {x : Nat // x ∈ ordCallbacks L},
      ∃ s ∈ zeroParentCallbacks L, Relation.ReflTransGen (chEdge st.children) s x.val := by
    intro x
    induction x using hwfd.induction with
    | _ x ih =>
      by_cases hz : x.val ∈ zeroParentCallbacks L
      · exact ⟨x.val, hz, Relation.ReflTransGen.refl⟩
      · rcases setup_parents_nonempty S hwf x.val x.2 hz with ⟨p, hp⟩
        have hpord : p ∈ ordCallbacks L := by
          rcases (S.par x.val p).mp hp with ⟨e, he, hfst, hord, hdp⟩ | ⟨_, hzz⟩
          · exact hwf.parents_ord e he hord p hdp
          · exact absurd hzz hz
        have hedge : chEdge st.children p x.val := (S.conv p x.val).mpr hp
        rcases ih ⟨p, hpord⟩ (Relation.TransGen.single hedge) with ⟨s, hs, hpath⟩
        exact ⟨s, hs, Relation.ReflTransGen.tail hpath hedge⟩
  exact main ⟨c, hc⟩

/-- BLACK entries are closed under reachability once the traversal has
finished. -/
theorem reachable_black {children : List (Nat × List Nat)} {sF : List (Nat × Color)}
    {done : List Nat} (hG : DfsGood children sF done) {s0 c : Nat}
    (hs : cget sF s0 = some Color.black)
    (hpath : Relation.ReflTransGen (chEdge children) s0 c) :
    cget sF c = some Color.black := by
  induction hpath with
  | refl => exact hs
  | tail hp e ih =>
    rename_i b c2
    have hb : b ∈ done := (hG.2.1 b).mp ih
    have hsub := hG.2.2 b hb c2 e
    have hc : c2 ∈ done := List.Sublist.mem (by simp) hsub
    exact (hG.2.1 c2).mpr hc

/-- A finished callback lies on no recorded cycle. -/
theorem no_cycle_in_done {children : List (Nat × List Nat)} {sF : List (Nat × Color)}
    {done : List Nat} (hG : DfsGood children sF done) {x : Nat}
    (hx : x ∈ done) (hcyc : Relation.TransGen (chEdge children) x x) : False := by
  have hstep : ∀ a b, Relation.TransGen (chEdge children) a b → a ∈ done →
      b ∈ done ∧ done.indexOf b < done.indexOf a := by
    intro a b h
    induction h with
    | single e =>
      intro ha
      have hsub := hG.2.2 _ ha _ e
      exact ⟨List.Sublist.mem (by simp) hsub, idx_lt_of_pair_sublist hG.1 hsub⟩
    | tail hstep e ih =>
      intro ha
      rcases ih ha with ⟨hc, hlt⟩
      have hsub := hG.2.2 _ hc _ e
      exact ⟨List.Sublist.mem (by simp) hsub,
        lt_trans (idx_lt_of_pair_sublist hG.1 hsub) hlt⟩
  rcases hstep x x hcyc hx with ⟨_, hlt⟩
  exact lt_irrefl _ hlt

/-- The readiness scan on a defined parent set either passes all
parents or stops at a BLACK one. -/
theorem readyCheck_go_spec (s : List (Nat × Color)) :
    ∀ (l : List Nat), (∀ p ∈ l, (cget s p).isSome) →
      (readyCheck.go s l = .ok true ∧ ∀ p ∈ l, cget s p ≠ some Color.black) ∨
      (readyCheck.go s l = .ok false ∧ ∃ p ∈ l, cget s p = some Color.black) := by
  intro l
  induction l with
  | nil =>
    intro _
    exact Or.inl ⟨rfl, by simp⟩
  | cons p rest ih =>
    intro hdef
    cases hp : cget s p with
    | none =>
      have := hdef p (by simp)
      rw [hp] at this
      exact absurd this (by simp)
    | some c =>
      cases c with
      | black =>
        exact Or.inr ⟨by simp [readyCheck.go, hp], ⟨p, by simp, hp⟩⟩
      | white =>
        rcases ih (fun q hq => hdef q (by simp [hq])) with ⟨hok, hall⟩ | ⟨hok, p2, hp2, hb2⟩
        · refine Or.inl ⟨by simp [readyCheck.go, hp, hok], ?_⟩
          intro q hq
          rcases List.mem_cons.mp hq with rfl | hq2
          · rw [hp]; simp
          · exact hall q hq2
        · exact Or.inr ⟨by simp [readyCheck.go, hp, hok], ⟨p2, by simp [hp2], hb2⟩⟩
      | gray =>
        rcases ih (fun q hq => hdef q (by simp [hq])) with ⟨hok, hall⟩ | ⟨hok, p2, hp2, hb2⟩
        · refine Or.inl ⟨by simp [readyCheck.go, hp, hok], ?_⟩
          intro q hq
          rcases List.mem_cons.mp hq with rfl | hq2
          · rw [hp]; simp
          · exact hall q hq2
        · exact Or.inr ⟨by simp [readyCheck.go, hp, hok], ⟨p2, by simp [hp2], hb2⟩⟩

/-- Readiness of a callback with defined parent colors. -/
theorem readyCheck_spec (P : List (Nat × List Nat)) (s : List (Nat × Color)) (k : Nat)
    (hdef : ∀ p ∈ aget P k, (cget s p).isSome) :
    (readyCheck P s k = .ok true ∧ ∀ p ∈ aget P k, cget s p ≠ some Color.black) ∨
    (readyCheck P s k = .ok false ∧ ∃ p ∈ aget P k, cget s p = some Color.black) :=
  readyCheck_go_spec s (aget P k) hdef

/-- The front-popping loop on defined colors: it splits the deque into a
ready prefix and a rest whose front, if any, is not ready. -/
theorem popReady_spec (P : List (Nat × List Nat)) (s : List (Nat × Color)) :
    ∀ (d : List Nat), (∀ k ∈ d, ∀ p ∈ aget P k, (cget s p).isSome) →
      ∃ pp rm, popReady P s d = .ok (pp, rm) ∧ d = pp ++ rm ∧
        (∀ k ∈ pp, ∀ p ∈ aget P k, cget s p ≠ some Color.black) ∧
        (∀ k rm2, rm = k :: rm2 → ∃ p ∈ aget P k, cget s p = some Color.black) := by
  intro d
  induction d with
  | nil =>
    intro _
    exact ⟨[], [], rfl, rfl, by simp, by simp⟩
  | cons k rest ih =>
    intro hdef
    rcases readyCheck_spec P s k (hdef k (by simp)) with ⟨hok, hall⟩ | ⟨hok, hblack⟩
    · rcases ih (fun k2 hk2 => hdef k2 (by simp [hk2])) with ⟨pp, rm, hpr, hsplit, hppok, hrm⟩
      refine ⟨k :: pp, rm, ?_, by simp [hsplit], ?_, hrm⟩
      · simp only [popReady, hok, hpr]
      · intro k2 hk2
        rcases List.mem_cons.mp hk2 with rfl | hk3
        · exact hall
        · exact hppok k2 hk3
    · refine ⟨[], k :: rest, ?_, rfl, by simp, ?_⟩
      · simp only [popReady, hok]
      · intro k2 rm2 he
        injection he with he1 he2
        subst he1
        exact hblack

/-- One pass over all deques with frozen colors: the popped group and the
survivors partition the pending callbacks, every popped callback was
ready, survivors are sublists of their deques, and the group is nonempty
whenever some deque front was ready. -/
theorem passOnce_spec (P : List (Nat × List Nat)) (s : List (Nat × Color)) :
    ∀ (ds : List (List Nat)), (∀ d ∈ ds, ∀ k ∈ d, ∀ p ∈ aget P k, (cget s p).isSome) →
      ∃ grp ds2, passOnce P s ds = .ok (grp, ds2) ∧
        (grp ++ ds2.flatten).Perm ds.flatten ∧
        (∀ k ∈ grp, ∀ p ∈ aget P k, cget s p ≠ some Color.black) ∧
        (∀ d2 ∈ ds2, ∃ d ∈ ds, d2.Sublist d) ∧
        ((∃ d ∈ ds, ∃ k rm, d = k :: rm ∧
            ∀ p ∈ aget P k, cget s p ≠ some Color.black) → grp ≠ []) := by
  intro ds
  induction ds with
  | nil =>
    intro _
    exact ⟨[], [], rfl, by simp, by simp, by simp, by simp⟩
  | cons d rest ih =>
    intro hdef
    rcases popReady_spec P s d (hdef d (by simp)) with ⟨pp, rm, hpr, hsplit, hppok, hrmfront⟩
    rcases ih (fun d2 hd2 => hdef d2 (by simp [hd2])) with
      ⟨grp2, ds2, hpass, hperm, hgok, hsurv, hprog⟩
    refine ⟨pp ++ grp2, rm :: ds2, ?_, ?_, ?_, ?_, ?_⟩
    · simp only [passOnce, hpr, hpass]
    · have h1 : ((pp ++ grp2) ++ (rm :: ds2).flatten) =
          pp ++ (grp2 ++ (rm ++ ds2.flatten)) := by
        simp [List.append_assoc]
      rw [h1]
      have h2 : (grp2 ++ (rm ++ ds2.flatten)).Perm (rm ++ (grp2 ++ ds2.flatten)) := by
        rw [← List.append_assoc, ← List.append_assoc]
        exact (List.perm_append_comm.append_right ds2.flatten)
      have h3 : (pp ++ (grp2 ++ (rm ++ ds2.flatten))).Perm
          (pp ++ (rm ++ (grp2 ++ ds2.flatten))) := h2.append_left pp
      refine h3.trans ?_
      rw [← List.append_assoc, ← hsplit]
      simp only [List.flatten_cons]
      exact hperm.append_left d
    · intro k hk
      rcases List.mem_append.mp hk with hk1 | hk2
      · exact hppok k hk1
      · exact hgok k hk2
    · intro d2 hd2
      rcases List.mem_cons.mp hd2 with rfl | hd3
      · exact ⟨d, by simp, hsplit ▸ (List.sublist_append_right pp d2)⟩
      · rcases hsurv d2 hd3 with ⟨d0, hd0, hsub⟩
        exact ⟨d0, by simp [hd0], hsub⟩
    · rintro ⟨d0, hd0, k, rm0, hshape, hready⟩
      rcases List.mem_cons.mp hd0 with rfl | hd0rest
      · intro hnil
        rcases List.append_eq_nil.mp hnil with ⟨hpp, _⟩
        subst hpp
        simp only [List.nil_append] at hsplit
        rcases hrmfront k rm0 (hsplit.symm.trans hshape) with ⟨p, hp, hb⟩
        exact hready p hp hb
      · intro hnil
        rcases List.append_eq_nil.mp hnil with ⟨_, hg2⟩
        exact hprog ⟨d0, hd0rest, k, rm0, hshape, hready⟩ hg2

/-- Reduction of the grouping loop over one successful pass. -/
theorem groupLoop_cons_ok {P : List (Nat × List Nat)} {fuel : Nat}
    {s : List (Nat × Color)} {d : List Nat} {ds acc : List (List Nat)}
    {grp : List Nat} {ds2 : List (List Nat)}
    (h : passOnce P s (d :: ds) = .ok (grp, ds2)) :
    groupLoop P (fuel + 1) s (d :: ds) acc =
      groupLoop P fuel (markCompleted s grp) (ds2.filter (fun g => !g.isEmpty))
        (acc ++ [grp]) := by
  simp only [groupLoop, h]

/-- The grouping loop on an invariant state with enough fuel succeeds;
the emitted groups partition the pending callbacks and every parent of a
popped callback was popped in a strictly earlier group or already
completed on entry. -/
theorem groupLoop_ok (P : List (Nat × List Nat)) (G : List Nat)
    (hndG : G.Nodup) (hPL : ParentsLater P G) :
    ∀ (fuel : Nat) (s : List (Nat × Color)) (ds : List (List Nat)) (acc : List (List Nat)),
      GroupInv G s ds → ds.flatten.length < fuel →
      ∃ acc2, groupLoop P fuel s ds acc = .ok (acc ++ acc2) ∧
        acc2.flatten.Perm ds.flatten ∧
        (∀ j k, k ∈ acc2.getD j [] → ∀ p ∈ aget P k,
          p ∈ (acc2.take j).flatten ∨ cget s p = some Color.white) ∧
        (∀ d0 ds0, ds = d0 :: ds0 →
          ∃ grp ds2, passOnce P s ds = .ok (grp, ds2) ∧ acc2.getD 0 [] = grp) := by
  intro fuel
  induction fuel with
  | zero =>
    intro s ds acc _ hlt
    exact absurd hlt (Nat.not_lt_zero _)
  | succ fuel ih =>
    intro s ds acc hInv hlt
    cases ds with
    | nil =>
      refine ⟨[], by simp [groupLoop], by simp, ?_, ?_⟩
      · intro j k hk
        simp [List.getD] at hk
      · intro d0 ds0 h
        exact absurd h (by simp)
    | cons d rest =>
      have hdef : ∀ d2 ∈ d :: rest, ∀ k ∈ d2, ∀ p ∈ aget P k, (cget s p).isSome := by
        intro d2 hd2 k hk p hp
        have hkG : k ∈ G := hInv.mem_G k (List.mem_flatten.mpr ⟨d2, hd2, hk⟩)
        have hpG : p ∈ G := (hPL k hkG p hp).1
        rcases hInv.bw p hpG with h | h <;> simp [h]
      rcases passOnce_spec P s (d :: rest) hdef with
        ⟨grp, ds2, hpass, hperm, hgok, hsurv, hprog⟩
      have hflat_ne : (d :: rest).flatten ≠ [] := by
        have hdne := hInv.ne d (by simp)
        simp only [List.flatten_cons, ne_eq, List.append_eq_nil]
        intro hcon
        exact hdne hcon.1
      rcases exists_max_image (fun x => G.indexOf x) ((d :: rest).flatten) hflat_ne with
        ⟨m, hm, hmax⟩
      rcases List.mem_flatten.mp hm with ⟨d0, hd0, hmd0⟩
      have hd0ne := hInv.ne d0 hd0
      rcases hd00 : d0 with _ | ⟨f0, tl⟩
      · exact absurd hd00 hd0ne
      subst hd00
      have hf0G : f0 ∈ G := hInv.mem_G f0 (List.mem_flatten.mpr ⟨f0 :: tl, hd0, by simp⟩)
      have hf0ready : ∀ p ∈ aget P f0, cget s p ≠ some Color.black := by
        intro p hp hpb
        have hpG := (hPL f0 hf0G p hp).1
        have hposf : G.indexOf f0 < G.indexOf p :=
          idx_lt_of_pair_sublist hndG (hPL f0 hf0G p hp).2
        have hpD : p ∈ (d :: rest).flatten := (hInv.black_iff p).mp hpb
        have h1 : G.indexOf p ≤ G.indexOf m := hmax p hpD
        have hdesc := hInv.desc (f0 :: tl) hd0
        have h2 : G.indexOf m ≤ G.indexOf f0 := by
          rcases List.mem_cons.mp hmd0 with rfl | hmtl
          · exact le_refl _
          · exact le_of_lt ((List.pairwise_cons.mp hdesc).1 m hmtl)
        omega
      have hgrp_ne : grp ≠ [] := hprog ⟨f0 :: tl, hd0, f0, tl, rfl, hf0ready⟩
      have hflat2 : (ds2.filter (fun g => !g.isEmpty)).flatten = ds2.flatten :=
        flatten_filter_nonempty ds2
      have hnd2 : (grp ++ ds2.flatten).Nodup := hperm.nodup_iff.mpr hInv.nodup
      have hdisj : ∀ k, k ∈ grp → k ∉ ds2.flatten := by
        intro k h1 h2
        exact ((List.nodup_append.mp hnd2).2.2) h1 h2
      have hmemsplit : ∀ k, k ∈ (d :: rest).flatten ↔ (k ∈ grp ∨ k ∈ ds2.flatten) := by
        intro k
        rw [← hperm.mem_iff, List.mem_append]
      have hInv2 : GroupInv G (markCompleted s grp) (ds2.filter (fun g => !g.isEmpty)) := by
        refine ⟨?_, ?_, ?_, ?_, ?_, ?_, ?_⟩
        · intro d2 hd2
          have := List.of_mem_filter hd2
          simpa using this
        · intro k hk
          rw [hflat2] at hk
          exact hInv.mem_G k ((hmemsplit k).mpr (Or.inr hk))
        · rw [hflat2]
          exact (List.nodup_append.mp hnd2).2.1
        · intro d2 hd2
          rcases hsurv d2 (List.mem_of_mem_filter hd2) with ⟨d1, hd1, hsub⟩
          exact (hInv.desc d1 hd1).sublist hsub
        · intro k
          rw [markCompleted_cget, hflat2]
          by_cases hkg : k ∈ grp
          · rw [if_pos hkg]
            constructor
            · intro hcon
              exact absurd hcon (by simp)
            · intro hk2
              exact absurd hk2 (hdisj k hkg)
          · rw [if_neg hkg, hInv.black_iff k, hmemsplit k]
            constructor
            · rintro (h | h)
              · exact absurd h hkg
              · exact h
            · exact fun h => Or.inr h
        · intro k hkG hknot
          rw [markCompleted_cget]
          by_cases hkg : k ∈ grp
          · rw [if_pos hkg]
          · rw [if_neg hkg]
            rw [hflat2] at hknot
            apply hInv.white_done k hkG
            rw [hmemsplit k]
            rintro (h | h)
            · exact hkg h
            · exact hknot h
        · intro k hkG
          rw [markCompleted_cget]
          by_cases hkg : k ∈ grp
          · rw [if_pos hkg]
            exact Or.inr rfl
          · rw [if_neg hkg]
            exact hInv.bw k hkG
      have hlen : (ds2.filter (fun g => !g.isEmpty)).flatten.length <
          (d :: rest).flatten.length := by
        rw [hflat2]
        have hlq := hperm.length_eq
        rw [List.length_append] at hlq
        have hg1 : 1 ≤ grp.length := by
          cases grp with
          | nil => exact absurd rfl hgrp_ne
          | cons a b => simp
        omega
      have hlt2 : (ds2.filter (fun g => !g.isEmpty)).flatten.length < fuel := by omega
      rcases ih (markCompleted s grp) (ds2.filter (fun g => !g.isEmpty)) (acc ++ [grp])
        hInv2 hlt2 with ⟨acc2', hres, hperm2, hpar2, _⟩
      refine ⟨grp :: acc2', ?_, ?_, ?_, ?_⟩
      · rw [groupLoop_cons_ok hpass, hres, List.append_assoc]
        rfl
      · simp only [List.flatten_cons]
        rw [hflat2] at hperm2
        exact (hperm2.append_left grp).trans hperm
      · intro j k hk p hp
        cases j with
        | zero =>
          rw [List.getD_cons_zero] at hk
          right
          have hkD : k ∈ (d :: rest).flatten := (hmemsplit k).mpr (Or.inl hk)
          have hkG : k ∈ G := hInv.mem_G k hkD
          have hpG : p ∈ G := (hPL k hkG p hp).1
          have hnb := hgok k hk p hp
          rcases hInv.bw p hpG with hb | hw
          · exact absurd hb hnb
          · exact hw
        | succ j2 =>
          rw [List.getD_cons_succ] at hk
          rcases hpar2 j2 k hk p hp with hin | hwhite
          · left
            rw [List.take_succ_cons, List.flatten_cons]
            exact List.mem_append.mpr (Or.inr hin)
          · rw [markCompleted_cget] at hwhite
            by_cases hpg : p ∈ grp
            · left
              rw [List.take_succ_cons, List.flatten_cons]
              exact List.mem_append.mpr (Or.inl hpg)
            · right
              rw [if_neg hpg] at hwhite
              exact hwhite
      · intro d0 ds0 _
        exact ⟨grp, ds2, hpass, List.getD_cons_zero⟩

/-- Under the well-formedness constraints a declared ordering appears in
the recorded graph. -/
theorem declEdge_to_chEdge {L : List (Nat × CbOptions)} {st : SchedState}
    (S : SetupFacts L st) (hwf : WfInput L) {a b : Nat}
    (h : declEdge L b a) : chEdge st.children a b := by
  rcases h with ⟨e, he, hfst, hp⟩
  have hord : ordEntry e = true := by
    cases hb : e.2.before_all with
    | true =>
      have := (hwf.root_pure e he hb).2
      rw [CbOptions.declParents, this] at hp
      exact absurd hp (by simp)
    | false =>
      cases ha : e.2.after_all with
      | true =>
        have := hwf.last_pure e he ha
        rw [CbOptions.declParents, this] at hp
        exact absurd hp (by simp)
      | false => simp [ordEntry, hb, ha]
  exact (S.conv a b).mpr ((S.par b a).mpr (Or.inl ⟨e, he, hfst, hord, hp⟩))

/-- The all-white state is a valid empty traversal state. -/
theorem dfsGood_initial {L : List (Nat × CbOptions)} {st : SchedState}
    (S : SetupFacts L st) : DfsGood st.children st.searched [] := by
  refine ⟨List.nodup_nil, ?_, ?_⟩
  · intro k
    constructor
    · intro h
      exact absurd (S.white k Color.black h) (by simp)
    · intro h
      exact absurd h (List.not_mem_nil k)
  · intro x hx
    exact absurd hx (List.not_mem_nil x)

/-- Reduction of the scheduler when the traversal fails. -/
theorem pgc_runDfs_err {L : List (Nat × CbOptions)} {st0 : SchedState} {msg : String}
    (h1 : phase1 L = .ok st0)
    (h2 : runDfs (rootBind st0).children ((rootBind st0).searched.length + 1)
      (rootBind st0).searched (rootBind st0).search_starts = .error msg) :
    parallel_groups_of_callbacks L = .error msg := by
  simp only [parallel_groups_of_callbacks, h1, h2]

/-- Reduction of the scheduler when traversal and grouping succeed. -/
theorem pgc_ok {L : List (Nat × CbOptions)} {st0 : SchedState}
    {sF : List (Nat × Color)} {dq : List (List Nat)} {groups : List (List Nat)}
    (h1 : phase1 L = .ok st0)
    (h2 : runDfs (rootBind st0).children ((rootBind st0).searched.length + 1)
      (rootBind st0).searched (rootBind st0).search_starts = .ok (sF, dq))
    (h3 : groupLoop (rootBind st0).parents ((dq.map List.length).sum + 1) sF dq [] =
      .ok groups) :
    parallel_groups_of_callbacks L =
      .ok (groups ++ (match (rootBind st0).last with | some l => [[l]] | none => [])) := by
  simp only [parallel_groups_of_callbacks, h1, h2, h3]

/-- A start point of the traversal ends BLACK, and so does everything it
reaches. -/
theorem start_reaches_black {L : List (Nat × CbOptions)} {st0 : SchedState}
    (hwf : WfInput L) (hph : phase1 L = .ok st0)
    {sF : List (Nat × Color)} {dq : List (List Nat)}
    (hrun : runDfs (rootBind st0).children ((rootBind st0).searched.length + 1)
      (rootBind st0).searched (rootBind st0).search_starts = .ok (sF, dq))
    {s c : Nat} (hs : s ∈ zeroParentCallbacks L)
    (hpath : Relation.ReflTransGen (chEdge (rootBind st0).children) s c) :
    cget sF c = some Color.black := by
  have S := sched_setup hwf hph
  rcases runDfs_facts (rootBind st0).children ((rootBind st0).searched.length + 1)
      (rootBind st0).search_starts (rootBind st0).searched sF dq []
      hrun (dfsGood_initial S) with ⟨hG, _, _, _, hstarts, _⟩
  have hsblack : cget sF s = some Color.black := by
    cases hr : rootOf L with
    | none =>
      apply hstarts
      rw [S.starts_none hr]
      exact hs
    | some r =>
      have hrb : cget sF r = some Color.black := by
        apply hstarts
        rw [S.starts_some r hr]
        simp
      have hedge : chEdge (rootBind st0).children r s :=
        (S.conv r s).mpr ((S.par s r).mpr (Or.inr ⟨hr, hs⟩))
      exact reachable_black hG hrb (Relation.ReflTransGen.single hedge)
  exact reachable_black hG hsblack hpath

/-- With at most one satisfying entry, two satisfying members agree. -/
theorem mem_unique_of_countP_le_one {p : Nat × CbOptions → Bool} :
    ∀ {L : List (Nat × CbOptions)}, L.countP p ≤ 1 → ∀ {e e2 : Nat × CbOptions},
      e ∈ L → e2 ∈ L → p e = true → p e2 = true → e = e2 := by
  intro L
  induction L with
  | nil =>
    intro _ e e2 he _ _ _
    exact absurd he (List.not_mem_nil e)
  | cons a t ih =>
    intro hc e e2 he he2 hpe hpe2
    have hzero : p a = true → t.countP p = 0 := by
      intro hpa
      rw [List.countP_cons, hpa] at hc
      simp at hc
      exact List.countP_eq_zero.mpr (by
        intro x hx
        obtain ⟨x1, x2⟩ := x
        simp [hc x1 x2 hx])
    rcases List.mem_cons.mp he with rfl | het
    · rcases List.mem_cons.mp he2 with rfl | he2t
      · rfl
      · exfalso
        have := List.countP_pos.mpr ⟨e2, he2t, hpe2⟩
        have := hzero hpe
        omega
    · rcases List.mem_cons.mp he2 with rfl | he2t
      · exfalso
        have := List.countP_pos.mpr ⟨e, het, hpe⟩
        have := hzero hpe2
        omega
      · apply ih _ het he2t hpe hpe2
        rw [List.countP_cons] at hc
        omega

/-- With at most one satisfying entry, the filter is the found entry. -/
theorem filter_eq_singleton_of_find {p : Nat × CbOptions → Bool} :
    ∀ {L : List (Nat × CbOptions)} {e : Nat × CbOptions},
      L.countP p ≤ 1 → L.find? p = some e → L.filter p = [e] := by
  intro L
  induction L with
  | nil =>
    intro e _ h
    exact absurd h (by simp)
  | cons a t ih =>
    intro e hc hf
    cases hpa : p a with
    | true =>
      rw [List.find?_cons_of_pos _ hpa] at hf
      injection hf with h2
      subst h2
      have hct : t.countP p = 0 := by
        rw [List.countP_cons, hpa] at hc
        simp at hc
        exact List.countP_eq_zero.mpr (by
        intro x hx
        obtain ⟨x1, x2⟩ := x
        simp [hc x1 x2 hx])
      have hnil : t.filter p = [] := by
        rw [List.filter_eq_nil_iff]
        intro x hx hpx
        have := List.countP_pos.mpr ⟨x, hx, hpx⟩
        omega
      rw [List.filter_cons_of_pos hpa, hnil]
    | false =>
      rw [List.find?_cons_of_neg _ (by simp [hpa])] at hf
      rw [List.filter_cons_of_neg (by simp [hpa])]
      apply ih _ hf
      simp [List.countP_cons, hpa] at hc
      exact hc

/-- The input callbacks split into the scheduled keys and the `RunLast`
entries. -/
theorem map_fst_split {L : List (Nat × CbOptions)} :
    (L.map Prod.fst).Perm
      ((L.filter (fun e => !e.2.after_all)).map Prod.fst ++
        (L.filter (fun e => e.2.after_all)).map Prod.fst) := by
  have h := (List.filter_append_perm (fun e => !e.2.after_all) L).symm
  have h2 : L.filter (fun x => !!x.2.after_all) = L.filter (fun x => x.2.after_all) :=
    List.filter_congr (by intro x _; simp)
  rw [h2] at h
  have h3 := h.map Prod.fst
  rw [List.map_append] at h3
  exact h3

/-- Without a `RunLast` declaration no entry is a `RunLast` entry. -/
theorem filter_after_nil {L : List (Nat × CbOptions)} (h : lastOf L = none) :
    L.filter (fun e => e.2.after_all) = [] := by
  unfold lastOf at h
  cases hf : L.find? (fun e => e.2.after_all) with
  | none =>
    rw [List.filter_eq_nil_iff]
    intro x hx hpx
    have := List.find?_eq_none.mp hf x hx
    simp [hpx] at this
  | some e =>
    rw [hf] at h
    exact absurd h (by simp)

/-- With a `RunLast` declaration the `RunLast` entries reduce to the
designee. -/
theorem filter_after_singleton {L : List (Nat × CbOptions)} (hwf : WfInput L)
    {l : Nat} (h : lastOf L = some l) :
    ∃ e, L.filter (fun e => e.2.after_all) = [e] ∧ e.1 = l := by
  unfold lastOf at h
  cases hf : L.find? (fun e => e.2.after_all) with
  | none =>
    rw [hf] at h
    exact absurd h (by simp)
  | some e =>
    rw [hf] at h
    injection h with h2
    exact ⟨e, filter_eq_singleton_of_find hwf.one_last hf, h2⟩

/-- The `RunLast` designee is not a scheduled key. -/
theorem last_not_mem_keys {L : List (Nat × CbOptions)} (hwf : WfInput L)
    {l : Nat} (h : lastOf L = some l) :
    l ∉ (L.filter (fun e => !e.2.after_all)).map Prod.fst := by
  rcases lastOf_entry h with ⟨e2, he2, hfst2, ha2⟩
  intro hmem
  rcases List.mem_map.mp hmem with ⟨e, he', hfst⟩
  have he := List.mem_of_mem_filter he'
  have hna := List.of_mem_filter he'
  have : e = e2 := List.inj_on_of_nodup_map hwf.nodup he he2 (hfst.trans hfst2.symm)
  subst this
  rw [ha2] at hna
  exact absurd hna (by simp)

/-- After a successful traversal on a well-formed acyclic input, every
scheduled key is BLACK. -/
theorem setup_all_black {L : List (Nat × CbOptions)} {st0 : SchedState}
    (hwf : WfInput L) (hph : phase1 L = .ok st0)
    (hacyc : ∀ x, ¬ Relation.TransGen (declEdge L) x x)
    {sF : List (Nat × Color)} {dq : List (List Nat)}
    (hrun : runDfs (rootBind st0).children ((rootBind st0).searched.length + 1)
      (rootBind st0).searched (rootBind st0).search_starts = .ok (sF, dq)) :
    ∀ k ∈ ckeys (rootBind st0).searched, cget sF k = some Color.black := by
  have S := sched_setup hwf hph
  intro k hk
  rw [S.keys] at hk
  rcases List.mem_map.mp hk with ⟨e, he', rfl⟩
  have he := List.mem_of_mem_filter he'
  have hna := List.of_mem_filter he'
  cases hb : e.2.before_all with
  | true =>
    have hsome : (L.find? (fun x => x.2.before_all)).isSome :=
      List.find?_isSome.mpr ⟨e, he, hb⟩
    cases hf : L.find? (fun x => x.2.before_all) with
    | none =>
      rw [hf] at hsome
      exact absurd hsome (by simp)
    | some e2 =>
      have he2 := List.mem_of_find?_eq_some hf
      have hpe2 : e2.2.before_all = true := by
        have := List.find?_some hf
        simpa using this
      have heq : e = e2 := mem_unique_of_countP_le_one hwf.one_root he he2 hb hpe2
      have hroot : rootOf L = some e.1 := by
        unfold rootOf
        rw [hf, heq]
        rfl
      rcases runDfs_facts (rootBind st0).children ((rootBind st0).searched.length + 1)
          (rootBind st0).search_starts (rootBind st0).searched sF dq [] hrun
          (dfsGood_initial S) with ⟨_, _, _, _, hstarts, _⟩
      apply hstarts
      rw [S.starts_some e.1 hroot]
      simp
  | false =>
    have hord : ordEntry e = true := by
      simp only [ordEntry, hb, Bool.not_false, Bool.true_and]
      exact hna
    have hco : e.1 ∈ ordCallbacks L :=
      List.mem_map.mpr ⟨e, List.mem_filter.mpr ⟨he, hord⟩, rfl⟩
    rcases setup_reach S hwf hacyc e.1 hco with ⟨s, hs, hpath⟩
    exact start_reaches_black hwf hph hrun hs hpath

/-- A `RunFirst` entry fixes the root designee. -/
theorem rootOf_eq_of_before {L : List (Nat × CbOptions)} (hwf : WfInput L)
    {e : Nat × CbOptions} (he : e ∈ L) (hb : e.2.before_all = true) :
    rootOf L = some e.1 := by
  have hsome : (L.find? (fun x => x.2.before_all)).isSome :=
    List.find?_isSome.mpr ⟨e, he, hb⟩
  cases hf : L.find? (fun x => x.2.before_all) with
  | none =>
    rw [hf] at hsome
    exact absurd hsome (by simp)
  | some e2 =>
    have he2 := List.mem_of_find?_eq_some hf
    have hpe2 : e2.2.before_all = true := by
      have := List.find?_some hf
      simpa using this
    have heq : e = e2 := mem_unique_of_countP_le_one hwf.one_root he he2 hb hpe2
    unfold rootOf
    rw [hf, heq]
    rfl

/-- Any scheduled key other than the `RunFirst` designee has a recorded
parent once the root is bound. -/
theorem nonroot_has_parent {L : List (Nat × CbOptions)} {st : SchedState}
    (S : SetupFacts L st) (hwf : WfInput L) {r : Nat} (hr : rootOf L = some r)
    {m : Nat} (hm : m ∈ ckeys st.searched) (hne : m ≠ r) :
    ∃ p, p ∈ aget st.parents m := by
  rw [S.keys] at hm
  rcases List.mem_map.mp hm with ⟨e, he', rfl⟩
  have he := List.mem_of_mem_filter he'
  have hna := List.of_mem_filter he'
  cases hb : e.2.before_all with
  | true =>
    have := rootOf_eq_of_before hwf he hb
    rw [hr] at this
    injection this with h2
    exact absurd h2.symm hne
  | false =>
    have hord : ordEntry e = true := by
      simp only [ordEntry, hb, Bool.not_false, Bool.true_and]
      exact hna
    have hmo : e.1 ∈ ordCallbacks L :=
      List.mem_map.mpr ⟨e, List.mem_filter.mpr ⟨he, hord⟩, rfl⟩
    by_cases hz : e.1 ∈ zeroParentCallbacks L
    · exact ⟨r, (S.par e.1 r).mpr (Or.inr ⟨hr, hz⟩)⟩
    · exact setup_parents_nonempty S hwf e.1 hmo hz

/-- A declared ordering is recorded in the parent map, between ordinary
callbacks. -/
theorem declEdge_parents {L : List (Nat × CbOptions)} {st : SchedState}
    (S : SetupFacts L st) (hwf : WfInput L) {c p : Nat} (h : declEdge L c p) :
    p ∈ aget st.parents c ∧ c ∈ ordCallbacks L ∧ p ∈ ordCallbacks L := by
  rcases h with ⟨e, he, hfst, hp⟩
  have hord : ordEntry e = true := by
    cases hb : e.2.before_all with
    | true =>
      have := (hwf.root_pure e he hb).2
      rw [CbOptions.declParents, this] at hp
      exact absurd hp (by simp)
    | false =>
      cases ha : e.2.after_all with
      | true =>
        have := hwf.last_pure e he ha
        rw [CbOptions.declParents, this] at hp
        exact absurd hp (by simp)
      | false => simp [ordEntry, hb, ha]
  subst hfst
  refine ⟨(S.par e.1 p).mpr (Or.inl ⟨e, he, rfl, hord, hp⟩),
    List.mem_map.mpr ⟨e, List.mem_filter.mpr ⟨he, hord⟩, rfl⟩,
    hwf.parents_ord e he hord p hp⟩

/-- Reduction of the scheduler without a `RunLast` designee. -/
theorem pgc_ok_none {L : List (Nat × CbOptions)} {st0 : SchedState}
    {sF : List (Nat × Color)} {dq : List (List Nat)} {groups : List (List Nat)}
    (h1 : phase1 L = .ok st0)
    (h2 : runDfs (rootBind st0).children ((rootBind st0).searched.length + 1)
      (rootBind st0).searched (rootBind st0).search_starts = .ok (sF, dq))
    (h3 : groupLoop (rootBind st0).parents ((dq.map List.length).sum + 1) sF dq [] =
      .ok groups)
    (hl : (rootBind st0).last = none) :
    parallel_groups_of_callbacks L = .ok groups := by
  simp only [parallel_groups_of_callbacks, h1, h2, h3, hl, List.append_nil]

/-- Reduction of the scheduler with a `RunLast` designee. -/
theorem pgc_ok_some {L : List (Nat × CbOptions)} {st0 : SchedState}
    {sF : List (Nat × Color)} {dq : List (List Nat)} {groups : List (List Nat)}
    {l : Nat} (h1 : phase1 L = .ok st0)
    (h2 : runDfs (rootBind st0).children ((rootBind st0).searched.length + 1)
      (rootBind st0).searched (rootBind st0).search_starts = .ok (sF, dq))
    (h3 : groupLoop (rootBind st0).parents ((dq.map List.length).sum + 1) sF dq [] =
      .ok groups)
    (hl : (rootBind st0).last = some l) :
    parallel_groups_of_callbacks L = .ok (groups ++ [[l]]) := by
  simp only [parallel_groups_of_callbacks, h1, h2, h3, hl]

/-- Recorded parents are scheduled keys. -/
theorem parent_mem_keys {L : List (Nat × CbOptions)} {st : SchedState}
    (S : SetupFacts L st) (hwf : WfInput L) {m p : Nat}
    (hp : p ∈ aget st.parents m) : p ∈ ckeys st.searched := by
  rw [S.keys]
  rcases (S.par m p).mp hp with ⟨e, he, _, hord, hdp⟩ | ⟨hra, _⟩
  · exact mem_keys_of_ord (hwf.parents_ord e he hord p hdp)
  · exact root_mem_keys hwf hra

/-- With a `RunFirst` designee the traversal produces a single deque
fronted by the designee, and the first grouping pass pops exactly the
designee. -/
theorem root_first_group {L : List (Nat × CbOptions)} {st0 : SchedState}
    (hwf : WfInput L) (hph : phase1 L = .ok st0)
    (hacyc : ∀ x, ¬ Relation.TransGen (declEdge L) x x)
    {sF : List (Nat × Color)} {dq : List (List Nat)}
    (hrun : runDfs (rootBind st0).children ((rootBind st0).searched.length + 1)
      (rootBind st0).searched (rootBind st0).search_starts = .ok (sF, dq))
    {r : Nat} (hr : rootOf L = some r) :
    ∃ tl, dq = [r :: tl] ∧
      passOnce (rootBind st0).parents sF [r :: tl] = .ok ([r], [tl]) := by
  have S := sched_setup hwf hph
  have hrun2 := hrun
  rw [S.starts_some r hr] at hrun2
  cases hdfs : dfsVisit (rootBind st0).children ((rootBind st0).searched.length + 1)
      { searched := (rootBind st0).searched, order := [] } r with
  | error e =>
    rw [runDfs_cons_err hdfs] at hrun2
    exact absurd hrun2 (by simp)
  | ok st1 =>
    have hrest : runDfs (rootBind st0).children ((rootBind st0).searched.length + 1)
        st1.searched [] = .ok (st1.searched, []) := by rw [runDfs]
    rw [runDfs_cons_ok_ok hdfs hrest] at hrun2
    injection hrun2 with h2
    injection h2 with h3 h4
    have hrk : r ∈ ckeys (rootBind st0).searched := by
      rw [S.keys]
      exact root_mem_keys hwf hr
    rcases cget_isSome_of_mem_ckeys hrk with ⟨c, hc⟩
    have hcw := S.white r c hc
    subst hcw
    simp only [dfsVisit, hc] at hdfs
    split at hdfs
    · exact absurd hdfs (by simp)
    · rename_i st2 hfold
      injection hdfs with h5
      subst h5
      simp only at h4
      have hdq : dq = [r :: st2.order.reverse] := by
        rw [← h4]
        cases st2.order <;> simp
      refine ⟨st2.order.reverse, hdq, ?_⟩
      have hnp : aget (rootBind st0).parents r = [] := root_no_parents S hwf.nodup hr
      have hready : readyCheck (rootBind st0).parents sF r = .ok true := by
        unfold readyCheck
        rw [hnp]
        rfl
      rcases runDfs_facts (rootBind st0).children ((rootBind st0).searched.length + 1)
          (rootBind st0).search_starts (rootBind st0).searched sF dq [] hrun
          (dfsGood_initial S) with ⟨hG0, hkeysF, _, _, _, _⟩
      have hGeq : (dq.map List.reverse).flatten = st2.order ++ [r] := by
        rw [hdq]
        simp
      have hG : DfsGood (rootBind st0).children sF (st2.order ++ [r]) := by
        rw [← hGeq]
        simpa using hG0
      have hpop : popReady (rootBind st0).parents sF (r :: st2.order.reverse) =
          .ok ([r], st2.order.reverse) := by
        cases hor : st2.order.reverse with
        | nil =>
          simp only [popReady, hready]
        | cons m tl2 =>
          have hmo : m ∈ st2.order := by
            have : m ∈ st2.order.reverse := by rw [hor]; simp
            simpa using this
          have hmG : m ∈ st2.order ++ [r] := by simp [hmo]
          have hmb : cget sF m = some Color.black := (hG.2.1 m).mpr hmG
          have hmk : m ∈ ckeys (rootBind st0).searched := by
            rw [← hkeysF]
            exact mem_ckeys_of_cget hmb
          have hmr : m ≠ r := by
            intro he
            subst he
            have hnd := hG.1
            rcases List.nodup_append.mp hnd with ⟨_, _, hdisj⟩
            exact hdisj hmo (by simp)
          rcases nonroot_has_parent S hwf hr hmk hmr with ⟨p, hp⟩
          have hpk : p ∈ ckeys (rootBind st0).searched := parent_mem_keys S hwf hp
          have hpb : cget sF p = some Color.black :=
            setup_all_black hwf hph hacyc hrun p hpk
          have hdefm : ∀ q ∈ aget (rootBind st0).parents m, (cget sF q).isSome := by
            intro q hq
            have hqk : q ∈ ckeys (rootBind st0).searched := parent_mem_keys S hwf hq
            rw [← hkeysF] at hqk
            rcases cget_isSome_of_mem_ckeys hqk with ⟨cq, hcq⟩
            simp [hcq]
          have hnotready : readyCheck (rootBind st0).parents sF m = .ok false := by
            rcases readyCheck_spec (rootBind st0).parents sF m hdefm with
              ⟨_, hall⟩ | ⟨hok, _⟩
            · exact absurd hpb (hall p hp)
            · exact hok
          simp only [popReady, hready, hnotready]
      simp only [passOnce, hpop]
      rfl

/-! ## Claim theorems -/

/-- C2 (corrected): on a well-formed constraint set (pairwise-distinct
callbacks, lone pure `RunFirst`/`RunLast`, declared parents that are
ordinary callbacks, and no empty `RunAfter` list) whose declared
orderings form no cycle, the Scheduler succeeds and its groups list
every callback exactly once, place every declared parent in a strictly
earlier group, open with the lone `RunFirst` designee (zero-parent
callbacks all land later), and close with the sole `RunLast` designee. -/
theorem C2_amended (L : List (Nat × CbOptions)) (hwf : WfInput L)
    (hacyc : ∀ x, ¬ Relation.TransGen (declEdge L) x x) :
    ∃ groups, parallel_groups_of_callbacks L = .ok groups ∧
      groups.flatten.Perm (L.map Prod.fst) ∧
      groups.flatten.Nodup ∧
      (∀ c p, declEdge L c p →
        ∃ j, j < groups.length ∧ c ∈ groups.getD j [] ∧ p ∈ (groups.take j).flatten) ∧
      (∀ r, rootOf L = some r →
        groups.getD 0 [] = [r] ∧ ∀ c ∈ zeroParentCallbacks L, c ∉ groups.getD 0 []) ∧
      (∀ l, lastOf L = some l → groups.getLast? = some [l]) := by
  rcases phase1_ok_of_wf hwf with ⟨st0, hph⟩
  have S := sched_setup hwf hph
  have hA : Acyclic (rootBind st0).children := setup_acyclic S hwf hacyc
  have hkeysnd := setup_keys_nodup S hwf
  have hwl : whiteCount (rootBind st0).searched < (rootBind st0).searched.length + 1 := by
    have := whiteCount_eq_length (rootBind st0).searched hkeysnd S.white
    omega
  have hgf : GrayFree (rootBind st0).searched := by
    intro g hg
    have := S.white g Color.gray hg
    exact absurd this (by simp)
  rcases runDfs_ok_of_acyclic (rootBind st0).children hA ((rootBind st0).searched.length + 1)
      (rootBind st0).search_starts (rootBind st0).searched hwl
      (setup_starts_sub S hwf) (setup_keysClosed S hwf) hgf with ⟨out, hrun⟩
  obtain ⟨sF, dq⟩ := out
  rcases runDfs_facts (rootBind st0).children ((rootBind st0).searched.length + 1)
      (rootBind st0).search_starts (rootBind st0).searched sF dq [] hrun
      (dfsGood_initial S) with ⟨hG0, hkeysF, _, _, _, hdne⟩
  have hG : DfsGood (rootBind st0).children sF ((dq.map List.reverse).flatten) := by
    simpa using hG0
  have hblackAll := setup_all_black hwf hph hacyc hrun
  have hndG : (dq.map List.reverse).flatten.Nodup := hG.1
  have hGkeys : ∀ k, k ∈ (dq.map List.reverse).flatten ↔
      k ∈ ckeys (rootBind st0).searched := by
    intro k
    constructor
    · intro hk
      have hb : cget sF k = some Color.black := (hG.2.1 k).mpr hk
      have h2 : k ∈ ckeys sF := mem_ckeys_of_cget hb
      rwa [hkeysF] at h2
    · intro hk
      exact (hG.2.1 k).mp (hblackAll k hk)
  have hpermGK : (dq.map List.reverse).flatten.Perm (ckeys (rootBind st0).searched) :=
    (List.perm_ext_iff_of_nodup hndG hkeysnd).mpr hGkeys
  have hPL : ParentsLater (rootBind st0).parents (dq.map List.reverse).flatten := by
    intro k hk p hp
    have hpkeys : p ∈ ckeys (rootBind st0).searched := parent_mem_keys S hwf hp
    have hpG : p ∈ (dq.map List.reverse).flatten := (hGkeys p).mpr hpkeys
    exact ⟨hpG, hG.2.2 p hpG k ((S.conv p k).mpr hp)⟩
  have hdqmem : ∀ k, k ∈ dq.flatten ↔ k ∈ (dq.map List.reverse).flatten := by
    intro k
    exact ((flatten_map_reverse_perm dq).mem_iff).symm
  have hInv : GroupInv (dq.map List.reverse).flatten sF dq := by
    refine ⟨hdne, ?_, ?_, ?_, ?_, ?_, ?_⟩
    · intro k hk
      exact (hdqmem k).mp hk
    · exact ((flatten_map_reverse_perm dq).nodup_iff).mp hndG
    · intro d hd
      have hsub : d.reverse.Sublist (dq.map List.reverse).flatten :=
        List.sublist_flatten_of_mem (List.mem_map.mpr ⟨d, hd, rfl⟩)
      have hpw := pairwise_idx_of_sublist hndG hsub
      rw [List.pairwise_reverse] at hpw
      exact hpw
    · intro k
      exact (hG.2.1 k).trans (hdqmem k).symm
    · intro k hkG hknot
      exact absurd ((hdqmem k).mpr hkG) hknot
    · intro k hkG
      exact Or.inl ((hG.2.1 k).mpr hkG)
  have hfl : dq.flatten.length < (dq.map List.length).sum + 1 := by
    rw [List.length_flatten]
    omega
  rcases groupLoop_ok (rootBind st0).parents (dq.map List.reverse).flatten hndG hPL
      ((dq.map List.length).sum + 1) sF dq [] hInv hfl with
    ⟨acc2, hloop, hperm2, hpar, hfirst⟩
  rw [List.nil_append] at hloop
  have hkperm : acc2.flatten.Perm (ckeys (rootBind st0).searched) :=
    (hperm2.trans (flatten_map_reverse_perm dq).symm).trans hpermGK
  have hdecl : ∀ c p, declEdge L c p →
      ∃ j, j < acc2.length ∧ c ∈ acc2.getD j [] ∧ p ∈ (acc2.take j).flatten := by
    intro c p hd
    rcases declEdge_parents S hwf hd with ⟨hpc, hco, hpo⟩
    have hck : c ∈ ckeys (rootBind st0).searched := by
      rw [S.keys]
      exact mem_keys_of_ord hco
    have hcin : c ∈ acc2.flatten := hkperm.mem_iff.mpr hck
    rcases List.mem_flatten.mp hcin with ⟨g, hg, hcg⟩
    rcases List.getElem_of_mem hg with ⟨j, hj, hgj⟩
    have hcj : c ∈ acc2.getD j [] := by
      rw [List.getD_eq_getElem?_getD, List.getElem?_eq_getElem hj]
      simpa [hgj] using hcg
    rcases hpar j c hcj p hpc with hpin | hwhite
    · exact ⟨j, hj, hcj, hpin⟩
    · exfalso
      have hpk : p ∈ ckeys (rootBind st0).searched := by
        rw [S.keys]
        exact mem_keys_of_ord hpo
      have hpb := hblackAll p hpk
      rw [hpb] at hwhite
      injection hwhite with h2
      exact Color.noConfusion h2
  have hroot : ∀ r, rootOf L = some r → acc2.getD 0 [] = [r] := by
    intro r hr
    rcases root_first_group hwf hph hacyc hrun hr with ⟨tl, hdqeq, hpassM⟩
    rcases hfirst (r :: tl) [] hdqeq with ⟨grp, ds2, hpassT, hgd⟩
    rw [hdqeq, hpassM] at hpassT
    injection hpassT with h2
    injection h2 with h3 _
    rw [hgd, ← h3]
  have hrootnm : ∀ r, rootOf L = some r →
      ∀ c ∈ zeroParentCallbacks L, c ∉ ([r] : List Nat) := by
    intro r hr c hc hmem
    simp only [List.mem_singleton] at hmem
    subst hmem
    exact root_not_ord hwf.nodup hr (zeroParent_sub_ord hc)
  cases hlast : lastOf L with
  | none =>
    have hstl : (rootBind st0).last = none := by rw [S.lastc, hlast]
    have hip : acc2.flatten.Perm (L.map Prod.fst) := by
      have hk2 := hkperm
      rw [S.keys] at hk2
      have h3 := map_fst_split (L := L)
      rw [filter_after_nil hlast] at h3
      simp only [List.map_nil, List.append_nil] at h3
      exact hk2.trans h3.symm
    refine ⟨acc2, pgc_ok_none hph hrun hloop hstl, hip,
      hip.nodup_iff.mpr hwf.nodup, hdecl, ?_, ?_⟩
    · intro r hr
      refine ⟨hroot r hr, ?_⟩
      intro c hc
      rw [hroot r hr]
      exact hrootnm r hr c hc
    · intro l2 hl2
      exact absurd hl2 (by simp)
  | some l =>
    have hstl : (rootBind st0).last = some l := by rw [S.lastc, hlast]
    have hip : (acc2 ++ [[l]]).flatten.Perm (L.map Prod.fst) := by
      have hk2 := hkperm
      rw [S.keys] at hk2
      have h3 := map_fst_split (L := L)
      rcases filter_after_singleton hwf hlast with ⟨e2, hfe, hfst2⟩
      rw [hfe] at h3
      simp only [List.map_cons, List.map_nil] at h3
      rw [hfst2] at h3
      have hflat : (acc2 ++ [[l]]).flatten = acc2.flatten ++ [l] := by simp
      rw [hflat]
      exact (hk2.append_right [l]).trans h3.symm
    refine ⟨acc2 ++ [[l]], pgc_ok_some hph hrun hloop hstl, hip,
      hip.nodup_iff.mpr hwf.nodup, ?_, ?_, ?_⟩
    · intro c p hd
      rcases hdecl c p hd with ⟨j, hj, hcj, hpj⟩
      refine ⟨j, ?_, ?_, ?_⟩
      · rw [List.length_append]
        omega
      · rw [List.getD_eq_getElem?_getD, List.getElem?_append_left hj,
          ← List.getD_eq_getElem?_getD]
        exact hcj
      · rw [List.take_append_of_le_length (le_of_lt hj)]
        exact hpj
    · intro r hr
      have hlen : 0 < acc2.length := by
        cases hacc : acc2 with
        | nil =>
          have h9 := hroot r hr
          rw [hacc] at h9
          exact absurd h9 (by simp)
        | cons a t => simp
      have h0 : (acc2 ++ [[l]]).getD 0 [] = [r] := by
        rw [List.getD_eq_getElem?_getD, List.getElem?_append_left hlen,
          ← List.getD_eq_getElem?_getD]
        exact hroot r hr
      refine ⟨h0, ?_⟩
      intro c hc
      rw [h0]
      exact hrootnm r hr c hc
    · intro l2 hl2
      injection hl2 with h2
      subst h2
      exact List.getLast?_concat acc2

/-- A rank function decreasing along declared parents rules out cycles. -/
theorem declAcyclic_of_rank (L : List (Nat × CbOptions)) (f : Nat → Nat)
    (h : ∀ e ∈ L, ∀ p ∈ e.2.declParents, f e.1 < f p) :
    ∀ x, ¬ Relation.TransGen (declEdge L) x x := by
  have hstep : ∀ a b, declEdge L a b → f a < f b := by
    rintro a b ⟨e, he, rfl, hp⟩
    exact h e he b hp
  have hmono : ∀ a b, Relation.TransGen (declEdge L) a b → f a < f b := by
    intro a b hab
    induction hab with
    | single e => exact hstep _ _ e
    | tail _ e ih => exact lt_trans ih (hstep _ _ e)
  intro x hx
  exact lt_irrefl _ (hmono x x hx)

/-- C2 counterexample: a single callback declared `RunAfter` with an
EMPTY parent list is silently dropped: its constraint set is trivially
acyclic, yet the Scheduler emits no group at all, so the callback
appears in no group, refuting "each callback appears in exactly one
group". -/
theorem C2_counterexample :
    (∀ x, ¬ Relation.TransGen (declEdge [(0, { run_after := .many [] })]) x x) ∧
    parallel_groups_of_callbacks [(0, { run_after := .many [] })] = .ok [] := by
  constructor
  · exact declAcyclic_of_rank _ (fun n => n) (by decide)
  · rfl

/-- C2 witness: the four-callback set `RunFirst 0; 1; 2 after 1;
RunLast 3` is well formed and acyclic, so the corrected schedule shape
theorem applies to it. -/
theorem C2_witness :
    WfInput [(0, { before_all := true }), (1, {}),
      (2, { run_after := .single 1 }), (3, { after_all := true })] ∧
    (∀ x, ¬ Relation.TransGen
      (declEdge [(0, { before_all := true }), (1, {}),
        (2, { run_after := .single 1 }), (3, { after_all := true })]) x x) ∧
    (∃ groups, parallel_groups_of_callbacks
        [(0, { before_all := true }), (1, {}),
          (2, { run_after := .single 1 }), (3, { after_all := true })] = .ok groups ∧
      groups.flatten.Perm (([(0, { before_all := true }), (1, {}),
          (2, { run_after := .single 1 }),
          (3, { after_all := true })] : List (Nat × CbOptions)).map Prod.fst) ∧
      groups.flatten.Nodup ∧
      (∀ c p, declEdge [(0, { before_all := true }), (1, {}),
          (2, { run_after := .single 1 }), (3, { after_all := true })] c p →
        ∃ j, j < groups.length ∧ c ∈ groups.getD j [] ∧ p ∈ (groups.take j).flatten) ∧
      (∀ r, rootOf [(0, { before_all := true }), (1, {}),
          (2, { run_after := .single 1 }), (3, { after_all := true })] = some r →
        groups.getD 0 [] = [r] ∧
          ∀ c ∈ zeroParentCallbacks [(0, { before_all := true }), (1, {}),
            (2, { run_after := .single 1 }), (3, { after_all := true })],
            c ∉ groups.getD 0 []) ∧
      (∀ l, lastOf [(0, { before_all := true }), (1, {}),
          (2, { run_after := .single 1 }), (3, { after_all := true })] = some l →
        groups.getLast? = some [l])) := by
  have hra : ∀ e ∈ [((0 : Nat), ({ before_all := true } : CbOptions)), (1, {}),
      (2, { run_after := .single 1 }), (3, { after_all := true })],
      ∀ cs, e.2.run_after = RunAfterDecl.many cs → cs ≠ [] := by
    intro e he cs hcs
    simp only [List.mem_cons, List.not_mem_nil, or_false] at he
    rcases he with rfl | rfl | rfl | rfl
    · exact absurd hcs (by simp)
    · exact absurd hcs (by simp)
    · exact absurd hcs (by simp)
    · exact absurd hcs (by simp)
  have hwf : WfInput [(0, { before_all := true }), (1, {}),
      (2, { run_after := .single 1 }), (3, { after_all := true })] :=
    ⟨by decide, by decide, by decide, by decide, by decide, by decide, hra⟩
  have hacyc := declAcyclic_of_rank
    [(0, { before_all := true }), (1, {}),
      (2, { run_after := .single 1 }), (3, { after_all := true })]
    (fun n => 5 - n) (by decide)
  exact ⟨hwf, hacyc, C2_amended _ hwf hacyc⟩

/-- C3 (corrected): on a well-formed constraint set whose declared
`RunAfter` orderings contain a cycle REACHABLE from a zero-parent start
point, the Scheduler fails with the circular-dependency error `"Detect
circle."` before any group is emitted; a cycle not reachable from any
start point is silently ignored (see the counterexample). -/
theorem C3_amended (L : List (Nat × CbOptions)) (hwf : WfInput L)
    (hcyc : ∃ s ∈ zeroParentCallbacks L, ∃ x,
      Relation.ReflTransGen (fun a b => declEdge L b a) s x ∧
      Relation.TransGen (fun a b => declEdge L b a) x x) :
    parallel_groups_of_callbacks L = .error "Detect circle." := by
  rcases phase1_ok_of_wf hwf with ⟨st0, hph⟩
  have S := sched_setup hwf hph
  rcases hcyc with ⟨s, hs, x, hpath, hx⟩
  have hpath2 : Relation.ReflTransGen (chEdge (rootBind st0).children) s x :=
    Relation.ReflTransGen.mono (fun a b h => declEdge_to_chEdge S hwf h) hpath
  have hx2 : Relation.TransGen (chEdge (rootBind st0).children) x x :=
    Relation.TransGen.mono (fun a b h => declEdge_to_chEdge S hwf h) hx
  have hwl : whiteCount (rootBind st0).searched < (rootBind st0).searched.length + 1 := by
    have := whiteCount_eq_length (rootBind st0).searched (setup_keys_nodup S hwf) S.white
    omega
  rcases runDfs_tri (rootBind st0).children ((rootBind st0).searched.length + 1)
      (rootBind st0).search_starts (rootBind st0).searched hwl
      (setup_starts_sub S hwf) (setup_keysClosed S hwf) with herr | ⟨out, hok⟩
  · exact pgc_runDfs_err hph herr
  · exfalso
    obtain ⟨sF, dq⟩ := out
    have hxb : cget sF x = some Color.black := start_reaches_black hwf hph hok hs hpath2
    rcases runDfs_facts (rootBind st0).children ((rootBind st0).searched.length + 1)
        (rootBind st0).search_starts (rootBind st0).searched sF dq [] hok
        (dfsGood_initial S) with ⟨hG, _, _, _, _, _⟩
    have hxdone : x ∈ ([] ++ (dq.map List.reverse).flatten) := (hG.2.1 x).mp hxb
    exact no_cycle_in_done hG hxdone hx2

/-- C3 counterexample: the two-callback cycle `0 after 1, 1 after 0`
has no zero-parent start point, so the traversal never reaches it: the
Scheduler returns an empty schedule instead of the circular-dependency
error, refuting "a cycle anywhere always yields the error". -/
theorem C3_counterexample :
    Relation.TransGen
      (fun a b => declEdge
        [(0, { run_after := .single 1 }), (1, { run_after := .single 0 })] b a) 0 0 ∧
    parallel_groups_of_callbacks
      [(0, { run_after := .single 1 }), (1, { run_after := .single 0 })] = .ok [] := by
  constructor
  · have e01 : declEdge
        [(0, { run_after := .single 1 }), (1, { run_after := .single 0 })] 1 0 :=
      ⟨(1, { run_after := .single 0 }), by decide, rfl, by decide⟩
    have e10 : declEdge
        [(0, { run_after := .single 1 }), (1, { run_after := .single 0 })] 0 1 :=
      ⟨(0, { run_after := .single 1 }), by decide, rfl, by decide⟩
    exact Relation.TransGen.head e01 (Relation.TransGen.single e10)
  · rfl

/-- C3 witness: a three-callback set with start point `0` feeding the
cycle `1 after 2, 2 after 1` is rejected with the circular-dependency
error. -/
theorem C3_witness :
    WfInput [(0, {}), (1, { run_after := .many [0, 2] }), (2, { run_after := .single 1 })] ∧
    parallel_groups_of_callbacks
      [(0, {}), (1, { run_after := .many [0, 2] }), (2, { run_after := .single 1 })] =
      .error "Detect circle." := by
  have hra : ∀ e ∈ [((0 : Nat), ({} : CbOptions)),
      (1, { run_after := .many [0, 2] }), (2, { run_after := .single 1 })],
      ∀ cs, e.2.run_after = RunAfterDecl.many cs → cs ≠ [] := by
    intro e he cs hcs
    simp only [List.mem_cons, List.not_mem_nil, or_false] at he
    rcases he with rfl | rfl | rfl
    · exact absurd hcs (by simp)
    · injection hcs with h2
      subst h2
      simp
    · exact absurd hcs (by simp)
  have hwf : WfInput
      [(0, {}), (1, { run_after := .many [0, 2] }), (2, { run_after := .single 1 })] :=
    ⟨by decide, by decide, by decide, by decide, by decide, by decide, hra⟩
  have e01 : declEdge [(0, {}), (1, { run_after := .many [0, 2] }),
      (2, { run_after := .single 1 })] 1 0 :=
    ⟨(1, { run_after := .many [0, 2] }), by decide, rfl, by decide⟩
  have e12 : declEdge [(0, {}), (1, { run_after := .many [0, 2] }),
      (2, { run_after := .single 1 })] 2 1 :=
    ⟨(2, { run_after := .single 1 }), by decide, rfl, by decide⟩
  have e21 : declEdge [(0, {}), (1, { run_after := .many [0, 2] }),
      (2, { run_after := .single 1 })] 1 2 :=
    ⟨(1, { run_after := .many [0, 2] }), by decide, rfl, by decide⟩
  refine ⟨hwf, C3_amended _ hwf ⟨0, by decide, 1, ?_, ?_⟩⟩
  · exact Relation.ReflTransGen.single e01
  · exact Relation.TransGen.head e12 (Relation.TransGen.single e21)


/-- Claim C1, counterexample: for a run whose attributes collection
selects callback `0` (root) and callback `1` (child `x`, declared
`run_after` callback `0`), the Invoke phase executes both callbacks in
one concurrent batch, while the Dependency Scheduler's schedule for the
same constraint set has two strictly sequenced groups — so the Invoke
phase does not execute the Scheduler's groups in sequence (it never
consults the Scheduler). -/
theorem C1_counterexample :
    select_callbacks exResourceC1 exStateC1 =
      [("attributes",
        [(0, exSchemaRootX, some exStateNodeC1), (1, Attr.mk ["x"] [], some (StateNode.mk []))]),
       ("relationships", []), ("resource_id", [])] ∧
    invokeExecutionGroups
        [(0, exSchemaRootX, some exStateNodeC1), (1, Attr.mk ["x"] [], some (StateNode.mk []))] =
      [[0, 1]] ∧
    parallel_groups_of_callbacks [(0, {}), (1, { run_after := .single 0 })] = .ok [[0], [1]] ∧
    ([[0, 1]] : List (List Nat)) ≠ [[0], [1]] :=
  ⟨rfl, rfl, rfl, by decide⟩

/-- Claim C1, amended: for every collection in one pipeline run, the
Invoke phase does not consult the Dependency Scheduler; it executes all
of the collection's selected callbacks as a single concurrent batch
(`asyncio.gather` over every selected callback), so the executed
grouping is one group holding the whole selection, regardless of the
declared ordering constraints (which selection has already discarded). -/
theorem C1_amended (triples : List Triple) :
    invokeExecutionGroups triples = [triples.map (fun t => t.1)] := by
  unfold invokeExecutionGroups invokeGathersForCollection
  rw [invokeGathers_spec]
  simp

/-- Claim C4, counterexample: a callback declared both `RunLast`
(`after_all`) and `RunAfter` another callback raises no conflict — the
scheduler succeeds, silently discarding the declared parent. -/
theorem C4_counterexample :
    parallel_groups_of_callbacks
        [(0, {}), (1, { after_all := true, run_after := .single 0 })] =
      .ok [[0], [1]] ∧
    ∀ msg, parallel_groups_of_callbacks
        [(0, {}), (1, { after_all := true, run_after := .single 0 })] ≠ .error msg := by
  refine ⟨rfl, fun msg h => ?_⟩
  exact Except.noConfusion
    ((rfl : parallel_groups_of_callbacks
        [(0, {}), (1, { after_all := true, run_after := .single 0 })] =
      .ok [[0], [1]]).symm.trans h)

/-- Claim C4, amended: the Scheduler fails with a configuration-conflict
error, before emitting any group, whenever two callbacks are declared
`RunFirst`, or two are declared `RunLast`, or a single callback combines
`RunFirst` with `RunLast` or with a truthy `RunAfter` declaration
(combining `RunLast` with `RunAfter` raises no error; the declared
parents are silently discarded). -/
theorem C4_amended (input : List (Nat × CbOptions)) :
    (2 ≤ input.countP (fun e => e.2.before_all) →
      isConflictResult (parallel_groups_of_callbacks input)) ∧
    (2 ≤ input.countP (fun e => e.2.after_all) →
      isConflictResult (parallel_groups_of_callbacks input)) ∧
    ((∃ e ∈ input, e.2.before_all = true ∧
        (e.2.after_all = true ∨ e.2.run_after.truthy = true)) →
      isConflictResult (parallel_groups_of_callbacks input)) :=
  ⟨fun h => conflictState_to_result (fold_conflict_two_before _ (Or.inl h)),
   fun h => conflictState_to_result (fold_conflict_two_after _ (Or.inl h)),
   fun h => conflictState_to_result (fold_conflict_mixed _ h)⟩

/-- Claim C4, witness: concrete conflicting inputs on which the amended
statement fires — two `RunFirst` callbacks, two `RunLast` callbacks, and
one callback combining `RunFirst` with `RunAfter`. -/
theorem C4_witness :
    isConflictResult (parallel_groups_of_callbacks
      [(0, { before_all := true }), (1, { before_all := true })]) ∧
    isConflictResult (parallel_groups_of_callbacks
      [(0, { after_all := true }), (1, { after_all := true })]) ∧
    isConflictResult (parallel_groups_of_callbacks
      [(0, { before_all := true, run_after := .single 1 })]) :=
  ⟨(C4_amended _).1 (by decide),
   (C4_amended _).2.1 (by decide),
   (C4_amended _).2.2 (by decide)⟩

/-- Claim C5, counterexample: with an absent root state, the selection
for a collection includes the non-root node `x` (whose own state is
absent) because the code's condition is `state or root_state is None`,
not "state present or node is the root". -/
theorem C5_counterexample :
    _select_callbacks exQueryC5 exSchemaRootX Option.none =
      [(7, Attr.mk ["x"] [], Option.none)] ∧
    (Attr.mk ["x"] []).bh_path ≠ exSchemaRootX.bh_path :=
  ⟨rfl, by decide⟩

/-- Claim C5, amended: during selection over one collection, a
(callback, node, state) triple is included exactly when a callback is
registered for the active operation at the node's path AND either the
node's state is present or the collection's root state is absent — in
breadth-first visit order.  In particular, when the root state is
absent, every visited node with a registered callback is included with
an absent state. -/
theorem C5_amended (query : List String → Option (Nat × CbOptions)) (root_attr : Attr)
    (root_state : Option StateNode) :
    _select_callbacks query root_attr root_state =
      (bfsNodes (root_attr.count + 1) [(root_attr, root_state)] []).filterMap
        (selFilter query root_state) :=
  selectLoop_filter query root_state (root_attr.count + 1) [(root_attr, root_state)]

/-- Claim C6, counterexample: the resource-identifier collection is
never fed to the Schema Tree Selector — `select_callbacks` returns the
empty list for it even when running the selector over that collection's
schema would produce a selected triple. -/
theorem C6_counterexample :
    select_callbacks exResourceC6 exStateC6 =
      [("attributes", []), ("relationships", []), ("resource_id", [])] ∧
    _select_callbacks exIdColC6.query exIdColC6.attr_obj exStateC6.resource_id =
      [(9, Attr.mk [] [], Option.none)] ∧
    ([] : List Triple) ≠ [(9, Attr.mk [] [], Option.none)] :=
  ⟨rfl, rfl, fun h => List.noConfusion h⟩

/-- Claim C6, amended: the SelectCallbacks phase runs the Schema Tree
Selector once for each of `attributes` and `relationships` that the
resource declares (against that collection's input state); a collection
the resource does not declare, and always the resource-identifier
collection, instead receives the empty selection. -/
theorem C6_amended (resource : Resource) (state : ResourceState) :
    (select_callbacks resource state).lookup "resource_id" = some [] ∧
    (∀ col, resource.attributes = some col →
      (select_callbacks resource state).lookup "attributes" =
        some (_select_callbacks col.query col.attr_obj state.attributes)) ∧
    (resource.attributes = Option.none →
      (select_callbacks resource state).lookup "attributes" = some []) ∧
    (∀ col, resource.relationships = some col →
      (select_callbacks resource state).lookup "relationships" =
        some (_select_callbacks col.query col.attr_obj state.relationships)) ∧
    (resource.relationships = Option.none →
      (select_callbacks resource state).lookup "relationships" = some []) := by
  obtain ⟨oa, orel, oid⟩ := resource
  cases oa with
  | none =>
    cases orel with
    | none =>
      refine ⟨rfl, ?_, fun _ => rfl, ?_, fun _ => rfl⟩
      · intro col hcol
        cases hcol
      · intro col hcol
        cases hcol
    | some colR =>
      refine ⟨rfl, ?_, fun _ => rfl, ?_, ?_⟩
      · intro col hcol
        cases hcol
      · intro col hcol
        cases hcol
        rfl
      · intro hcol
        cases hcol
  | some colA =>
    cases orel with
    | none =>
      refine ⟨rfl, ?_, ?_, ?_, fun _ => rfl⟩
      · intro col hcol
        cases hcol
        rfl
      · intro hcol
        cases hcol
      · intro col hcol
        cases hcol
    | some colR =>
      refine ⟨rfl, ?_, ?_, ?_, ?_⟩
      · intro col hcol
        cases hcol
        rfl
      · intro hcol
        cases hcol
      · intro col hcol
        cases hcol
        rfl
      · intro hcol
        cases hcol

/-- Claim C6, witness: the amended statement applied to a resource with
no attributes collection and to one whose attributes collection is
declared. -/
theorem C6_witness :
    (select_callbacks exResourceC6 exStateC6).lookup "attributes" = some [] ∧
    (select_callbacks exResourceC1 exStateC1).lookup "attributes" =
      some (_select_callbacks exQueryC1 exSchemaRootX exStateC1.attributes) :=
  ⟨(C6_amended exResourceC6 exStateC6).2.2.1 rfl,
   (C6_amended exResourceC1 exStateC1).2.1 _ rfl⟩

/-- Claim C7: merging the path-to-result mapping with result 1 at path
`a.b` and result 2 at path `a.c` yields the nested structure
`a ↦ (b ↦ 1, c ↦ 2)` — paths are split into intermediate nodes and
reassembled into one mapping per shared prefix. -/
theorem C7_merge_round_trip :
    _merge_output_of_callbacks (buildTreeState [(["a", "b"], .int 1), (["a", "c"], .int 2)]) =
      .dict [("a", .dict [("b", .int 1), ("c", .int 2)])] := by rfl

/-- Claim C8, counterexample: a stored leaf value `0` is falsy, so the
merge reconstruction discards it and yields the accumulated value
(`None` here) instead of the stored `0`. -/
theorem C8_counterexample :
    _merge_output_of_callbacks (buildTreeState [(["a"], PyVal.int 0)]) =
      .dict [("a", PyVal.none)] ∧
    PyVal.none ≠ PyVal.int 0 :=
  ⟨rfl, fun h => PyVal.noConfusion h⟩

/-- Claim C8, amended: in the merge reconstruction, a node with no
children yields the raw value stored at it when that value is truthy,
and the accumulated value when the stored value is falsy (`None`, `0`,
`False`, an empty container) or when no value was stored. -/
theorem C8_amended (name : String) (v : PyVal) :
    _merge_output_of_callbacks (buildTreeState [([name], v)]) =
      .dict [(name, if v.truthy then v else PyVal.none)] := by rfl

/-- Claim C9: if the input state fails input validation, the pipeline
run aborts with the surfaced validation failure before the
callback-selection and invoke phases run, so zero callbacks are invoked
in that run. -/
theorem C9_validation_aborts (collab : Collaborators)
    (cbBeh : Nat → Attr → Option StateNode → PyVal) (resource : Resource)
    (h : collab.validate_input_state (collab.build_input_state resource) = false) :
    pipelineRun collab cbBeh resource = (.error "TODO: input state not valid", []) := by
  simp [pipelineRun, h]

/-- Claim C9, witness: a run with a rejecting input validation rule
aborts with the validation error and an empty invocation trace. -/
theorem C9_witness :
    pipelineRun exCollabC9 (fun _ _ _ => PyVal.none) exResourceC6 =
      (.error "TODO: input state not valid", []) :=
  C9_validation_aborts exCollabC9 _ exResourceC6 rfl

/-- Claim C10: `async_call` with no positional arguments passes the
target exactly those keyword arguments whose names are parameters of
the target (silently dropping all others), and raises
`RuntimeError('Missing keys')` without calling the target when some
parameter lacking a default is absent from the supplied keywords. -/
theorem C10_kwargs_filtering (sig : PyFuncSig) (kwargs : List (String × PyVal)) :
    (async_call_no_positional sig kwargs = .error "Missing keys" ↔
      ∃ p ∈ sig.params_without_default, p ∉ kwargs.map Prod.fst) ∧
    ∀ passed, async_call_no_positional sig kwargs = .ok passed →
      passed = kwargs.filter (fun kv => sig.params_all.contains kv.1) := by
  rw [async_call_eq]
  simp only [_extract_kwargs_subset]
  split
  next hall =>
    rw [List.all_eq_true] at hall
    constructor
    · constructor
      · intro habs
        exact absurd habs (by simp)
      · rintro ⟨p, hp, hnp⟩
        exact absurd (of_decide_eq_true (hall p hp)) hnp
    · intro passed hok
      injection hok with h2
      exact h2.symm
  next hall =>
    constructor
    · constructor
      · intro _
        by_contra hne
        push_neg at hne
        exact hall (List.all_eq_true.mpr (fun p hp => decide_eq_true (hne p hp)))
      · intro _
        rfl
    · intro passed hok
      exact absurd hok (by simp)

/-- Claim C10, witness: on a concrete signature, the passed keywords are
exactly the declared ones, and a missing defaultless parameter raises
the missing-keys error without calling the target. -/
theorem C10_witness :
    ([("a", PyVal.int 1)] : List (String × PyVal)) =
      List.filter (fun kv => (["a", "b"].contains kv.1))
        [("a", PyVal.int 1), ("c", PyVal.int 2)] ∧
    async_call_no_positional ⟨["a"], ["a"]⟩ [("b", PyVal.int 3)] = .error "Missing keys" :=
  ⟨(C10_kwargs_filtering ⟨["a", "b"], ["a"]⟩ [("a", PyVal.int 1), ("c", PyVal.int 2)]).2
      [("a", PyVal.int 1)] rfl,
   (C10_kwargs_filtering ⟨["a"], ["a"]⟩ [("b", PyVal.int 3)]).1.mpr
      ⟨"a", by decide, by decide⟩⟩

/-! ## Sanity checks of the embedding on concrete runs -/

example : parallel_groups_of_callbacks
    [(0, { before_all := true }), (1, {}), (2, { run_after := .single 1 }),
     (3, { after_all := true })] =
    .ok [[0], [1], [2], [3]] := by rfl

example : parallel_groups_of_callbacks
    [(0, {}), (1, {}), (2, { run_after := .many [0, 1] })] =
    .ok [[0, 1], [2]] := by rfl

example : parallel_groups_of_callbacks
    [(0, { run_after := .single 1 }), (1, { run_after := .single 0 })] =
    .ok [] := by rfl

example : parallel_groups_of_callbacks
    [(0, {}), (1, { run_after := .single 0 }), (2, { run_after := .single 1 }),
     (3, { run_after := .single 0 })] =
    .ok [[0], [3, 1], [2]] := by rfl

example : parallel_groups_of_callbacks
    [(0, {}), (1, { run_after := .many [0, 2] }), (2, { run_after := .single 1 })] =
    .error "Detect circle." := by rfl

example : _merge_output_of_callbacks
    (buildTreeState [(["a", "b"], .int 1), (["a", "c"], .int 2)]) =
    .dict [("a", .dict [("b", .int 1), ("c", .int 2)])] := by rfl

end Restpf
